import Mathlib

/-!
# Pareto smoothed importance sampling (`src/psis.cc`)

A shallow embedding of `logSum`, `gpdfitnew`, `gpinv` and `psislw`.

## Number model

A C++ `double` is a value of `Dbl α`: NaN, minus infinity, a finite number of the ordered
field `α`, or plus infinity.  The arithmetic on `Dbl α` follows the IEEE 754 rules for the
special values (NaN propagates, `inf - inf = NaN`, `0 * inf = NaN`, `x / 0 = ±inf`,
every comparison with NaN is false) and is exact on finite values: rounding, overflow and
underflow are not modelled, a zero is the positive zero, and a decimal literal such as `0.2`
stands for the rational it denotes.

The functions of `<cmath>` on finite arguments are the fields of a record `CMath α`; the
wrappers in `Dbl` add the behaviour at the special values and outside the domain.  The
definitions are therefore executable for any ordered field with a floor function; theorems
that speak about the values of `exp`, `log`, `sqrt` are stated for `α = ℝ` and a record that
agrees with the real functions (`CMath.Exact`).

Undefined behaviour (an index out of range, the conversion of NaN or an infinity to `int`,
`max_element` of an empty vector) is `none`.  Output to `std::cout` is left out.
-/

/-- A double: not-a-number, minus infinity, a finite value, plus infinity. -/
inductive Dbl (α : Type) where
  | nan : Dbl α
  | ninf : Dbl α
  | fin : α → Dbl α
  | pinf : Dbl α

/-- The functions of `<cmath>` the program calls, on finite arguments inside their domain. -/
structure CMath (α : Type) where
  /-- The function `std::exp` -/
  exp : α → α
  /-- The function `std::log` on a positive argument -/
  log : α → α
  /-- The function `std::log1p` on an argument above `-1` -/
  log1p : α → α
  /-- The function `std::expm1` -/
  expm1 : α → α
  /-- The function `std::sqrt` on a non-negative argument -/
  sqrt : α → α

/-- The record `M` computes the real functions exactly. -/
structure CMath.Exact (M : CMath ℝ) : Prop where
  exp_eq : ∀ x, M.exp x = Real.exp x
  log_eq : ∀ x, M.log x = Real.log x
  log1p_eq : ∀ x, M.log1p x = Real.log (1 + x)
  expm1_eq : ∀ x, M.expm1 x = Real.exp x - 1
  sqrt_eq : ∀ x, M.sqrt x = Real.sqrt x

namespace Dbl

variable {α : Type} [LinearOrderedField α]

/-- Unary minus. -/
def neg : Dbl α → Dbl α
  | nan => nan
  | ninf => pinf
  | fin x => fin (-x)
  | pinf => ninf

/-- Addition: `inf + (-inf)` is NaN. -/
def add : Dbl α → Dbl α → Dbl α
  | nan, _ => nan
  | ninf, nan => nan
  | ninf, ninf => ninf
  | ninf, fin _ => ninf
  | ninf, pinf => nan
  | fin _, nan => nan
  | fin _, ninf => ninf
  | fin x, fin y => fin (x + y)
  | fin _, pinf => pinf
  | pinf, nan => nan
  | pinf, ninf => nan
  | pinf, fin _ => pinf
  | pinf, pinf => pinf

/-- Subtraction, `a - b = a + (-b)`. -/
def sub (a b : Dbl α) : Dbl α := add a (neg b)

/-- The infinity with the sign of `x` times the sign of a positive infinity; NaN at zero. -/
def infTimes (x : α) : Dbl α :=
  if 0 < x then pinf else if x < 0 then ninf else nan

/-- Multiplication: `0 * inf` is NaN. -/
def mul : Dbl α → Dbl α → Dbl α
  | nan, _ => nan
  | ninf, nan => nan
  | ninf, ninf => pinf
  | ninf, fin y => neg (infTimes y)
  | ninf, pinf => ninf
  | fin _, nan => nan
  | fin x, ninf => neg (infTimes x)
  | fin x, fin y => fin (x * y)
  | fin x, pinf => infTimes x
  | pinf, nan => nan
  | pinf, ninf => ninf
  | pinf, fin y => infTimes y
  | pinf, pinf => pinf

/-- Division: `x / 0` is an infinity with the sign of `x`, `0 / 0` and `inf / inf` are NaN,
a finite value over an infinity is zero. -/
def div : Dbl α → Dbl α → Dbl α
  | nan, _ => nan
  | ninf, nan => nan
  | ninf, ninf => nan
  | ninf, fin y => if y < 0 then pinf else ninf
  | ninf, pinf => nan
  | fin _, nan => nan
  | fin _, ninf => fin 0
  | fin x, fin y => if y = 0 then infTimes x else fin (x / y)
  | fin _, pinf => fin 0
  | pinf, nan => nan
  | pinf, ninf => nan
  | pinf, fin y => if y < 0 then ninf else pinf
  | pinf, pinf => nan

instance : Neg (Dbl α) := ⟨neg⟩
instance : Add (Dbl α) := ⟨add⟩
instance : Sub (Dbl α) := ⟨sub⟩
instance : Mul (Dbl α) := ⟨mul⟩
instance : Div (Dbl α) := ⟨div⟩

/-- The comparison `a < b`; false when an operand is NaN. -/
def lt : Dbl α → Dbl α → Bool
  | ninf, fin _ => true
  | ninf, pinf => true
  | fin x, fin y => decide (x < y)
  | fin _, pinf => true
  | _, _ => false

/-- The comparison `a <= b`; false when an operand is NaN. -/
def le : Dbl α → Dbl α → Bool
  | ninf, ninf => true
  | ninf, fin _ => true
  | ninf, pinf => true
  | fin x, fin y => decide (x ≤ y)
  | fin _, pinf => true
  | pinf, pinf => true
  | _, _ => false

/-- The comparison `a >= b`. -/
def ge (a b : Dbl α) : Bool := le b a

/-- The comparison `a == b`; false when an operand is NaN. -/
def eq : Dbl α → Dbl α → Bool
  | ninf, ninf => true
  | fin x, fin y => decide (x = y)
  | pinf, pinf => true
  | _, _ => false

/-- The function `std::min(a, b)`, that is `(b < a) ? b : a`. -/
def min (a b : Dbl α) : Dbl α := if lt b a then b else a

/-- The function `std::max(a, b)`, that is `(a < b) ? b : a`. -/
def max (a b : Dbl α) : Dbl α := if lt a b then b else a

/-- The function `std::abs`. -/
def abs : Dbl α → Dbl α
  | nan => nan
  | ninf => pinf
  | fin x => fin |x|
  | pinf => pinf

/-- The function `std::exp`. -/
def exp (M : CMath α) : Dbl α → Dbl α
  | nan => nan
  | ninf => fin 0
  | fin x => fin (M.exp x)
  | pinf => pinf

/-- The function `std::log`: NaN below zero, minus infinity at zero. -/
def log (M : CMath α) : Dbl α → Dbl α
  | nan => nan
  | ninf => nan
  | fin x => if x < 0 then nan else if x = 0 then ninf else fin (M.log x)
  | pinf => pinf

/-- The function `std::log1p`: NaN below `-1`, minus infinity at `-1`. -/
def log1p (M : CMath α) : Dbl α → Dbl α
  | nan => nan
  | ninf => nan
  | fin x => if x < -1 then nan else if x = -1 then ninf else fin (M.log1p x)
  | pinf => pinf

/-- The function `std::expm1`. -/
def expm1 (M : CMath α) : Dbl α → Dbl α
  | nan => nan
  | ninf => fin (-1)
  | fin x => fin (M.expm1 x)
  | pinf => pinf

/-- The function `std::sqrt`: NaN below zero. -/
def sqrt (M : CMath α) : Dbl α → Dbl α
  | nan => nan
  | ninf => nan
  | fin x => if x < 0 then nan else fin (M.sqrt x)
  | pinf => pinf

/-- The function `std::ceil`. -/
def ceil [FloorRing α] : Dbl α → Dbl α
  | fin x => fin ((⌈x⌉ : ℤ) : α)
  | d => d

/-- Conversion of a double to `int`: truncation toward zero; undefined for NaN and the
infinities. -/
def toInt [FloorRing α] : Dbl α → Option ℤ
  | fin x => some (if 0 ≤ x then ⌊x⌋ else ⌈x⌉)
  | _ => none

/-- Conversion of an unsigned size to a double. -/
def ofNat (n : ℕ) : Dbl α := fin (n : α)

/-- The constant `std::numeric_limits<double>::epsilon()`, `2^-52`. -/
def epsilon : Dbl α := fin ((1 / 2) ^ 52)

/-- The constant `std::numeric_limits<double>::max()`, `(2 - 2^-52) * 2^1023`. -/
def maxValue : Dbl α := fin ((2 - (1 / 2) ^ 52) * 2 ^ 1023)

/-- The value `std::nextafter(0.0, 1.0)`, the smallest positive double `2^-1074`. -/
def minPositive : Dbl α := fin ((1 / 2) ^ 1074)

/-- The double is a finite number. -/
def IsFinite : Dbl α → Prop
  | fin _ => True
  | _ => False

end Dbl

open Dbl

section Code

variable {α : Type} [LinearOrderedField α]

/-- The function `logSum` (psis.cc, lines 19-32). -/
def logSum (M : CMath α) (x y : Dbl α) : Dbl α :=
  let logLimit : Dbl α := -maxValue / fin 100
  let NATS : Dbl α := fin 400
  let temp := y - x
  if lt NATS temp || lt x logLimit then y
  else if lt temp (-NATS) || lt y logLimit then x
  else if lt temp (fin 0) then x + log1p M (exp M temp)
  else y + log1p M (exp M (-temp))

/-- The function `gpinv` (psis.cc, lines 134-192). -/
def gpinv (M : CMath α) (p : List (Dbl α)) (k sigma : Dbl α) : List (Dbl α) :=
  if le sigma (fin 0) then List.replicate p.length nan
  else
    let ok : List Bool := p.map (fun pi => lt (fin 0) pi && lt pi (fin 1))
    let allok : ℕ := ok.foldl (fun s b => s + (if b then 1 else 0)) 0
    let x := p
    if allok = ok.length then
      if lt (abs k) epsilon then
        x.map (fun pp => -(log1p M pp) * sigma)
      else
        x.map (fun pp => expm1 M (-k * log1p M (-pp)) / k * sigma)
    else
      let x :=
        if lt (abs k) epsilon then
          List.zipWith3 (fun oki pi xi => if oki then -(log1p M (-pi)) * sigma else xi) ok p x
        else
          List.zipWith3 (fun oki pi xi =>
            if oki then expm1 M (-k * log1p M (-pi)) / k * sigma else xi) ok p x
      let x := List.zipWith (fun pi xi => if eq pi (fin 0) then fin 0 else xi) p x
      if ge k (fin 0) then
        List.zipWith (fun pi xi => if eq pi (fin 1) then pinf else xi) p x
      else
        List.zipWith (fun pi xi => if eq pi (fin 1) then -sigma / k else xi) p x

/-- The value `gpinv` gives to one probability on the path taken when every probability
lies strictly between 0 and 1 (psis.cc, lines 148-154). -/
def gpinvFast (M : CMath α) (k sigma pp : Dbl α) : Dbl α :=
  if lt (abs k) epsilon then -(log1p M pp) * sigma
  else expm1 M (-k * log1p M (-pp)) / k * sigma

/-- The value `gpinv` gives to one probability on the path taken when some probability is
not strictly between 0 and 1 (psis.cc, lines 157-189). -/
def gpinvSlow (M : CMath α) (k sigma pi : Dbl α) : Dbl α :=
  let x1 :=
    if lt (fin 0) pi && lt pi (fin 1) then
      (if lt (abs k) epsilon then -(log1p M (-pi)) * sigma
       else expm1 M (-k * log1p M (-pi)) / k * sigma)
    else pi
  let x2 := if eq pi (fin 0) then fin 0 else x1
  if eq pi (fin 1) then (if ge k (fin 0) then pinf else -sigma / k) else x2

/-- The loop that removes negligible weights (psis.cc, lines 98-104): at position `i`, an
entry of `w` below `10 * epsilon` is erased from `w` and `bs` and the position is visited
again (`i--` followed by `i++`), any other entry is stepped over. -/
def pruneLoop (i : ℕ) (w bs : List (Dbl α)) : List (Dbl α) × List (Dbl α) :=
  if h : i < w.length then
    if lt (w.get ⟨i, h⟩) (fin 10 * epsilon) then
      pruneLoop i (w.eraseIdx i) (bs.eraseIdx i)
    else
      pruneLoop (i + 1) w bs
  else (w, bs)
termination_by w.length - i
decreasing_by
  all_goals simp_wf
  · rw [List.length_eraseIdx]
    simp only [h, if_true]
    omega
  · omega

/-- The grid of candidates `bs` (psis.cc, lines 68-72), for `i = 1..m`. -/
def gridCandidates (M : CMath α) (m : ℕ) (denom xmax : Dbl α) : List (Dbl α) :=
  (List.range' 1 m).map (fun i =>
    (fin 1 - sqrt M (ofNat m / (ofNat i - fin (1 / 2)))) / denom + fin 1 / xmax)

/-- The mean of `log1p(b * x[j])` over the sample, accumulated from zero in index order
(psis.cc, lines 76-81 and 119-123). -/
def meanLog1p (M : CMath α) (x : List (Dbl α)) (b : Dbl α) : Dbl α :=
  x.foldl (fun mean xj => mean + log1p M (b * xj)) (fin 0) / ofNat x.length

/-- The function `gpdfitnew` (psis.cc, lines 34-132); the result is `(k, sigma)`. -/
def gpdfitnew [FloorRing α] (M : CMath α) (x : List (Dbl α)) : Option (Dbl α × Dbl α) := do
  let n := x.length
  let PRIOR : Dbl α := fin 3
  let sq ← toInt (sqrt M (ofNat n))
  let m : ℕ := (30 + sq).toNat
  let qi ← toInt (ofNat n / fin 4 + fin (1 / 2) : Dbl α)
  let xq ← if 0 ≤ qi - 1 then x[(qi - 1).toNat]? else none
  let denom := PRIOR * xq
  let xmax ← if 1 ≤ n then x[n - 1]? else none
  let bs := gridCandidates M m denom xmax
  let ks := bs.map (fun bi => meanLog1p M x (-bi))
  let L := List.zipWith (fun b k => (log M (-b / k) - k - fin 1) * ofNat n) bs ks
  let w := L.map (fun Li => fin 1 / L.foldl (fun sum Lj => sum + exp M (Lj - Li)) (fin 0))
  -- remove negligible weights
  let (w, bs) := pruneLoop 0 w bs
  -- normalise w
  let sum := w.foldl (fun s wi => s + wi) (fin 0)
  let w := w.map (fun wi => wi / sum)
  -- posterior mean for b
  let b := (List.zip bs w).foldl (fun b q => b + q.1 * q.2) (fin 0)
  -- estimate for k
  let k := meanLog1p M x (-b)
  -- estimate for sigma
  let sigma := -k / b * ofNat n / ofNat (n - 0)
  -- weakly informative prior for k
  let a : Dbl α := fin 10
  let k := k * ofNat n / (ofNat n + a) + a * fin (1 / 2) / (ofNat n + a)
  some (k, sigma)

/-- The value `*max_element(begin, end)`: the first largest element; undefined on an empty
vector. -/
def maxElement : List (Dbl α) → Option (Dbl α)
  | [] => none
  | a :: l => some (l.foldl (fun best w => if lt best w then w else best) a)

/-- The comparison `operator<` of `std::pair<double, int>`. -/
def pairLt (a b : Dbl α × ℕ) : Bool :=
  lt a.1 b.1 || (!(lt b.1 a.1) && decide (a.2 < b.2))

/-- Insertion of a pair before the first element that does not come before it. -/
def insertPair (a : Dbl α × ℕ) : List (Dbl α × ℕ) → List (Dbl α × ℕ)
  | [] => [a]
  | b :: l => if pairLt b a then b :: insertPair a l else a :: b :: l

/-- The call `std::sort(v.begin(), v.end())` on the pairs `(lw[i], i)`: the ascending
arrangement for `operator<`.  The indices are pairwise distinct, so on values without NaN the
comparison is a strict total order and the arrangement does not depend on the sorting
algorithm. -/
def sortPairs (v : List (Dbl α × ℕ)) : List (Dbl α × ℕ) :=
  v.foldr insertPair []

/-- The tail cutoff `cutoff_ind` (psis.cc, line 218) for a vector of length `n`. -/
def cutoffInd [FloorRing α] (M : CMath α) (n : ℕ) (Reff : Dbl α) : Option ℤ :=
  toInt (ceil (min (fin (1 / 5) * ofNat n) (fin 3 * sqrt M (ofNat n / Reff))) - fin 1)

/-- The order statistics `sti` (psis.cc, lines 258-263): `r` further values `acc / n2`,
the accumulator growing by one each round. -/
def stiLoop (n2 : ℕ) : ℕ → Dbl α → List (Dbl α)
  | 0, _ => []
  | r + 1, acc => acc / ofNat n2 :: stiLoop n2 r (acc + fin 1)

/-- The state of `psislw` after the body/tail split (psis.cc, lines 214-242). -/
structure Split (α : Type) where
  /-- the vector `lw` after the maximum is subtracted -/
  lw : List (Dbl α)
  /-- the sorted pairs `v[n - cutoff_ind ..]` of the tail -/
  tail : List (Dbl α × ℕ)
  /-- the cutoff `xcutoff` -/
  xcutoff : Dbl α

/-- Lines 214-242 of `psislw`: the cutoff index, the shift by the maximum, the sort and
the split into body and tail. -/
def psislwSplit [FloorRing α] (M : CMath α) (lw : List (Dbl α)) (Reff : Dbl α) :
    Option (Split α) := do
  let n := lw.length
  let cutoff_ind ← cutoffInd M n Reff
  let cutoffmin := log M minPositive
  -- improve numerical accuracy
  let mx ← maxElement lw
  let lw := lw.map (fun w => w - mx)
  let v := sortPairs (List.zip lw (List.range n))
  -- divide log weights into body and right tail
  let idx : ℤ := (n : ℤ) - cutoff_ind - 1
  let vc ← if 0 ≤ idx then v[idx.toNat]? else none
  let xcutoff := max vc.1 cutoffmin
  some ⟨lw, v.drop ((n : ℤ) - cutoff_ind).toNat, xcutoff⟩

/-- The exceedances handed to `gpdfitnew` (psis.cc, lines 237-249). -/
def exceedances (M : CMath α) (s : Split α) : List (Dbl α) :=
  (s.tail.map Prod.fst).map (fun w => exp M w - exp M s.xcutoff)

/-- Lines 258-273 of `psislw`: the smoothed tail is written to the original positions and
every element is truncated at zero. -/
def smoothTail (M : CMath α) (s : Split α) (k sigma : Dbl α) : List (Dbl α) :=
  let n2 := s.tail.length
  let sti := stiLoop n2 n2 (fin (1 / 2))
  let qq := gpinv M sti k sigma
  -- place the smoothed tail into the output array
  let lw := (List.zip s.tail qq).foldl
    (fun lw vq => lw.set vq.1.2 (log M (vq.2 + exp M s.xcutoff))) s.lw
  -- truncate smoothed values to the largest raw weight 0
  lw.map (fun xx => min xx (fin 0))

/-- Lines 275-280 of `psislw`: the log-normaliser `sumlogs` is accumulated with `logSum`
and subtracted from every element. -/
def renormalize (M : CMath α) : List (Dbl α) → Option (List (Dbl α))
  | [] => none
  | a :: l =>
    let sumlogs := l.foldl (fun s w => logSum M s w) a
    some ((a :: l).map (fun xx => xx - sumlogs))

/-- The function `psislw` (psis.cc, lines 194-283); the result is the returned `k` and the
vector `lw` as the call leaves it. -/
def psislw [FloorRing α] (M : CMath α) (lw : List (Dbl α)) (Reff : Dbl α) :
    Option (Dbl α × List (Dbl α)) := do
  let s ← psislwSplit M lw Reff
  let k_min : Dbl α := fin 1 / fin 3
  let n2 := s.tail.length
  if n2 ≤ 4 then
    -- not enough tail samples for gpdfitnew
    some (pinf, s.lw)
  else
    -- fit generalized Pareto distribution to the right tail samples
    let (k, sigma) ← gpdfitnew M (exceedances M s)
    let lw := if ge k k_min then smoothTail M s k sigma else s.lw
    -- renormalize weights
    let lw ← renormalize M lw
    some (k, lw)

/-- Lines 65-72 of `gpdfitnew`: the grid size `m`, the quartile element, the maximum and the
candidates `bs`. -/
def gpdGrid [FloorRing α] (M : CMath α) (x : List (Dbl α)) : Option (List (Dbl α)) := do
  let n := x.length
  let PRIOR : Dbl α := fin 3
  let sq ← toInt (sqrt M (ofNat n))
  let m : ℕ := (30 + sq).toNat
  let qi ← toInt (ofNat n / fin 4 + fin (1 / 2) : Dbl α)
  let xq ← if 0 ≤ qi - 1 then x[(qi - 1).toNat]? else none
  let denom := PRIOR * xq
  let xmax ← if 1 ≤ n then x[n - 1]? else none
  some (gridCandidates M m denom xmax)

/-- Lines 74-86 of `gpdfitnew`: the shapes `ks` and the scores `L` of the candidates. -/
def gridScores (M : CMath α) (x bs : List (Dbl α)) : List (Dbl α) :=
  let n := x.length
  let ks := bs.map (fun bi => meanLog1p M x (-bi))
  List.zipWith (fun b k => (log M (-b / k) - k - fin 1) * ofNat n) bs ks

/-- Lines 88-95 of `gpdfitnew`: the weights `w[i] = 1 / sum_j exp(L[j] - L[i])`. -/
def gridWeights (M : CMath α) (L : List (Dbl α)) : List (Dbl α) :=
  L.map (fun Li => fin 1 / L.foldl (fun sum Lj => sum + exp M (Lj - Li)) (fin 0))

/-- Lines 107-109 of `gpdfitnew`: every weight is divided by the accumulated sum. -/
def normaliseWeights (w : List (Dbl α)) : List (Dbl α) :=
  let sum := w.foldl (fun s wi => s + wi) (fin 0)
  w.map (fun wi => wi / sum)

/-- Lines 97-115 of `gpdfitnew`: negligible weights are removed, the rest is normalised and
the posterior mean `b` is accumulated. -/
def posteriorMean (w bs : List (Dbl α)) : Dbl α :=
  let (w, bs) := pruneLoop 0 w bs
  let w := normaliseWeights w
  (List.zip bs w).foldl (fun b q => b + q.1 * q.2) (fin 0)

/-- Lines 127-129 of `gpdfitnew`: the weakly informative prior for `k`. -/
def shrinkShape (n : ℕ) (k : Dbl α) : Dbl α :=
  let a : Dbl α := fin 10
  k * ofNat n / (ofNat n + a) + a * fin (1 / 2) / (ofNat n + a)

/-- Lines 117-131 of `gpdfitnew`: from the posterior mean `b` to the returned pair
`(k, sigma)`. -/
def fitFromMean (M : CMath α) (x : List (Dbl α)) (b : Dbl α) : Dbl α × Dbl α :=
  let n := x.length
  let k := meanLog1p M x (-b)
  let sigma := -k / b * ofNat n / ofNat (n - 0)
  (shrinkShape n k, sigma)

/-- The pruning of negligible weights as a filter on the aligned pairs `(w[i], bs[i])`:
a pair is discarded when its weight is below `10 * epsilon`. -/
def pruneFilter (w bs : List (Dbl α)) : List (Dbl α) × List (Dbl α) :=
  ((List.zip w bs).filter (fun q => !(lt q.1 (fin 10 * epsilon)))).unzip

end Code

/-! ## Arithmetic of doubles -/

namespace Dbl

variable {α : Type} [LinearOrderedField α]

@[simp] theorem neg_fin (x : α) : -(fin x) = fin (-x) := rfl
@[simp] theorem fin_add_fin (x y : α) : fin x + fin y = fin (x + y) := rfl
@[simp] theorem fin_sub_fin (x y : α) : fin x - fin y = fin (x - y) := by
  show add (fin x) (neg (fin y)) = _
  simp [add, neg, sub_eq_add_neg]
@[simp] theorem fin_mul_fin (x y : α) : fin x * fin y = fin (x * y) := rfl
theorem fin_div_fin (x y : α) (h : y ≠ 0) : fin x / fin y = fin (x / y) := by
  show div (fin x) (fin y) = _
  simp [div, h]
@[simp] theorem lt_fin_fin (x y : α) : lt (fin x) (fin y) = decide (x < y) := rfl
@[simp] theorem le_fin_fin (x y : α) : le (fin x) (fin y) = decide (x ≤ y) := rfl
@[simp] theorem ge_fin_fin (x y : α) : ge (fin x) (fin y) = decide (y ≤ x) := rfl
@[simp] theorem eq_fin_fin (x y : α) : eq (fin x) (fin y) = decide (x = y) := rfl
@[simp] theorem abs_fin (x : α) : abs (fin x) = fin |x| := rfl

end Dbl

/-! ## The quantile function `gpinv` -/

section Gpinv

variable {α : Type} [LinearOrderedField α]

theorem count_foldl_le (ok : List Bool) (c : ℕ) :
    ok.foldl (fun s b => s + (if b then 1 else 0)) c ≤ c + ok.length := by
  induction ok generalizing c with
  | nil => simp
  | cons b l ih =>
    simp only [List.foldl_cons, List.length_cons]
    have := ih (c + if b then 1 else 0)
    split_ifs at this ⊢ <;> omega

theorem count_foldl_eq (ok : List Bool) (c : ℕ) :
    ok.foldl (fun s b => s + (if b then 1 else 0)) c = c + ok.length ↔ ∀ b ∈ ok, b = true := by
  induction ok generalizing c with
  | nil => simp
  | cons b l ih =>
    simp only [List.foldl_cons, List.length_cons, List.mem_cons, forall_eq_or_imp]
    cases b with
    | true =>
      simp only [if_true, true_and]
      rw [← ih (c + 1)]
      omega
    | false =>
      simp only [Bool.false_eq_true, if_false, add_zero, false_and, iff_false]
      have := count_foldl_le l c
      omega

theorem zipWith3_map_same {β γ : Type} (f : γ → β → β → β) (g : β → γ) (p : List β) :
    List.zipWith3 f (p.map g) p p = p.map (fun a => f (g a) a a) := by
  induction p with
  | nil => rfl
  | cons a l ih =>
    show f (g a) a a :: List.zipWith3 f (l.map g) l l = _
    rw [ih]
    rfl

theorem zipWith_map_same {β : Type} (f : β → β → β) (g : β → β) (p : List β) :
    List.zipWith f p (p.map g) = p.map (fun a => f a (g a)) := by
  rw [List.zipWith_map_right, List.zipWith_same]

theorem gpinv_of_invalid (M : CMath α) (p : List (Dbl α)) (k sigma : Dbl α)
    (hs : le sigma (fin 0) = true) : gpinv M p k sigma = List.replicate p.length nan := by
  simp [gpinv, hs]

theorem gpinv_of_interior (M : CMath α) (p : List (Dbl α)) (k sigma : Dbl α)
    (hs : le sigma (fin 0) = false)
    (hp : ∀ pi ∈ p, (lt (fin 0) pi && lt pi (fin 1)) = true) :
    gpinv M p k sigma = p.map (gpinvFast M k sigma) := by
  have hall : (p.map (fun pi => lt (fin 0) pi && lt pi (fin 1))).foldl
      (fun s b => s + (if b then 1 else 0)) 0
      = (p.map (fun pi => lt (fin 0) pi && lt pi (fin 1))).length := by
    have := (count_foldl_eq (p.map (fun pi => lt (fin 0) pi && lt pi (fin 1))) 0).2
      (by
        intro b hb
        obtain ⟨a, ha, rfl⟩ := List.mem_map.1 hb
        exact hp a ha)
    simpa using this
  unfold gpinv
  simp only [hs, Bool.false_eq_true, if_false, hall, if_true]
  cases hk : lt (abs k) epsilon
  all_goals
    simp only [Bool.false_eq_true, if_true, if_false]
    apply List.map_congr_left
    intro a _
    simp [gpinvFast, hk]

theorem gpinv_of_boundary (M : CMath α) (p : List (Dbl α)) (k sigma : Dbl α)
    (hs : le sigma (fin 0) = false)
    (hp : ∃ pi ∈ p, (lt (fin 0) pi && lt pi (fin 1)) = false) :
    gpinv M p k sigma = p.map (gpinvSlow M k sigma) := by
  have hall : ¬ (p.map (fun pi => lt (fin 0) pi && lt pi (fin 1))).foldl
      (fun s b => s + (if b then 1 else 0)) 0
      = (p.map (fun pi => lt (fin 0) pi && lt pi (fin 1))).length := by
    intro h
    have h2 := (count_foldl_eq (p.map (fun pi => lt (fin 0) pi && lt pi (fin 1))) 0).1
      (by simpa using h)
    obtain ⟨a, ha, hfa⟩ := hp
    have := h2 _ (List.mem_map.2 ⟨a, ha, rfl⟩)
    rw [hfa] at this
    exact Bool.false_ne_true this
  unfold gpinv
  simp only [hs, Bool.false_eq_true, if_false, hall]
  cases hk : lt (abs k) epsilon <;> cases hg : ge k (fin 0)
  all_goals
    simp only [Bool.false_eq_true, if_true, if_false, zipWith3_map_same, zipWith_map_same]
    apply List.map_congr_left
    intro a _
    simp only [gpinvSlow, hk, hg, Bool.false_eq_true, if_true, if_false]

end Gpinv

section GpinvClaims

variable {α : Type} [LinearOrderedField α]

theorem Dbl.le_eq_false_of_lt {a b : Dbl α} (h : lt a b = true) : le b a = false := by
  cases a <;> cases b <;> simp_all [lt, le]

theorem Dbl.ge_eq_false_of_lt {a b : Dbl α} (h : lt a b = true) : ge a b = false :=
  Dbl.le_eq_false_of_lt h

theorem gpinv_length (M : CMath α) (p : List (Dbl α)) (k sigma : Dbl α) :
    (gpinv M p k sigma).length = p.length := by
  cases hs : le sigma (fin 0)
  · by_cases hp : ∀ pi ∈ p, (lt (fin 0) pi && lt pi (fin 1)) = true
    · rw [gpinv_of_interior M p k sigma hs hp, List.length_map]
    · have hp2 : ∃ pi ∈ p, (lt (fin 0) pi && lt pi (fin 1)) = false := by
        by_contra hcon
        apply hp
        intro pi hpi
        cases hv : (lt (fin 0) pi && lt pi (fin 1))
        · exact absurd ⟨pi, hpi, hv⟩ hcon
        · rfl
      rw [gpinv_of_boundary M p k sigma hs hp2, List.length_map]
  · rw [gpinv_of_invalid M p k sigma hs, List.length_replicate]

theorem gpinv_getElem_boundary (M : CMath α) (p : List (Dbl α)) (k sigma : Dbl α)
    (hs : le sigma (fin 0) = false) (i : ℕ) (pi : Dbl α) (hi : p[i]? = some pi)
    (hpi : (lt (fin 0) pi && lt pi (fin 1)) = false) :
    (gpinv M p k sigma)[i]? = some (gpinvSlow M k sigma pi) := by
  have hmem : pi ∈ p := List.getElem?_mem hi
  rw [gpinv_of_boundary M p k sigma hs ⟨pi, hmem, hpi⟩, List.getElem?_map, hi]
  rfl

/-- Claim C8. Boundary exactness of `gpinv`: for a positive scale and any shape `k`, an
entry `p[i] = 0` is mapped to exactly `0`, an entry `p[i] = 1` is mapped to plus infinity
when `k >= 0` and to `-sigma / k` when `k < 0`; in particular this holds for the one-element
vectors `[0]` and `[1]`. -/
theorem gpinv_boundary_exact (M : CMath α) (p : List (Dbl α)) (k sigma : Dbl α)
    (hs : lt (fin 0) sigma = true) :
    (∀ i : ℕ, p[i]? = some (fin 0) → (gpinv M p k sigma)[i]? = some (fin 0)) ∧
    (∀ i : ℕ, p[i]? = some (fin 1) → ge k (fin 0) = true →
      (gpinv M p k sigma)[i]? = some pinf) ∧
    (∀ i : ℕ, p[i]? = some (fin 1) → lt k (fin 0) = true →
      (gpinv M p k sigma)[i]? = some (-sigma / k)) ∧
    gpinv M [fin 0] k sigma = [fin 0] ∧
    (ge k (fin 0) = true → gpinv M [fin 1] k sigma = [pinf]) ∧
    (lt k (fin 0) = true → gpinv M [fin 1] k sigma = [-sigma / k]) := by
  have hs2 : le sigma (fin 0) = false := Dbl.le_eq_false_of_lt hs
  have h0 : ∀ (q : List (Dbl α)) (i : ℕ), q[i]? = some (fin 0) →
      (gpinv M q k sigma)[i]? = some (fin 0) := by
    intro q i hi
    rw [gpinv_getElem_boundary M q k sigma hs2 i (fin 0) hi (by simp)]
    simp [gpinvSlow]
  have h1 : ∀ (q : List (Dbl α)) (i : ℕ), q[i]? = some (fin 1) → ge k (fin 0) = true →
      (gpinv M q k sigma)[i]? = some pinf := by
    intro q i hi hk
    rw [gpinv_getElem_boundary M q k sigma hs2 i (fin 1) hi (by simp)]
    simp [gpinvSlow, hk]
  have h2 : ∀ (q : List (Dbl α)) (i : ℕ), q[i]? = some (fin 1) → lt k (fin 0) = true →
      (gpinv M q k sigma)[i]? = some (-sigma / k) := by
    intro q i hi hk
    rw [gpinv_getElem_boundary M q k sigma hs2 i (fin 1) hi (by simp)]
    simp [gpinvSlow, Dbl.ge_eq_false_of_lt hk]
  have single : ∀ (a b : Dbl α), (gpinv M [a] k sigma)[0]? = some b →
      gpinv M [a] k sigma = [b] := by
    intro a b hb
    have hl := gpinv_length M [a] k sigma
    match hg : gpinv M [a] k sigma, hl with
    | [c], _ =>
      rw [hg] at hb
      simpa using hb
  refine ⟨h0 p, h1 p, h2 p, ?_, ?_, ?_⟩
  · exact single _ _ (h0 [fin 0] 0 rfl)
  · intro hk
    exact single _ _ (h1 [fin 1] 0 rfl hk)
  · intro hk
    exact single _ _ (h2 [fin 1] 0 rfl hk)

/-- Claim C9. Invalid scale: for `sigma <= 0`, any shape and any probability vector,
`gpinv` returns a vector of the length of `p` whose every element is NaN. -/
theorem gpinv_invalid_scale (M : CMath α) (p : List (Dbl α)) (k sigma : Dbl α)
    (hs : le sigma (fin 0) = true) :
    (gpinv M p k sigma).length = p.length ∧ ∀ x ∈ gpinv M p k sigma, x = nan := by
  rw [gpinv_of_invalid M p k sigma hs]
  exact ⟨List.length_replicate _ _, fun x hx => List.eq_of_mem_replicate hx⟩

/-- Claim C10. Out-of-range pass-through: for a positive scale and any shape, an entry
`p[i] < 0` or `p[i] > 1` is returned unchanged, and the output has the length of `p`. -/
theorem gpinv_out_of_range (M : CMath α) (p : List (Dbl α)) (k sigma : Dbl α)
    (hs : lt (fin 0) sigma = true) :
    (gpinv M p k sigma).length = p.length ∧
    ∀ (i : ℕ) (pi : Dbl α), p[i]? = some pi → (lt pi (fin 0) = true ∨ lt (fin 1) pi = true) →
      (gpinv M p k sigma)[i]? = some pi := by
  refine ⟨gpinv_length M p k sigma, ?_⟩
  intro i pi hi hout
  have hs2 : le sigma (fin 0) = false := Dbl.le_eq_false_of_lt hs
  have hint : (lt (fin 0) pi && lt pi (fin 1)) = false := by
    rcases hout with h | h <;> cases pi <;> simp_all [lt] <;> intros <;> linarith
  rw [gpinv_getElem_boundary M p k sigma hs2 i pi hi hint]
  have h0 : eq pi (fin 0) = false := by
    rcases hout with h | h <;> cases pi <;> simp_all [lt, eq] <;> linarith
  have h1 : eq pi (fin 1) = false := by
    rcases hout with h | h <;> cases pi <;> simp_all [lt, eq] <;> linarith
  simp [gpinvSlow, hint, h0, h1]

end GpinvClaims

theorem gpinv_boundary_exact_witness :
    lt (fin (0 : ℝ)) (fin 2) = true ∧
    gpinv (CMath.mk Real.exp Real.log (fun x => Real.log (1 + x)) (fun x => Real.exp x - 1)
      Real.sqrt) [fin 1] (fin (-1)) (fin 2) = [fin 2] := by
  refine ⟨by simp, ?_⟩
  have h := (gpinv_boundary_exact (CMath.mk Real.exp Real.log (fun x => Real.log (1 + x))
    (fun x => Real.exp x - 1) Real.sqrt) [] (fin (-1)) (fin 2) (by simp)).2.2.2.2.2 (by simp)
  rw [h, Dbl.neg_fin, Dbl.fin_div_fin _ _ (by norm_num)]
  norm_num

theorem gpinv_invalid_scale_witness :
    le (fin (0 : ℝ)) (fin 0) = true ∧
    (gpinv (CMath.mk Real.exp Real.log (fun x => Real.log (1 + x)) (fun x => Real.exp x - 1)
      Real.sqrt) [fin (1 / 2), fin 1] (fin 1) (fin 0)).length = 2 ∧
    ∀ x ∈ gpinv (CMath.mk Real.exp Real.log (fun x => Real.log (1 + x))
      (fun x => Real.exp x - 1) Real.sqrt) [fin (1 / 2), fin 1] (fin 1) (fin 0), x = nan :=
  ⟨by simp, gpinv_invalid_scale _ [fin (1 / 2), fin 1] (fin 1) (fin 0) (by simp)⟩

theorem gpinv_out_of_range_witness :
    lt (fin (0 : ℝ)) (fin 1) = true ∧
    (gpinv (CMath.mk Real.exp Real.log (fun x => Real.log (1 + x)) (fun x => Real.exp x - 1)
      Real.sqrt) [fin (1 / 2), fin 3] (fin 1) (fin 1))[1]? = some (fin 3) :=
  ⟨by simp, (gpinv_out_of_range _ [fin (1 / 2), fin 3] (fin 1) (fin 1) (by simp)).2 1 (fin 3)
    rfl (Or.inr (by simp))⟩

theorem gpinv_interior_value (M : CMath ℝ) (hM : M.Exact) (p : List (Dbl ℝ))
    (k sigma pr : ℝ) (hs : 0 < sigma) (hk : (1 / 2) ^ 52 ≤ |k|) (i : ℕ)
    (hi : p[i]? = some (fin pr)) (h0 : 0 < pr) (h1 : pr < 1) :
    (gpinv M p (fin k) (fin sigma))[i]? =
      some (fin ((Real.exp (-k * Real.log (1 - pr)) - 1) / k * sigma)) := by
  have hs2 : le (fin sigma) (fin 0) = false := by simp [hs]
  have hk0 : k ≠ 0 := by
    intro h
    rw [h, abs_zero] at hk
    have : (0 : ℝ) < (1 / 2) ^ 52 := by positivity
    linarith
  have hkeps : lt (abs (fin k)) epsilon = false := by
    simp [epsilon]
    simpa using hk
  have hval : expm1 M (-(fin k) * log1p M (-(fin pr))) / fin k * fin sigma
      = fin ((Real.exp (-k * Real.log (1 - pr)) - 1) / k * sigma) := by
    have h2 : ¬ (-pr < -1) := by linarith
    have h3 : ¬ (-pr = -1) := by
      intro h
      linarith
    simp only [Dbl.neg_fin, Dbl.log1p, h2, h3, if_false, Dbl.fin_mul_fin, Dbl.expm1,
      Dbl.fin_div_fin _ _ hk0, hM.log1p_eq, hM.expm1_eq]
    rw [← sub_eq_add_neg]
  by_cases hp : ∀ pi ∈ p, (lt (fin 0) pi && lt pi (fin 1)) = true
  · rw [gpinv_of_interior M p _ _ hs2 hp, List.getElem?_map, hi]
    simp only [Option.map_some', gpinvFast, hkeps, Bool.false_eq_true, if_false, hval]
  · have hp2 : ∃ pi ∈ p, (lt (fin 0) pi && lt pi (fin 1)) = false := by
      by_contra hcon
      apply hp
      intro pi hpi
      cases hv : (lt (fin 0) pi && lt pi (fin 1))
      · exact absurd ⟨pi, hpi, hv⟩ hcon
      · rfl
    rw [gpinv_of_boundary M p _ _ hs2 hp2, List.getElem?_map, hi]
    have e0 : ¬ pr = 0 := ne_of_gt h0
    have e1 : ¬ pr = 1 := ne_of_lt h1
    simp only [Option.map_some', gpinvSlow, Dbl.lt_fin_fin, h0, h1, decide_True, Bool.and_self,
      if_true, hkeps, Bool.false_eq_true, if_false, hval, Dbl.eq_fin_fin, e0, e1, decide_False]

/-- Claim C5. `gpinv` inverts the distribution function of the generalised Pareto
distribution: for a positive scale, a shape with `|k| >= epsilon` and a probability strictly
between 0 and 1, the returned value `x` satisfies `1 + k*x/sigma > 0` and
`1 - (1 + k*x/sigma)^(-1/k) = p`. -/
theorem gpinv_inverse_cdf (M : CMath ℝ) (hM : M.Exact) (p : List (Dbl ℝ))
    (k sigma pr : ℝ) (hs : 0 < sigma) (hk : (1 / 2) ^ 52 ≤ |k|) (i : ℕ)
    (hi : p[i]? = some (fin pr)) (h0 : 0 < pr) (h1 : pr < 1) :
    ∃ x : ℝ, (gpinv M p (fin k) (fin sigma))[i]? = some (fin x) ∧
      0 < 1 + k * x / sigma ∧ 1 - (1 + k * x / sigma) ^ (-1 / k) = pr := by
  have hk0 : k ≠ 0 := by
    intro h
    rw [h, abs_zero] at hk
    have : (0 : ℝ) < (1 / 2) ^ 52 := by positivity
    linarith
  refine ⟨_, gpinv_interior_value M hM p k sigma pr hs hk i hi h0 h1, ?_⟩
  have hone : 1 + k * ((Real.exp (-k * Real.log (1 - pr)) - 1) / k * sigma) / sigma
      = Real.exp (-k * Real.log (1 - pr)) := by
    field_simp
  rw [hone]
  refine ⟨Real.exp_pos _, ?_⟩
  rw [← Real.exp_mul]
  have : -k * Real.log (1 - pr) * (-1 / k) = Real.log (1 - pr) := by
    field_simp
  rw [this, Real.exp_log (by linarith)]
  ring

theorem gpinv_inverse_cdf_witness :
    (0 : ℝ) < 1 ∧ ((1 : ℝ) / 2) ^ 52 ≤ |1| ∧ (0 : ℝ) < 1 / 2 ∧ (1 : ℝ) / 2 < 1 ∧
    ∃ x : ℝ, (gpinv (CMath.mk Real.exp Real.log (fun x => Real.log (1 + x))
        (fun x => Real.exp x - 1) Real.sqrt) [fin (1 / 2)] (fin 1) (fin 1))[0]? = some (fin x) ∧
      0 < 1 + 1 * x / 1 ∧ 1 - (1 + 1 * x / 1) ^ (-1 / 1 : ℝ) = 1 / 2 :=
  ⟨by norm_num, by norm_num, by norm_num, by norm_num,
    gpinv_inverse_cdf _ ⟨fun _ => rfl, fun _ => rfl, fun _ => rfl, fun _ => rfl, fun _ => rfl⟩
      [fin (1 / 2)] 1 1 (1 / 2) (by norm_num) (by norm_num) 0 rfl (by norm_num)
      (by norm_num)⟩

/-- Claim C6 (evaluation at the failing input). With `k = 0` and `sigma = 1`, the vector
`[1/2]` takes the all-interior path of `gpinv` and yields `-log(1 + 1/2)`, while the same
probability in the vector `[1/2, 0]` takes the other path and yields `-log(1 - 1/2)`,
the exponential quantile; the two values differ. -/
theorem gpinv_degenerate_paths_differ :
    gpinv (CMath.mk Real.exp Real.log (fun x => Real.log (1 + x)) (fun x => Real.exp x - 1)
      Real.sqrt) [fin (1 / 2)] (fin 0) (fin 1) = [fin (-Real.log (1 + 1 / 2) * 1)] ∧
    gpinv (CMath.mk Real.exp Real.log (fun x => Real.log (1 + x)) (fun x => Real.exp x - 1)
      Real.sqrt) [fin (1 / 2), fin 0] (fin 0) (fin 1)
      = [fin (-Real.log (1 + -(1 / 2)) * 1), fin 0] ∧
    -Real.log (1 + 1 / 2) * 1 ≠ -Real.log (1 + -(1 / 2)) * 1 := by
  have heps : lt (abs (fin (0 : ℝ))) epsilon = true := by
    simp [epsilon]
  refine ⟨?_, ?_, ?_⟩
  · rw [gpinv_of_interior _ _ _ _ (by simp) (by simp; norm_num)]
    simp only [List.map, gpinvFast, heps, if_true, Dbl.log1p]
    norm_num
  · rw [gpinv_of_boundary _ _ _ _ (by simp) ⟨fin 0, by simp, by simp⟩]
    simp only [List.map, gpinvSlow, heps, if_true, Dbl.log1p]
    norm_num
  · have h1 : 0 < Real.log (1 + 1 / 2) := Real.log_pos (by norm_num)
    have h2 : Real.log (1 + -(1 / 2)) < 0 := Real.log_neg (by norm_num) (by norm_num)
    intro h
    linarith

/-- Claim C7 (evaluation at the failing input). With `k = 0` and `sigma = 1`, the increasing
probabilities `[1/4, 1/2]` are mapped by `gpinv` to `[-log(1 + 1/4), -log(1 + 1/2)]`,
and the second value is strictly below the first. -/
theorem gpinv_degenerate_decreasing :
    gpinv (CMath.mk Real.exp Real.log (fun x => Real.log (1 + x)) (fun x => Real.exp x - 1)
      Real.sqrt) [fin (1 / 4), fin (1 / 2)] (fin 0) (fin 1)
      = [fin (-Real.log (1 + 1 / 4) * 1), fin (-Real.log (1 + 1 / 2) * 1)] ∧
    -Real.log (1 + 1 / 2) * 1 < -Real.log (1 + 1 / 4) * 1 := by
  have heps : lt (abs (fin (0 : ℝ))) epsilon = true := by
    simp [epsilon]
  refine ⟨?_, ?_⟩
  · rw [gpinv_of_interior _ _ _ _ (by simp) (by simp; norm_num)]
    simp only [List.map, gpinvFast, heps, if_true, Dbl.log1p]
    norm_num
  · have h : Real.log (1 + 1 / 4) < Real.log (1 + 1 / 2) :=
      Real.log_lt_log (by norm_num) (by norm_num)
    linarith

/-! ## The smoother `psislw` -/

section Psislw

/-- The running maximum of `max_element` on finite values. -/
theorem maxElement_foldl_fin (l : List ℝ) (a : ℝ) :
    (l.map fin).foldl (fun best w => if lt best w then w else best) (fin a)
      = fin (l.foldl (fun b x => if b < x then x else b) a) := by
  induction l generalizing a with
  | nil => rfl
  | cons x l ih =>
    simp only [List.map_cons, List.foldl_cons, Dbl.lt_fin_fin, decide_eq_true_eq]
    by_cases h : a < x
    · simp only [h, if_true]
      exact ih x
    · simp only [h, if_false]
      exact ih a

theorem foldl_max_ge (l : List ℝ) (a : ℝ) :
    a ≤ l.foldl (fun b x => if b < x then x else b) a ∧
    ∀ x ∈ l, x ≤ l.foldl (fun b x => if b < x then x else b) a := by
  induction l generalizing a with
  | nil => simp
  | cons y l ih =>
    simp only [List.foldl_cons, List.mem_cons, forall_eq_or_imp]
    by_cases h : a < y
    · simp only [h, if_true]
      exact ⟨le_trans (le_of_lt h) (ih y).1, (ih y).1, (ih y).2⟩
    · simp only [h, if_false]
      exact ⟨(ih a).1, le_trans (not_lt.1 h) (ih a).1, (ih a).2⟩

theorem foldl_max_mem (l : List ℝ) (a : ℝ) :
    l.foldl (fun b x => if b < x then x else b) a ∈ a :: l := by
  induction l generalizing a with
  | nil => simp
  | cons y l ih =>
    simp only [List.foldl_cons]
    by_cases h : a < y
    · simp only [h, if_true]
      exact List.mem_cons_of_mem _ (ih y)
    · simp only [h, if_false]
      rcases List.mem_cons.1 (ih a) with h1 | h1
      · rw [h1]
        exact List.mem_cons_self _ _
      · exact List.mem_cons_of_mem _ (List.mem_cons_of_mem _ h1)

theorem foldl_max_shift (l : List ℝ) (a c : ℝ) :
    (l.map (fun x => x + c)).foldl (fun b x => if b < x then x else b) (a + c)
      = l.foldl (fun b x => if b < x then x else b) a + c := by
  induction l generalizing a with
  | nil => rfl
  | cons y l ih =>
    simp only [List.map_cons, List.foldl_cons, add_lt_add_iff_right]
    by_cases h : a < y
    · simp only [h, if_true]
      exact ih y
    · simp only [h, if_false]
      exact ih a

/-- On a non-empty vector of finite values `max_element` is the greatest value. -/
theorem maxElement_fin (xs : List ℝ) (hne : xs ≠ []) :
    ∃ m : ℝ, maxElement (xs.map fin) = some (fin m) ∧ m ∈ xs ∧ ∀ x ∈ xs, x ≤ m := by
  cases xs with
  | nil => exact absurd rfl hne
  | cons a l =>
    refine ⟨l.foldl (fun b x => if b < x then x else b) a, ?_, foldl_max_mem l a, ?_⟩
    · simp only [List.map_cons, maxElement, maxElement_foldl_fin]
    · intro x hx
      rcases List.mem_cons.1 hx with h | h
      · rw [h]
        exact (foldl_max_ge l a).1
      · exact (foldl_max_ge l a).2 x h

theorem maxElement_fin_shift (xs : List ℝ) (c m : ℝ)
    (hm : maxElement (xs.map fin) = some (fin m)) :
    maxElement (xs.map (fun x => fin (x + c))) = some (fin (m + c)) := by
  cases xs with
  | nil => simp [maxElement] at hm
  | cons a l =>
    simp only [List.map_cons, maxElement, maxElement_foldl_fin, Option.some.injEq,
      Dbl.fin.injEq] at hm
    have h := maxElement_foldl_fin (l.map (fun x => x + c)) (a + c)
    simp only [List.map_map] at h
    simp only [List.map_cons, maxElement]
    rw [show (fun x : ℝ => fin (x + c)) = (fin ∘ fun x => x + c) from rfl, h,
      foldl_max_shift, hm]

theorem psislwSplit_shift (M : CMath ℝ) (xs : List ℝ) (Reff : Dbl ℝ) (c : ℝ) :
    psislwSplit M (xs.map (fun x => fin (x + c))) Reff = psislwSplit M (xs.map fin) Reff := by
  cases xs with
  | nil => rfl
  | cons a l =>
    obtain ⟨m, hm, -, -⟩ := maxElement_fin (a :: l) (by simp)
    have hm2 := maxElement_fin_shift (a :: l) c m hm
    unfold psislwSplit
    simp only [hm, hm2, List.length_map, List.map_map, Option.bind_eq_bind, Option.some_bind]
    have : ((fun w : Dbl ℝ => w - fin (m + c)) ∘ fun x : ℝ => fin (x + c))
        = ((fun w : Dbl ℝ => w - fin m) ∘ fin) := by
      funext x
      simp
    rw [this]

theorem psislw_shift (M : CMath ℝ) (xs : List ℝ) (Reff : Dbl ℝ) (c : ℝ) :
    psislw M (xs.map (fun x => fin (x + c))) Reff = psislw M (xs.map fin) Reff := by
  unfold psislw
  rw [psislwSplit_shift]

theorem insertPair_length {α : Type} [LinearOrderedField α] (a : Dbl α × ℕ)
    (l : List (Dbl α × ℕ)) : (insertPair a l).length = l.length + 1 := by
  induction l with
  | nil => rfl
  | cons b l ih =>
    simp only [insertPair]
    split_ifs <;> simp [ih]

theorem sortPairs_length {α : Type} [LinearOrderedField α] (v : List (Dbl α × ℕ)) :
    (sortPairs v).length = v.length := by
  induction v with
  | nil => rfl
  | cons a l ih =>
    show (insertPair a (sortPairs l)).length = _
    rw [insertPair_length, ih, List.length_cons]

/-- The value of `cutoff_ind`, when the conversion to `int` is defined: one less than the
ceiling of a finite number that is at most `n / 5`. -/
theorem cutoffInd_some (M : CMath ℝ) (n : ℕ) (Reff : Dbl ℝ) (c : ℤ)
    (hc : cutoffInd M n Reff = some c) :
    ∃ y : ℝ, Dbl.min (fin (1 / 5) * ofNat n) (fin 3 * sqrt M (ofNat n / Reff)) = fin y ∧
      y ≤ (n : ℝ) / 5 ∧ c = ⌈y⌉ - 1 := by
  unfold cutoffInd at hc
  have ha : (fin (1 / 5) * ofNat n : Dbl ℝ) = fin ((n : ℝ) / 5) := by
    simp only [ofNat, Dbl.fin_mul_fin]
    congr 1
    ring
  rw [ha] at hc ⊢
  have key : ∀ y : ℝ, toInt (ceil (fin y) - fin 1) = some c → c = ⌈y⌉ - 1 := by
    intro y hy
    simp only [ceil, Dbl.fin_sub_fin, toInt, Option.some.injEq] at hy
    rw [← hy]
    have e : ((⌈y⌉ : ℤ) : ℝ) - 1 = ((⌈y⌉ - 1 : ℤ) : ℝ) := by push_cast; ring
    rw [e]
    split_ifs
    · exact Int.floor_intCast _
    · exact Int.ceil_intCast _
  unfold Dbl.min at hc ⊢
  cases hb : fin 3 * sqrt M (ofNat n / Reff) with
  | nan =>
    rw [hb] at hc
    simp only [lt, Bool.false_eq_true, if_false] at hc ⊢
    exact ⟨_, rfl, le_refl _, key _ hc⟩
  | pinf =>
    rw [hb] at hc
    simp only [lt, Bool.false_eq_true, if_false] at hc ⊢
    exact ⟨_, rfl, le_refl _, key _ hc⟩
  | ninf =>
    rw [hb] at hc
    simp only [lt, if_true] at hc
    exact absurd hc (by simp [ceil, toInt, HSub.hSub, Sub.sub, sub, add, neg])
  | fin y =>
    rw [hb] at hc
    by_cases hlt : y < (n : ℝ) / 5
    · simp only [Dbl.lt_fin_fin, hlt, decide_True, if_true] at hc ⊢
      exact ⟨y, rfl, le_of_lt hlt, key _ hc⟩
    · simp only [Dbl.lt_fin_fin, hlt, decide_False, Bool.false_eq_true, if_false] at hc ⊢
      exact ⟨_, rfl, le_refl _, key _ hc⟩

theorem cutoffInd_lt (M : CMath ℝ) (n : ℕ) (Reff : Dbl ℝ) (c : ℤ)
    (hc : cutoffInd M n Reff = some c) (h0 : 0 ≤ c) : c < n := by
  obtain ⟨y, -, hy, rfl⟩ := cutoffInd_some M n Reff c hc
  have h1 : ⌈y⌉ ≤ (n : ℤ) := by
    apply Int.ceil_le.2
    have : (0 : ℝ) ≤ n := Nat.cast_nonneg n
    push_cast
    linarith
  omega

/-- The split of `psislw` is defined whenever `cutoff_ind` is defined and not negative;
the vector is then shifted by its maximum and the tail has `cutoff_ind` elements. -/
theorem psislwSplit_some (M : CMath ℝ) (xs : List ℝ) (Reff : Dbl ℝ) (c : ℤ)
    (hc : cutoffInd M xs.length Reff = some c) (h0 : 0 ≤ c) :
    ∃ (m : ℝ) (s : Split ℝ), m ∈ xs ∧ (∀ x ∈ xs, x ≤ m) ∧
      psislwSplit M (xs.map fin) Reff = some s ∧
      s.lw = xs.map (fun x => fin (x - m)) ∧
      s.tail = (sortPairs (List.zip s.lw (List.range xs.length))).drop
        (xs.length - c.toNat) ∧
      s.tail.length = c.toNat := by
  have hlt := cutoffInd_lt M xs.length Reff c hc h0
  have hne : xs ≠ [] := by
    intro h
    rw [h] at hlt
    simp at hlt
    omega
  obtain ⟨m, hm, hmem, hmax⟩ := maxElement_fin xs hne
  have hidx : (0 : ℤ) ≤ (xs.length : ℤ) - c - 1 := by omega
  have hshift : List.map (fun w => w - fin m) (xs.map fin) = xs.map (fun x => fin (x - m)) := by
    rw [List.map_map]
    apply List.map_congr_left
    intro a _
    simp
  have hlen : (sortPairs (List.zip (xs.map (fun x => fin (x - m)))
      (List.range xs.length))).length = xs.length := by
    rw [sortPairs_length, List.length_zip, List.length_map, List.length_range, Nat.min_self]
  have hget : ((xs.length : ℤ) - c - 1).toNat < (sortPairs (List.zip
      (xs.map (fun x => fin (x - m))) (List.range xs.length))).length := by
    rw [hlen]
    omega
  have hdrop : ((xs.length : ℤ) - c).toNat = xs.length - c.toNat := by omega
  refine ⟨m, ⟨xs.map (fun x => fin (x - m)),
    (sortPairs (List.zip (xs.map (fun x => fin (x - m))) (List.range xs.length))).drop
      (xs.length - c.toNat),
    Dbl.max ((sortPairs (List.zip (xs.map (fun x => fin (x - m)))
      (List.range xs.length))).get ⟨_, hget⟩).1 (log M minPositive)⟩,
    hmem, hmax, ?_, rfl, rfl, ?_⟩
  · unfold psislwSplit
    simp only [List.length_map, hc, hm, Option.bind_eq_bind, Option.some_bind, hidx, if_true,
      hshift, List.getElem?_eq_getElem hget, hdrop]
    rfl
  · simp only [List.length_drop]
    rw [hlen]
    omega

/-- The value of `cutoff_ind` for a finite positive `Reff`. -/
theorem cutoffInd_fin (M : CMath ℝ) (hM : M.Exact) (n : ℕ) (r : ℝ) (hr : 0 < r) :
    cutoffInd M n (fin r)
      = some (⌈Min.min ((n : ℝ) / 5) (3 * Real.sqrt ((n : ℝ) / r))⌉ - 1) := by
  have hq : ¬ ((n : ℝ) / r < 0) := not_lt.2 (div_nonneg (Nat.cast_nonneg n) (le_of_lt hr))
  have e : ∀ y : ℝ, toInt (ceil (fin y) - fin 1) = some (⌈y⌉ - 1) := by
    intro y
    simp only [ceil, Dbl.fin_sub_fin, toInt, Option.some.injEq]
    have e : ((⌈y⌉ : ℤ) : ℝ) - 1 = ((⌈y⌉ - 1 : ℤ) : ℝ) := by push_cast; ring
    rw [e]
    split_ifs
    · exact Int.floor_intCast _
    · exact Int.ceil_intCast _
  unfold cutoffInd Dbl.min
  simp only [ofNat, Dbl.fin_mul_fin, Dbl.fin_div_fin _ _ (ne_of_gt hr), Dbl.sqrt, hq, if_false,
    hM.sqrt_eq, Dbl.lt_fin_fin]
  have ha : (1 : ℝ) / 5 * n = n / 5 := by ring
  rw [ha]
  by_cases h : 3 * Real.sqrt ((n : ℝ) / r) < (n : ℝ) / 5
  · simp only [h, decide_True, if_true, e, min_eq_right (le_of_lt h)]
  · simp only [h, decide_False, Bool.false_eq_true, if_false, e, min_eq_left (not_lt.1 h)]

theorem cutoffInd_nonneg (M : CMath ℝ) (hM : M.Exact) (n : ℕ) (hn : 1 ≤ n) (r : ℝ)
    (hr : 0 < r) : ∃ c : ℤ, cutoffInd M n (fin r) = some c ∧ 0 ≤ c := by
  refine ⟨_, cutoffInd_fin M hM n r hr, ?_⟩
  have hn0 : (0 : ℝ) < n := by exact_mod_cast hn
  have hpos : (0 : ℝ) < Min.min ((n : ℝ) / 5) (3 * Real.sqrt ((n : ℝ) / r)) := by
    apply lt_min
    · positivity
    · have := Real.sqrt_pos.2 (div_pos hn0 hr)
      positivity
  have := Int.ceil_pos.2 hpos
  omega

theorem cutoffInd_one (M : CMath ℝ) (hM : M.Exact) (n : ℕ) (hn : 1 ≤ n) :
    ∃ c : ℤ, cutoffInd M n (fin 1) = some c ∧ 0 ≤ c ∧ (c ≤ 4 ↔ n ≤ 25) := by
  obtain ⟨c, hc, h0⟩ := cutoffInd_nonneg M hM n hn 1 one_pos
  refine ⟨c, hc, h0, ?_⟩
  rw [cutoffInd_fin M hM n 1 one_pos, Option.some.injEq] at hc
  have hn0 : (1 : ℝ) ≤ n := by exact_mod_cast hn
  have hc4 : c ≤ 4 ↔ Min.min ((n : ℝ) / 5) (3 * Real.sqrt ((n : ℝ) / 1)) ≤ 5 := by
    rw [← hc]
    constructor
    · intro h
      have h5 : ⌈Min.min ((n : ℝ) / 5) (3 * Real.sqrt ((n : ℝ) / 1))⌉ ≤ 5 := by omega
      have := Int.ceil_le.1 h5
      simpa using this
    · intro h
      have h5 : ⌈Min.min ((n : ℝ) / 5) (3 * Real.sqrt ((n : ℝ) / 1))⌉ ≤ 5 :=
        Int.ceil_le.2 (by simpa using h)
      omega
  rw [hc4, min_le_iff, div_one]
  constructor
  · rintro (h | h)
    · have : (n : ℝ) ≤ 25 := by linarith
      exact_mod_cast this
    · have hs : Real.sqrt n ≤ 5 / 3 := by linarith
      have hsq : (n : ℝ) ≤ (5 / 3) ^ 2 := (Real.sqrt_le_left (by norm_num)).1 hs
      have : (n : ℝ) ≤ 25 := by norm_num at hsq; linarith
      exact_mod_cast this
  · intro h
    left
    have : (n : ℝ) ≤ 25 := by exact_mod_cast h
    linarith

/-- Claim C2. Tail-too-small early exit: whenever the tail size `cutoff_ind` is defined,
not negative and at most 4, `psislw` on a vector of finite values returns plus infinity and
leaves every element reduced by the maximum `m` of the vector, nothing else; with
`Reff = 1` the tail size of a vector of length `n >= 1` is at most 4 exactly when
`n <= 25`. -/
theorem psislw_tail_too_small (M : CMath ℝ) (hM : M.Exact) :
    (∀ (xs : List ℝ) (Reff : Dbl ℝ) (c : ℤ), cutoffInd M xs.length Reff = some c →
      0 ≤ c → c ≤ 4 →
      ∃ m : ℝ, m ∈ xs ∧ (∀ x ∈ xs, x ≤ m) ∧
        psislw M (xs.map fin) Reff = some (pinf, xs.map (fun x => fin (x - m)))) ∧
    (∀ n : ℕ, 1 ≤ n → ∃ c : ℤ, cutoffInd M n (fin 1) = some c ∧ 0 ≤ c ∧ (c ≤ 4 ↔ n ≤ 25)) := by
  refine ⟨?_, cutoffInd_one M hM⟩
  intro xs Reff c hc h0 h4
  obtain ⟨m, s, hmem, hmax, hs, hlw, -, hlen⟩ := psislwSplit_some M xs Reff c hc h0
  refine ⟨m, hmem, hmax, ?_⟩
  have h : s.tail.length ≤ 4 := by
    rw [hlen]
    omega
  unfold psislw
  simp only [hs, Option.bind_eq_bind, Option.some_bind, h, if_true, hlw]

theorem psislw_tail_too_small_witness :
    psislw (CMath.mk Real.exp Real.log (fun x => Real.log (1 + x)) (fun x => Real.exp x - 1)
      Real.sqrt) [fin 0, fin 1] (fin 1) = some (pinf, [fin (-1), fin 0]) := by
  have hM : (CMath.mk Real.exp Real.log (fun x => Real.log (1 + x)) (fun x => Real.exp x - 1)
      Real.sqrt).Exact := ⟨fun _ => rfl, fun _ => rfl, fun _ => rfl, fun _ => rfl, fun _ => rfl⟩
  obtain ⟨c, hc, h0, h4⟩ := (psislw_tail_too_small _ hM).2 2 (by norm_num)
  obtain ⟨m, hmem, hmax, h⟩ :=
    (psislw_tail_too_small _ hM).1 [0, 1] (fin 1) c hc h0 (h4.2 (by norm_num))
  have h1 : m = 1 := by
    have := hmax 1 (by simp)
    simp only [List.mem_cons, List.mem_singleton, List.not_mem_nil, or_false] at hmem
    rcases hmem with h | h
    · rw [h] at this
      norm_num at this
    · exact h
  rw [h1] at h
  simpa using h

/-- The fit `gpdfitnew` is defined on every sample of at least two values. -/
theorem gpdfitnew_some (M : CMath ℝ) (x : List (Dbl ℝ)) (hx : 2 ≤ x.length) :
    ∃ k sigma, gpdfitnew M x = some (k, sigma) := by
  have hn0 : ¬ ((x.length : ℝ) < 0) := not_lt.2 (Nat.cast_nonneg _)
  have hn2 : (2 : ℝ) ≤ x.length := by exact_mod_cast hx
  have h1 : toInt (sqrt M (ofNat x.length))
      = some (if 0 ≤ M.sqrt x.length then ⌊M.sqrt x.length⌋ else ⌈M.sqrt x.length⌉) := by
    simp only [ofNat, Dbl.sqrt, hn0, if_false, toInt]
  have h2 : toInt (ofNat x.length / fin 4 + fin (1 / 2) : Dbl ℝ)
      = some ⌊(x.length : ℝ) / 4 + 1 / 2⌋ := by
    have : (0 : ℝ) ≤ (x.length : ℝ) / 4 + 1 / 2 := by positivity
    simp only [ofNat, Dbl.fin_div_fin _ _ (by norm_num : (4 : ℝ) ≠ 0), Dbl.fin_add_fin, toInt,
      this, if_true]
  have h3 : (0 : ℤ) ≤ ⌊(x.length : ℝ) / 4 + 1 / 2⌋ - 1 := by
    have : (1 : ℤ) ≤ ⌊(x.length : ℝ) / 4 + 1 / 2⌋ := by
      apply Int.le_floor.2
      push_cast
      linarith
    omega
  have h4 : (⌊(x.length : ℝ) / 4 + 1 / 2⌋ - 1).toNat < x.length := by
    have : ⌊(x.length : ℝ) / 4 + 1 / 2⌋ ≤ (x.length : ℤ) := by
      have := Int.floor_le ((x.length : ℝ) / 4 + 1 / 2)
      have h5 : ((⌊(x.length : ℝ) / 4 + 1 / 2⌋ : ℤ) : ℝ) ≤ ((x.length : ℤ) : ℝ) := by
        push_cast
        linarith
      exact_mod_cast h5
    omega
  have h5 : x.length - 1 < x.length := by omega
  have h6 : 1 ≤ x.length := by omega
  unfold gpdfitnew
  simp only [h1, h2, h3, h6, if_true, Option.bind_eq_bind, Option.some_bind,
    List.getElem?_eq_getElem h4, List.getElem?_eq_getElem h5]
  exact ⟨_, _, rfl⟩

/-- On finite arguments `logSum` returns one of its arguments or the larger one plus
`log(1 + exp(-|y - x|))`; in every case a finite value. -/
theorem logSum_fin (M : CMath ℝ) (hM : M.Exact) (x y : ℝ) :
    ∃ z : ℝ, logSum M (fin x) (fin y) = fin z := by
  have hexp : ∀ t : ℝ, log1p M (exp M (fin t)) = fin (Real.log (1 + Real.exp t)) := by
    intro t
    have h1 : ¬ (Real.exp t < -1) := by
      have := Real.exp_pos t
      linarith
    have h2 : ¬ (Real.exp t = -1) := by
      have := Real.exp_pos t
      intro h
      linarith
    simp only [Dbl.exp, Dbl.log1p, hM.exp_eq, hM.log1p_eq, h1, h2, if_false]
  unfold logSum
  simp only [Dbl.fin_sub_fin, Dbl.neg_fin, hexp, Dbl.fin_add_fin]
  split_ifs <;> exact ⟨_, rfl⟩

theorem foldl_logSum_fin (M : CMath ℝ) (hM : M.Exact) (l : List ℝ) (a : ℝ) :
    ∃ z : ℝ, (l.map fin).foldl (fun s w => logSum M s w) (fin a) = fin z := by
  induction l generalizing a with
  | nil => exact ⟨a, rfl⟩
  | cons b l ih =>
    obtain ⟨z, hz⟩ := logSum_fin M hM a b
    simp only [List.map_cons, List.foldl_cons, hz]
    exact ih z

/-- The renormalisation of a non-empty vector of finite values subtracts one finite
number from every element. -/
theorem renormalize_fin (M : CMath ℝ) (hM : M.Exact) (ys : List ℝ) (hne : ys ≠ []) :
    ∃ z : ℝ, renormalize M (ys.map fin) = some (ys.map (fun y => fin (y - z))) := by
  cases ys with
  | nil => exact absurd rfl hne
  | cons a l =>
    obtain ⟨z, hz⟩ := foldl_logSum_fin M hM l a
    refine ⟨z, ?_⟩
    simp only [List.map_cons, renormalize, hz, Dbl.fin_sub_fin, List.map_map, Option.some.injEq,
      List.cons.injEq, true_and]
    apply List.map_congr_left
    intro b _
    simp

theorem renormalize_some {α : Type} [LinearOrderedField α] (M : CMath α) (l : List (Dbl α))
    (hne : l ≠ []) : ∃ out, renormalize M l = some out := by
  cases l with
  | nil => exact absurd rfl hne
  | cons a l => exact ⟨_, rfl⟩

theorem foldl_set_length {β γ : Type} (f : γ → ℕ) (g : γ → β) (qs : List γ) (l : List β) :
    (qs.foldl (fun lw vq => lw.set (f vq) (g vq)) l).length = l.length := by
  induction qs generalizing l with
  | nil => rfl
  | cons q qs ih =>
    simp only [List.foldl_cons]
    rw [ih, List.length_set]

theorem smoothTail_length {α : Type} [LinearOrderedField α] (M : CMath α) (s : Split α)
    (k sigma : Dbl α) : (smoothTail M s k sigma).length = s.lw.length := by
  unfold smoothTail
  simp only [List.length_map]
  exact foldl_set_length (fun vq : (Dbl α × ℕ) × Dbl α => vq.1.2) _ _ _

/-- The steps of `psislw` after the split, when the tail has more than four elements. -/
theorem psislw_of_fit {α : Type} [LinearOrderedField α] [FloorRing α] (M : CMath α)
    (lw : List (Dbl α)) (Reff : Dbl α) (s : Split α) (k sigma : Dbl α)
    (hs : psislwSplit M lw Reff = some s) (h4 : 4 < s.tail.length)
    (hfit : gpdfitnew M (exceedances M s) = some (k, sigma)) :
    psislw M lw Reff
      = (renormalize M (if ge k (fin 1 / fin 3) then smoothTail M s k sigma else s.lw)).map
          (fun out => (k, out)) := by
  have h : ¬ s.tail.length ≤ 4 := by omega
  unfold psislw
  simp only [hs, Option.bind_eq_bind, Option.some_bind, h, if_false, hfit]
  cases renormalize M (if ge k (fin 1 / fin 3) then smoothTail M s k sigma else s.lw) <;> rfl

theorem exceedances_length {α : Type} [LinearOrderedField α] (M : CMath α) (s : Split α) :
    (exceedances M s).length = s.tail.length := by
  simp [exceedances]

/-- Claim C3. Shift invariance: adding one real constant to every element of a non-empty
vector of finite values does not change what `psislw` returns nor the vector it leaves, for
every finite `Reff > 0`; and the call does return. -/
theorem psislw_shift_invariant (M : CMath ℝ) (hM : M.Exact) (xs : List ℝ) (hne : xs ≠ [])
    (r : ℝ) (hr : 0 < r) (c : ℝ) :
    psislw M (xs.map (fun x => fin (x + c))) (fin r) = psislw M (xs.map fin) (fin r) ∧
    ∃ k out, psislw M (xs.map fin) (fin r) = some (k, out) := by
  refine ⟨psislw_shift M xs (fin r) c, ?_⟩
  have hn : 1 ≤ xs.length := by
    cases xs with
    | nil => exact absurd rfl hne
    | cons a l => simp
  obtain ⟨ci, hci, h0⟩ := cutoffInd_nonneg M hM xs.length hn r hr
  obtain ⟨m, s, -, -, hs, hlw, -, hlen⟩ := psislwSplit_some M xs (fin r) ci hci h0
  by_cases h4 : s.tail.length ≤ 4
  · refine ⟨pinf, s.lw, ?_⟩
    unfold psislw
    simp only [hs, Option.bind_eq_bind, Option.some_bind, h4, if_true]
  · obtain ⟨k, sigma, hfit⟩ := gpdfitnew_some M (exceedances M s)
      (by rw [exceedances_length]; omega)
    have hne2 : (if ge k (fin 1 / fin 3) then smoothTail M s k sigma else s.lw) ≠ [] := by
      have hl : (if ge k (fin 1 / fin 3) then smoothTail M s k sigma else s.lw).length
          = xs.length := by
        split_ifs
        · rw [smoothTail_length, hlw, List.length_map]
        · rw [hlw, List.length_map]
      intro h
      rw [h] at hl
      simp at hl
      omega
    obtain ⟨out, hout⟩ := renormalize_some M _ hne2
    refine ⟨k, out, ?_⟩
    rw [psislw_of_fit M _ _ s k sigma hs (by omega) hfit, hout]
    rfl

theorem psislw_shift_invariant_witness :
    psislw (CMath.mk Real.exp Real.log (fun x => Real.log (1 + x)) (fun x => Real.exp x - 1)
      Real.sqrt) ([0, 1].map (fun x => fin (x + 5))) (fin 1)
    = psislw (CMath.mk Real.exp Real.log (fun x => Real.log (1 + x)) (fun x => Real.exp x - 1)
      Real.sqrt) ([0, 1].map fin) (fin 1) :=
  (psislw_shift_invariant _ ⟨fun _ => rfl, fun _ => rfl, fun _ => rfl, fun _ => rfl,
    fun _ => rfl⟩ [0, 1] (by simp) 1 one_pos 5).1

end Psislw

/-! ## The renormalisation step -/

section Renormalize

/-- One step of the accumulation with `logSum` on finite values: the result never exceeds
the exact sum of the exponentials, and falls short of it by at most the factor
`1 + exp(-400)` and the summand `exp(logLimit)`. -/
theorem logSum_step (M : CMath ℝ) (hM : M.Exact) (x y : ℝ) :
    ∃ z : ℝ, logSum M (fin x) (fin y) = fin z ∧
      Real.exp z ≤ Real.exp x + Real.exp y ∧
      Real.exp x + Real.exp y ≤ Real.exp z * (1 + Real.exp (-400))
        + Real.exp (-((2 - (1 / 2) ^ 52) * 2 ^ 1023) / 100) := by
  have hexp : ∀ t : ℝ, log1p M (exp M (fin t)) = fin (Real.log (1 + Real.exp t)) := by
    intro t
    have h1 : ¬ (Real.exp t < -1) := by
      have := Real.exp_pos t
      linarith
    have h2 : ¬ (Real.exp t = -1) := by
      have := Real.exp_pos t
      intro h
      linarith
    simp only [Dbl.exp, Dbl.log1p, hM.exp_eq, hM.log1p_eq, h1, h2, if_false]
  have hlim : (-maxValue / fin 100 : Dbl ℝ) = fin (-((2 - (1 / 2) ^ 52) * 2 ^ 1023) / 100) := by
    simp only [maxValue, Dbl.neg_fin, Dbl.fin_div_fin _ _ (by norm_num : (100 : ℝ) ≠ 0)]
  have hx := Real.exp_pos x
  have hy := Real.exp_pos y
  have hd := Real.exp_pos (-((2 - (1 / 2) ^ 52) * 2 ^ 1023) / 100 : ℝ)
  have he := Real.exp_pos (-400 : ℝ)
  have hsum : ∀ a b : ℝ, Real.exp (a + Real.log (1 + Real.exp (b - a)))
      = Real.exp a + Real.exp b := by
    intro a b
    rw [Real.exp_add, Real.exp_log (by have := Real.exp_pos (b - a); linarith), mul_add,
      mul_one, ← Real.exp_add]
    congr 2
    ring
  unfold logSum
  simp only [hlim, Dbl.fin_sub_fin, Dbl.neg_fin, hexp, Dbl.fin_add_fin, Dbl.lt_fin_fin,
    Bool.or_eq_true, decide_eq_true_eq]
  by_cases hA : 400 < y - x ∨ x < -((2 - (1 / 2) ^ 52) * 2 ^ 1023) / 100
  · simp only [hA, if_true]
    refine ⟨y, rfl, by linarith, ?_⟩
    rcases hA with h | h
    · have : Real.exp x ≤ Real.exp y * Real.exp (-400) := by
        rw [← Real.exp_add]
        exact Real.exp_le_exp.2 (by linarith)
      nlinarith
    · have : Real.exp x ≤ Real.exp (-((2 - (1 / 2) ^ 52) * 2 ^ 1023) / 100) :=
        Real.exp_le_exp.2 (le_of_lt h)
      nlinarith
  · simp only [hA, if_false]
    by_cases hB : y - x < -400 ∨ y < -((2 - (1 / 2) ^ 52) * 2 ^ 1023) / 100
    · simp only [hB, if_true]
      refine ⟨x, rfl, by linarith, ?_⟩
      rcases hB with h | h
      · have : Real.exp y ≤ Real.exp x * Real.exp (-400) := by
          rw [← Real.exp_add]
          exact Real.exp_le_exp.2 (by linarith)
        nlinarith
      · have : Real.exp y ≤ Real.exp (-((2 - (1 / 2) ^ 52) * 2 ^ 1023) / 100) :=
          Real.exp_le_exp.2 (le_of_lt h)
        nlinarith
    · simp only [hB, if_false]
      by_cases hC : y - x < 0
      · simp only [hC, if_true]
        refine ⟨_, rfl, ?_, ?_⟩
        · rw [hsum]
        · rw [hsum]
          nlinarith
      · simp only [hC, if_false]
        refine ⟨_, rfl, ?_, ?_⟩
        · rw [neg_sub, hsum]
          linarith
        · rw [neg_sub, hsum]
          nlinarith

/-- The accumulation of `sumlogs` over finite values: the exponential of the result is at
most the sum of the exponentials, which in turn is at most the exponential of the result
plus one `exp(logLimit)` for every step, times one factor `1 + exp(-400)` for every step. -/
theorem foldl_logSum_bound (M : CMath ℝ) (hM : M.Exact) (l : List ℝ) (a : ℝ) :
    ∃ z : ℝ, (l.map fin).foldl (fun s w => logSum M s w) (fin a) = fin z ∧
      Real.exp z ≤ Real.exp a + (l.map Real.exp).sum ∧
      Real.exp a + (l.map Real.exp).sum ≤
        (Real.exp z + l.length * Real.exp (-((2 - (1 / 2) ^ 52) * 2 ^ 1023) / 100))
          * (1 + Real.exp (-400)) ^ l.length := by
  induction l generalizing a with
  | nil => exact ⟨a, rfl, by simp, by simp⟩
  | cons b l ih =>
    obtain ⟨z1, hz1, hlo1, hhi1⟩ := logSum_step M hM a b
    obtain ⟨z, hz, hlo, hhi⟩ := ih z1
    refine ⟨z, ?_, ?_, ?_⟩
    · simp only [List.map_cons, List.foldl_cons, hz1]
      exact hz
    · simp only [List.map_cons, List.sum_cons]
      linarith
    · simp only [List.map_cons, List.sum_cons, List.length_cons, Nat.cast_add, Nat.cast_one]
      have he := Real.exp_pos (-400 : ℝ)
      have hd := Real.exp_pos (-((2 - (1 / 2) ^ 52) * 2 ^ 1023) / 100 : ℝ)
      generalize Real.exp (-((2 - (1 / 2) ^ 52) * 2 ^ 1023) / 100 : ℝ) = δ at hhi1 hhi hd ⊢
      generalize Real.exp (-400 : ℝ) = ε at hhi1 hhi he ⊢
      have hS : 0 ≤ (l.map Real.exp).sum := by
        apply List.sum_nonneg
        intro t ht
        obtain ⟨u, -, rfl⟩ := List.mem_map.1 ht
        exact le_of_lt (Real.exp_pos u)
      have hE : 1 ≤ (1 + ε) ^ l.length := one_le_pow₀ (by linarith)
      have h1 : Real.exp a + (Real.exp b + (l.map Real.exp).sum)
          ≤ (Real.exp z1 + (l.map Real.exp).sum) * (1 + ε) + δ := by nlinarith
      have h2 : (Real.exp z1 + (l.map Real.exp).sum) * (1 + ε)
          ≤ (Real.exp z + l.length * δ) * (1 + ε) ^ l.length * (1 + ε) :=
        mul_le_mul_of_nonneg_right hhi (by linarith)
      have h3 : δ ≤ δ * ((1 + ε) ^ l.length * (1 + ε)) := by
        have : 1 ≤ (1 + ε) ^ l.length * (1 + ε) := by nlinarith
        nlinarith
      rw [pow_succ]
      linarith

theorem exp_neg_nat_le (n : ℕ) : Real.exp (-(n : ℝ)) ≤ (1 / 2) ^ n := by
  have h1 : Real.exp (-1) ≤ 1 / 2 := by
    rw [Real.exp_neg]
    have h2 : (2 : ℝ) ≤ Real.exp 1 := by
      have := Real.add_one_le_exp (1 : ℝ)
      linarith
    rw [inv_eq_one_div]
    exact div_le_div_of_nonneg_left (by norm_num) (by norm_num) h2
  have h3 : Real.exp (-(n : ℝ)) = Real.exp (-1) ^ n := by
    rw [← Real.exp_nat_mul]
    congr 1
    ring
  rw [h3]
  exact pow_le_pow_left₀ (le_of_lt (Real.exp_pos _)) h1 n

theorem exp_neg_nat_ge (n : ℕ) : (1 / 3) ^ n ≤ Real.exp (-(n : ℝ)) := by
  have h1 : 1 / 3 ≤ Real.exp (-1) := by
    rw [Real.exp_neg]
    have h2 : Real.exp 1 ≤ 3 := by
      have := Real.exp_one_lt_d9
      linarith
    rw [inv_eq_one_div]
    exact div_le_div_of_nonneg_left (by norm_num) (Real.exp_pos 1) h2
  have h3 : Real.exp (-(n : ℝ)) = Real.exp (-1) ^ n := by
    rw [← Real.exp_nat_mul]
    congr 1
    ring
  rw [h3]
  exact pow_le_pow_left₀ (by norm_num) h1 n

theorem one_add_pow_le (ε : ℝ) (k : ℕ) (h0 : 0 ≤ ε) (hε : ε ≤ (1 / 2) ^ 400)
    (hk : k < 2 ^ 31) : (1 + ε) ^ k ≤ 1 + (1 / 2) ^ 368 := by
  have h1 : (1 + ε) ^ k ≤ Real.exp ε ^ k := by
    apply pow_le_pow_left₀ (by linarith)
    have := Real.add_one_le_exp ε
    linarith
  have h2 : Real.exp ε ^ k = Real.exp (k * ε) := (Real.exp_nat_mul ε k).symm
  have hk2 : (k : ℝ) ≤ 2 ^ 31 := by exact_mod_cast le_of_lt hk
  have h3 : (k : ℝ) * ε ≤ (1 / 2) ^ 369 := by
    have : (k : ℝ) * ε ≤ 2 ^ 31 * (1 / 2) ^ 400 :=
      mul_le_mul hk2 hε h0 (by positivity)
    have e : (2 : ℝ) ^ 31 * (1 / 2) ^ 400 = (1 / 2) ^ 369 := by norm_num
    linarith
  have h4 : Real.exp ((k : ℝ) * ε) ≤ Real.exp ((1 / 2) ^ 369) := Real.exp_le_exp.2 h3
  have h5 : Real.exp ((1 / 2) ^ 369) * (1 - (1 / 2) ^ 369) ≤ 1 := by
    have h6 := Real.add_one_le_exp (-((1 / 2 : ℝ) ^ 369))
    have h7 : Real.exp ((1 / 2) ^ 369) * Real.exp (-((1 / 2 : ℝ) ^ 369)) = 1 := by
      rw [← Real.exp_add]
      simp
    have h8 := Real.exp_pos ((1 / 2 : ℝ) ^ 369)
    nlinarith
  have h9 : Real.exp ((1 / 2) ^ 369) ≤ 1 + (1 / 2) ^ 368 := by
    have h10 : (1 : ℝ) ≤ (1 + (1 / 2) ^ 368) * (1 - (1 / 2) ^ 369) := by norm_num
    have h11 : (0 : ℝ) < 1 - (1 / 2) ^ 369 := by norm_num
    by_contra hcon
    push_neg at hcon
    have := mul_lt_mul_of_pos_right hcon h11
    linarith
  linarith

/-- From the two bounds of the accumulation to the normalisation within `1e-9`. -/
theorem ratio_bound (u T δ ε : ℝ) (k : ℕ) (hk : k < 2 ^ 31) (hu : 0 < u) (hδ0 : 0 ≤ δ)
    (hε0 : 0 ≤ ε) (hδ : δ ≤ (1 / 2) ^ 2000) (hε : ε ≤ (1 / 2) ^ 400) (hlo : u ≤ T)
    (hhi : T ≤ (u + k * δ) * (1 + ε) ^ k) (hT : (1 / 2) ^ 1200 ≤ T) :
    1 ≤ T / u ∧ T / u ≤ 1 + 1 / 10 ^ 9 := by
  have hE := one_add_pow_le ε k hε0 hε hk
  have hE1 : 1 ≤ (1 + ε) ^ k := one_le_pow₀ (by linarith)
  have hk2 : (k : ℝ) ≤ 2 ^ 31 := by exact_mod_cast le_of_lt hk
  have hk0 : (0 : ℝ) ≤ k := Nat.cast_nonneg k
  have hD : (k : ℝ) * δ ≤ (1 / 2) ^ 1969 := by
    have : (k : ℝ) * δ ≤ 2 ^ 31 * (1 / 2) ^ 2000 := mul_le_mul hk2 hδ hδ0 (by positivity)
    have e : (2 : ℝ) ^ 31 * (1 / 2) ^ 2000 = (1 / 2) ^ 1969 := by norm_num
    linarith
  have hD0 : 0 ≤ (k : ℝ) * δ := mul_nonneg hk0 hδ0
  have h1 : T ≤ (u + (1 / 2) ^ 1969) * (1 + (1 / 2) ^ 368) := by
    calc T ≤ (u + k * δ) * (1 + ε) ^ k := hhi
      _ ≤ (u + (1 / 2) ^ 1969) * (1 + ε) ^ k :=
        mul_le_mul_of_nonneg_right (by linarith) (by linarith)
      _ ≤ (u + (1 / 2) ^ 1969) * (1 + (1 / 2) ^ 368) :=
        mul_le_mul_of_nonneg_left hE (by positivity)
  have hu2 : (1 / 2 : ℝ) ^ 1202 ≤ u := by
    by_contra hcon
    push_neg at hcon
    have h2 : (u + (1 / 2) ^ 1969) * (1 + (1 / 2) ^ 368)
        < ((1 / 2) ^ 1202 + (1 / 2) ^ 1969) * (1 + (1 / 2) ^ 368) :=
      mul_lt_mul_of_pos_right (by linarith) (by positivity)
    have h3 : ((1 / 2 : ℝ) ^ 1202 + (1 / 2) ^ 1969) * (1 + (1 / 2) ^ 368) ≤ (1 / 2) ^ 1200 := by
      norm_num
    linarith
  constructor
  · rw [le_div_iff₀ hu]
    linarith
  · rw [div_le_iff₀ hu]
    have h4 : (u + (1 / 2) ^ 1969) * (1 + (1 / 2) ^ 368) ≤ (1 + 1 / 10 ^ 9) * u := by
      have h5 : (1 / 2 : ℝ) ^ 1969 * (1 + (1 / 2) ^ 368)
          ≤ (1 / 10 ^ 9 - (1 / 2) ^ 368) * (1 / 2) ^ 1202 := by norm_num
      have h6 : (1 / 10 ^ 9 - (1 / 2 : ℝ) ^ 368) * (1 / 2) ^ 1202
          ≤ (1 / 10 ^ 9 - (1 / 2) ^ 368) * u :=
        mul_le_mul_of_nonneg_left hu2 (by norm_num)
      nlinarith
    linarith

/-- The renormalisation of a vector of fewer than `2^31` finite values, one of them at
least `-745`: every element is reduced by one finite `sumlogs`, and the exponentials of the
result sum to 1 within `1e-9`. -/
theorem renormalize_sum_exp (M : CMath ℝ) (hM : M.Exact) (ys : List ℝ)
    (hn : ys.length < 2 ^ 31) (hbig : ∃ y ∈ ys, -745 ≤ y) :
    ∃ z : ℝ, renormalize M (ys.map fin) = some (ys.map (fun y => fin (y - z))) ∧
      |(ys.map (fun y => Real.exp (y - z))).sum - 1| ≤ 1 / 10 ^ 9 := by
  cases ys with
  | nil =>
    obtain ⟨y, hy, -⟩ := hbig
    simp at hy
  | cons a l =>
    obtain ⟨z, hz, hlo, hhi⟩ := foldl_logSum_bound M hM l a
    refine ⟨z, ?_, ?_⟩
    · simp only [List.map_cons, renormalize, hz, Dbl.fin_sub_fin, List.map_map,
        Option.some.injEq, List.cons.injEq, true_and]
      apply List.map_congr_left
      intro b _
      simp
    · have hsum : ((a :: l).map (fun y => Real.exp (y - z))).sum
          = (Real.exp a + (l.map Real.exp).sum) / Real.exp z := by
        have e : (fun y : ℝ => Real.exp (y - z)) = fun y => Real.exp y * Real.exp (-z) := by
          funext y
          rw [← Real.exp_add]
          congr 1
        rw [e, List.sum_map_mul_right, List.map_cons, List.sum_cons, Real.exp_neg]
        rfl
      rw [hsum]
      have hk : l.length < 2 ^ 31 := by
        simp only [List.length_cons] at hn
        omega
      have hδ : Real.exp (-((2 - (1 / 2) ^ 52) * 2 ^ 1023) / 100) ≤ (1 / 2 : ℝ) ^ 2000 := by
        have h1 : (-((2 - (1 / 2) ^ 52) * 2 ^ 1023) / 100 : ℝ) ≤ -((2000 : ℕ) : ℝ) := by
          norm_num
        exact le_trans (Real.exp_le_exp.2 h1) (exp_neg_nat_le 2000)
      have hε : Real.exp (-400) ≤ (1 / 2 : ℝ) ^ 400 := by
        have := exp_neg_nat_le 400
        norm_num at this ⊢
        exact this
      have hT : (1 / 2 : ℝ) ^ 1200 ≤ Real.exp a + (l.map Real.exp).sum := by
        obtain ⟨y, hy, hy745⟩ := hbig
        have h1 : Real.exp y ≤ ((a :: l).map Real.exp).sum := by
          apply List.single_le_sum
          · intro t ht
            obtain ⟨u, -, rfl⟩ := List.mem_map.1 ht
            exact le_of_lt (Real.exp_pos u)
          · exact List.mem_map.2 ⟨y, hy, rfl⟩
        have h2 : Real.exp (-((745 : ℕ) : ℝ)) ≤ Real.exp y :=
          Real.exp_le_exp.2 (by push_cast; linarith)
        have h3 := exp_neg_nat_ge 745
        have h4 : (1 / 2 : ℝ) ^ 1200 ≤ (1 / 3) ^ 745 := by norm_num
        simp only [List.map_cons, List.sum_cons] at h1
        exact le_trans h4 (le_trans h3 (le_trans h2 h1))
      obtain ⟨h1, h2⟩ := ratio_bound (Real.exp z) (Real.exp a + (l.map Real.exp).sum)
        (Real.exp (-((2 - (1 / 2) ^ 52) * 2 ^ 1023) / 100)) (Real.exp (-400)) l.length hk
        (Real.exp_pos z) (le_of_lt (Real.exp_pos _)) (le_of_lt (Real.exp_pos _)) hδ hε hlo hhi hT
      rw [abs_le]
      constructor <;> linarith

end Renormalize

section Smoothing

theorem insertPair_perm {α : Type} [LinearOrderedField α] (a : Dbl α × ℕ)
    (l : List (Dbl α × ℕ)) : (insertPair a l).Perm (a :: l) := by
  induction l with
  | nil => exact List.Perm.refl _
  | cons b l ih =>
    simp only [insertPair]
    split_ifs
    · exact ((List.Perm.cons b ih).trans (List.Perm.swap a b l))
    · exact List.Perm.refl _

theorem sortPairs_perm {α : Type} [LinearOrderedField α] (v : List (Dbl α × ℕ)) :
    (sortPairs v).Perm v := by
  induction v with
  | nil => exact List.Perm.refl _
  | cons a l ih =>
    show (insertPair a (sortPairs l)).Perm (a :: l)
    exact (insertPair_perm a _).trans (List.Perm.cons a ih)

/-- Every pair of the sorted vector of `psislw` holds a shifted weight and a position of the
vector. -/
theorem mem_sortPairs_zip (ys : List ℝ) (q : Dbl ℝ × ℕ)
    (hq : q ∈ sortPairs (List.zip (ys.map fin) (List.range ys.length))) :
    (∃ y ∈ ys, q.1 = fin y) ∧ q.2 < ys.length := by
  have h1 : q ∈ List.zip (ys.map fin) (List.range ys.length) :=
    (sortPairs_perm _).mem_iff.1 hq
  obtain ⟨a, b⟩ := q
  have h2 := List.of_mem_zip h1
  obtain ⟨y, hy, hy2⟩ := List.mem_map.1 h2.1
  exact ⟨⟨y, hy, hy2.symm⟩, List.mem_range.1 h2.2⟩

theorem log_minPositive (M : CMath ℝ) (hM : M.Exact) :
    log M (minPositive : Dbl ℝ) = fin (Real.log ((1 / 2) ^ 1074)) ∧
      (-745 : ℝ) ≤ Real.log ((1 / 2) ^ 1074) := by
  constructor
  · have h1 : ¬ ((1 / 2 : ℝ) ^ 1074 < 0) := not_lt.2 (by positivity)
    have h2 : ¬ ((1 / 2 : ℝ) ^ 1074 = 0) := by positivity
    simp only [minPositive, Dbl.log, h1, h2, if_false, hM.log_eq]
  · rw [Real.log_pow, one_div, Real.log_inv]
    have := Real.log_two_lt_d9
    push_cast
    linarith

/-- The cutoff `xcutoff` of a split of finite values is finite and at least
`log(2^-1074)`. -/
theorem psislwSplit_xcutoff (M : CMath ℝ) (hM : M.Exact) (xs : List ℝ) (Reff : Dbl ℝ)
    (s : Split ℝ) (hs : psislwSplit M (xs.map fin) Reff = some s) :
    ∃ xc : ℝ, s.xcutoff = fin xc ∧ Real.log ((1 / 2) ^ 1074) ≤ xc := by
  simp only [psislwSplit, Option.bind_eq_bind, Option.bind_eq_some, List.length_map] at hs
  obtain ⟨c, -, mx, hmx, hs⟩ := hs
  have hne : xs ≠ [] := by
    intro h
    rw [h] at hmx
    simp [maxElement] at hmx
  obtain ⟨m, hm, -, -⟩ := maxElement_fin xs hne
  rw [hm, Option.some.injEq] at hmx
  subst hmx
  have hshift : List.map (fun w => w - fin m) (xs.map fin)
      = (xs.map (fun x => x - m)).map fin := by
    rw [List.map_map, List.map_map]
    apply List.map_congr_left
    intro a _
    simp
  split_ifs at hs
  · simp only [Option.bind_eq_some, Option.some.injEq] at hs
    obtain ⟨vc, hvc, rfl⟩ := hs
    have hvc2 : vc ∈ sortPairs (List.zip ((xs.map (fun x => x - m)).map fin)
        (List.range (xs.map (fun x => x - m)).length)) := by
      rw [List.length_map, ← hshift]
      exact List.getElem?_mem hvc
    obtain ⟨⟨y, -, hy⟩, -⟩ := mem_sortPairs_zip _ vc hvc2
    obtain ⟨hl, -⟩ := log_minPositive M hM
    simp only [hy, hl, Dbl.max, Dbl.lt_fin_fin, decide_eq_true_eq]
    by_cases h : y < Real.log ((1 / 2) ^ 1074)
    · simp only [h, if_true]
      exact ⟨_, rfl, le_refl _⟩
    · simp only [h, if_false]
      exact ⟨_, rfl, not_lt.1 h⟩
  · simp at hs

theorem stiLoop_length {α : Type} [LinearOrderedField α] (n2 r : ℕ) (acc : Dbl α) :
    (stiLoop n2 r acc).length = r := by
  induction r generalizing acc with
  | zero => rfl
  | succ r ih => simp [stiLoop, ih]

theorem stiLoop_mem (n2 : ℕ) (hn2 : n2 ≠ 0) (r : ℕ) (a : ℝ) (p : Dbl ℝ)
    (hp : p ∈ stiLoop n2 r (fin a)) : ∃ j : ℕ, j < r ∧ p = fin ((a + j) / n2) := by
  have hn : (n2 : ℝ) ≠ 0 := by exact_mod_cast hn2
  induction r generalizing a with
  | zero => simp [stiLoop] at hp
  | succ r ih =>
    simp only [stiLoop, List.mem_cons] at hp
    rcases hp with h | h
    · refine ⟨0, by omega, ?_⟩
      rw [h, ofNat, Dbl.fin_div_fin _ _ hn]
      simp
    · rw [Dbl.fin_add_fin] at h
      obtain ⟨j, hj, hpj⟩ := ih (a + 1) h
      refine ⟨j + 1, by omega, ?_⟩
      rw [hpj]
      congr 1
      push_cast
      ring

/-- The order statistics of `psislw` lie strictly between 0 and 1. -/
theorem sti_interior (n2 : ℕ) (p : Dbl ℝ) (hp : p ∈ stiLoop n2 n2 (fin (1 / 2))) :
    ∃ pr : ℝ, p = fin pr ∧ 0 < pr ∧ pr < 1 := by
  have hn2 : n2 ≠ 0 := by
    intro h
    rw [h] at hp
    simp [stiLoop] at hp
  obtain ⟨j, hj, rfl⟩ := stiLoop_mem n2 hn2 n2 _ p hp
  have hn : (0 : ℝ) < n2 := by exact_mod_cast Nat.pos_of_ne_zero hn2
  have hj2 : (j : ℝ) + 1 ≤ n2 := by exact_mod_cast hj
  refine ⟨_, rfl, by positivity, ?_⟩
  rw [div_lt_one hn]
  linarith

theorem foldl_set_forall {β γ : Type} (P : β → Prop) (f : γ → ℕ) (g : γ → β) (qs : List γ)
    (l : List β) (hl : ∀ x ∈ l, P x) (hq : ∀ q ∈ qs, P (g q)) :
    ∀ x ∈ qs.foldl (fun lw vq => lw.set (f vq) (g vq)) l, P x := by
  induction qs generalizing l with
  | nil => exact hl
  | cons q qs ih =>
    simp only [List.foldl_cons]
    apply ih
    · intro x hx
      rcases List.mem_or_eq_of_mem_set hx with h | h
      · exact hl x h
      · rw [h]
        exact hq q (List.mem_cons_self _ _)
    · intro q2 hq2
      exact hq q2 (List.mem_cons_of_mem _ hq2)

theorem foldl_set_last {β γ : Type} (f : γ → ℕ) (g : γ → β) (qs : List γ) (q0 : γ)
    (l : List β) (h0 : f q0 < l.length) :
    g q0 ∈ (qs ++ [q0]).foldl (fun lw vq => lw.set (f vq) (g vq)) l := by
  rw [List.foldl_append]
  simp only [List.foldl_cons, List.foldl_nil]
  have hlen : f q0 < (qs.foldl (fun lw vq => lw.set (f vq) (g vq)) l).length := by
    rw [foldl_set_length]
    exact h0
  exact List.mem_iff_getElem.2 ⟨f q0, by rw [List.length_set]; exact hlen, by simp⟩

theorem list_fin_of_forall (l : List (Dbl ℝ)) (h : ∀ x ∈ l, ∃ r : ℝ, x = fin r) :
    ∃ zs : List ℝ, l = zs.map fin := by
  induction l with
  | nil => exact ⟨[], rfl⟩
  | cons a l ih =>
    obtain ⟨r, hr⟩ := h a (List.mem_cons_self _ _)
    obtain ⟨zs, hzs⟩ := ih (fun x hx => h x (List.mem_cons_of_mem _ hx))
    exact ⟨r :: zs, by rw [hr, hzs]; rfl⟩

theorem gpinvFast_value (M : CMath ℝ) (hM : M.Exact) (k sigma pr : ℝ)
    (hk : (1 / 2) ^ 52 ≤ |k|) (h1 : pr < 1) :
    gpinvFast M (fin k) (fin sigma) (fin pr)
      = fin ((Real.exp (-k * Real.log (1 - pr)) - 1) / k * sigma) := by
  have hk0 : k ≠ 0 := by
    intro h
    rw [h, abs_zero] at hk
    have : (0 : ℝ) < (1 / 2) ^ 52 := by positivity
    linarith
  have hkeps : lt (abs (fin k)) epsilon = false := by
    simp [epsilon]
    simpa using hk
  have h2 : ¬ (-pr < -1) := by linarith
  have h3 : ¬ (-pr = -1) := by
    intro h
    linarith
  simp only [gpinvFast, hkeps, Bool.false_eq_true, if_false, Dbl.neg_fin, Dbl.log1p, h2, h3,
    Dbl.fin_mul_fin, Dbl.expm1, Dbl.fin_div_fin _ _ hk0, hM.log1p_eq, hM.expm1_eq]
  rw [← sub_eq_add_neg]

/-- With a finite shape `k >= 1/3` and a finite positive scale, the smoothed and truncated
vector consists of finite values, has the length of the input, and holds a value that is at
least `-745`. -/
theorem smoothTail_fin (M : CMath ℝ) (hM : M.Exact) (xs : List ℝ) (Reff : Dbl ℝ) (c : ℤ)
    (s : Split ℝ) (hc : cutoffInd M xs.length Reff = some c) (h4 : 4 < c)
    (hs : psislwSplit M (xs.map fin) Reff = some s) (kr sr : ℝ) (hk : 1 / 3 ≤ kr)
    (hsr : 0 < sr) :
    ∃ zs : List ℝ, smoothTail M s (fin kr) (fin sr) = zs.map fin ∧
      zs.length = xs.length ∧ ∃ z ∈ zs, -745 ≤ z := by
  obtain ⟨m, s2, -, -, hs2, hlw, htail, hlen⟩ := psislwSplit_some M xs Reff c hc (by omega)
  rw [hs, Option.some.injEq] at hs2
  subst hs2
  obtain ⟨xc, hxc, hxc2⟩ := psislwSplit_xcutoff M hM xs Reff s hs
  obtain ⟨-, hcm⟩ := log_minPositive M hM
  have hkabs : (1 / 2 : ℝ) ^ 52 ≤ |kr| := by
    rw [abs_of_pos (by linarith)]
    have : (1 / 2 : ℝ) ^ 52 ≤ 1 / 3 := by norm_num
    linarith
  -- the quantiles are finite and not negative
  have hint : ∀ pi ∈ stiLoop s.tail.length s.tail.length (fin (1 / 2) : Dbl ℝ),
      (lt (fin 0) pi && lt pi (fin 1)) = true := by
    intro pi hpi
    obtain ⟨pr, rfl, h0, h1⟩ := sti_interior _ pi hpi
    simp [h0, h1]
  have hqq : ∀ q ∈ gpinv M (stiLoop s.tail.length s.tail.length (fin (1 / 2))) (fin kr)
      (fin sr), ∃ r : ℝ, q = fin r ∧ 0 ≤ r := by
    intro q hq
    rw [gpinv_of_interior M _ _ _ (by simp [hsr]) hint] at hq
    obtain ⟨pi, hpi, rfl⟩ := List.mem_map.1 hq
    obtain ⟨pr, rfl, h0, h1⟩ := sti_interior _ pi hpi
    refine ⟨_, gpinvFast_value M hM kr sr pr hkabs h1, ?_⟩
    have hlog : Real.log (1 - pr) < 0 := Real.log_neg (by linarith) (by linarith)
    have hpos : 0 < -kr * Real.log (1 - pr) := by nlinarith
    have hexp : 1 < Real.exp (-kr * Real.log (1 - pr)) := Real.one_lt_exp_iff.2 hpos
    have hkr : 0 < kr := by linarith
    have : 0 ≤ (Real.exp (-kr * Real.log (1 - pr)) - 1) / kr :=
      div_nonneg (by linarith) (le_of_lt hkr)
    exact mul_nonneg this (le_of_lt hsr)
  -- the values written back are finite and at least the cutoff
  have hval : ∀ vq ∈ List.zip s.tail (gpinv M (stiLoop s.tail.length s.tail.length
      (fin (1 / 2))) (fin kr) (fin sr)),
      ∃ v : ℝ, log M (vq.2 + exp M s.xcutoff) = fin v ∧ xc ≤ v := by
    intro vq hvq
    obtain ⟨r, hr, hr0⟩ := hqq vq.2 (List.of_mem_zip (a := vq.1) (b := vq.2) hvq).2
    have he := Real.exp_pos xc
    have h1 : ¬ (r + Real.exp xc < 0) := by linarith
    have h2 : ¬ (r + Real.exp xc = 0) := by
      intro h
      linarith
    refine ⟨Real.log (r + Real.exp xc), ?_, ?_⟩
    · simp only [hr, hxc, Dbl.exp, hM.exp_eq, Dbl.fin_add_fin, Dbl.log, h1, h2, if_false,
        hM.log_eq]
    · rw [Real.le_log_iff_exp_le (by linarith)]
      linarith
  have hqlen : (List.zip s.tail (gpinv M (stiLoop s.tail.length s.tail.length
      (fin (1 / 2))) (fin kr) (fin sr))).length = s.tail.length := by
    rw [List.length_zip, gpinv_length, stiLoop_length, Nat.min_self]
  -- every element after the write-back is finite
  have hall : ∀ x ∈ (List.zip s.tail (gpinv M (stiLoop s.tail.length s.tail.length
      (fin (1 / 2))) (fin kr) (fin sr))).foldl
      (fun lw vq => lw.set vq.1.2 (log M (vq.2 + exp M s.xcutoff))) s.lw,
      ∃ r : ℝ, x = fin r := by
    apply foldl_set_forall (fun x => ∃ r : ℝ, x = fin r)
      (fun vq : (Dbl ℝ × ℕ) × Dbl ℝ => vq.1.2)
      (fun vq => log M (vq.2 + exp M s.xcutoff))
    · intro x hx
      rw [hlw] at hx
      obtain ⟨y, -, rfl⟩ := List.mem_map.1 hx
      exact ⟨_, rfl⟩
    · intro vq hvq
      obtain ⟨v, hv, -⟩ := hval vq hvq
      exact ⟨v, hv⟩
  -- the last write stays
  have hlast : ∃ v : ℝ, xc ≤ v ∧ fin v ∈ (List.zip s.tail (gpinv M
      (stiLoop s.tail.length s.tail.length (fin (1 / 2))) (fin kr) (fin sr))).foldl
      (fun lw vq => lw.set vq.1.2 (log M (vq.2 + exp M s.xcutoff))) s.lw := by
    have hne : List.zip s.tail (gpinv M (stiLoop s.tail.length s.tail.length
        (fin (1 / 2))) (fin kr) (fin sr)) ≠ [] := by
      intro h
      rw [h] at hqlen
      simp at hqlen
      omega
    obtain ⟨qs, q0, hq⟩ := (List.eq_nil_or_concat _).resolve_left hne
    rw [List.concat_eq_append] at hq
    obtain ⟨v, hv, hv2⟩ := hval q0 (by rw [hq]; simp)
    refine ⟨v, hv2, ?_⟩
    have hidx : q0.1.2 < s.lw.length := by
      have h1 : q0.1 ∈ s.tail := by
        have : q0 ∈ List.zip s.tail (gpinv M (stiLoop s.tail.length s.tail.length
            (fin (1 / 2))) (fin kr) (fin sr)) := by rw [hq]; simp
        exact (List.of_mem_zip (a := q0.1) (b := q0.2) this).1
      rw [htail] at h1
      have h2 := List.mem_of_mem_drop h1
      rw [hlw] at h2 ⊢
      have h3 : (xs.map (fun x => fin (x - m))) = (xs.map (fun x => x - m)).map fin := by
        rw [List.map_map]
        rfl
      rw [h3] at h2
      have h4 := (mem_sortPairs_zip (xs.map (fun x => x - m)) q0.1
        (by rw [List.length_map]; exact h2)).2
      simpa using h4
    rw [hq, ← hv]
    exact foldl_set_last (fun vq : (Dbl ℝ × ℕ) × Dbl ℝ => vq.1.2)
      (fun vq => log M (vq.2 + exp M s.xcutoff)) qs q0 s.lw hidx
  -- the truncation at zero
  have hclamp : ∀ r : ℝ, Dbl.min (fin r) (fin 0) = fin (if 0 < r then 0 else r) := by
    intro r
    simp only [Dbl.min, Dbl.lt_fin_fin, decide_eq_true_eq]
    split_ifs <;> rfl
  have hfin : ∀ x ∈ smoothTail M s (fin kr) (fin sr), ∃ r : ℝ, x = fin r := by
    intro x hx
    simp only [smoothTail, List.mem_map] at hx
    obtain ⟨y, hy, rfl⟩ := hx
    obtain ⟨r, rfl⟩ := hall y hy
    exact ⟨_, hclamp r⟩
  obtain ⟨zs, hzs⟩ := list_fin_of_forall _ hfin
  refine ⟨zs, hzs, ?_, ?_⟩
  · have := smoothTail_length M s (fin kr) (fin sr)
    rw [hzs, hlw, List.length_map, List.length_map] at this
    exact this
  · obtain ⟨v, hv, hmem⟩ := hlast
    have hmem2 : fin (if 0 < v then 0 else v) ∈ smoothTail M s (fin kr) (fin sr) := by
      simp only [smoothTail, List.mem_map]
      exact ⟨fin v, hmem, hclamp v⟩
    rw [hzs] at hmem2
    obtain ⟨z, hz, hz2⟩ := List.mem_map.1 hmem2
    refine ⟨z, hz, ?_⟩
    rw [Dbl.fin.injEq] at hz2
    rw [hz2]
    split_ifs <;> linarith

/-- Normalisation past the early exit, for a vector of fewer than `2^31` finite values:
when the smoothing branch is not taken, or is taken with a finite shape and a finite positive
scale, `psislw` leaves finite values whose exponentials sum to 1 within `1e-9`. -/
theorem psislw_normalized_of_valid_fit (M : CMath ℝ) (hM : M.Exact) (xs : List ℝ)
    (Reff : Dbl ℝ) (c : ℤ) (hc : cutoffInd M xs.length Reff = some c) (h4 : 4 < c)
    (hn : xs.length < 2 ^ 31) :
    ∃ (s : Split ℝ) (k sigma : Dbl ℝ),
      psislwSplit M (xs.map fin) Reff = some s ∧
      gpdfitnew M (exceedances M s) = some (k, sigma) ∧
      ((ge k (fin 1 / fin 3) = false ∨ ∃ kr sr : ℝ, k = fin kr ∧ sigma = fin sr ∧ 0 < sr) →
        ∃ ys : List ℝ, psislw M (xs.map fin) Reff = some (k, ys.map fin) ∧
          ys.length = xs.length ∧ |(ys.map Real.exp).sum - 1| ≤ 1 / 10 ^ 9) := by
  obtain ⟨m, s, hmem, -, hs, hlw, -, hlen⟩ := psislwSplit_some M xs Reff c hc (by omega)
  have hlen4 : 4 < s.tail.length := by
    rw [hlen]
    omega
  obtain ⟨k, sigma, hfit⟩ := gpdfitnew_some M (exceedances M s)
    (by rw [exceedances_length]; omega)
  refine ⟨s, k, sigma, hs, hfit, ?_⟩
  have hmain : ∀ zs : List ℝ, zs.length = xs.length → (∃ z ∈ zs, -745 ≤ z) →
      (if ge k (fin 1 / fin 3) then smoothTail M s k sigma else s.lw) = zs.map fin →
      ∃ ys : List ℝ, psislw M (xs.map fin) Reff = some (k, ys.map fin) ∧
        ys.length = xs.length ∧ |(ys.map Real.exp).sum - 1| ≤ 1 / 10 ^ 9 := by
    intro zs hzl hbig hzs
    obtain ⟨z, hz, hsum⟩ := renormalize_sum_exp M hM zs (by rw [hzl]; exact hn) hbig
    refine ⟨zs.map (fun y => y - z), ?_, by rw [List.length_map, hzl], ?_⟩
    · rw [psislw_of_fit M _ _ s k sigma hs hlen4 hfit, hzs, hz, List.map_map]
      rfl
    · rw [List.map_map]
      exact hsum
  have hno : ge k (fin 1 / fin 3) = false →
      ∃ ys : List ℝ, psislw M (xs.map fin) Reff = some (k, ys.map fin) ∧
        ys.length = xs.length ∧ |(ys.map Real.exp).sum - 1| ≤ 1 / 10 ^ 9 := by
    intro hk
    apply hmain (xs.map (fun x => x - m)) (List.length_map _ _)
    · exact ⟨m - m, List.mem_map.2 ⟨m, hmem, rfl⟩, by norm_num⟩
    · simp only [hk, Bool.false_eq_true, if_false, hlw, List.map_map]
      rfl
  rintro (hk | ⟨kr, sr, rfl, rfl, hsr⟩)
  · exact hno hk
  · cases hk : ge (fin kr) (fin 1 / fin 3 : Dbl ℝ)
    · exact hno hk
    · have hkr : 1 / 3 ≤ kr := by
        rw [Dbl.fin_div_fin _ _ (by norm_num : (3 : ℝ) ≠ 0)] at hk
        simpa using hk
      obtain ⟨zs, hzs, hzl, hbig⟩ := smoothTail_fin M hM xs Reff c s hc h4 hs kr sr hkr hsr
      apply hmain zs hzl hbig
      simp only [hk, if_true, hzs]

end Smoothing

/-! ## The stages of `gpdfitnew` -/

section Stages

variable {α : Type} [LinearOrderedField α] [FloorRing α]

/-- The function `gpdfitnew` is the composition of its stages. -/
theorem gpdfitnew_stages (M : CMath α) (x : List (Dbl α)) :
    gpdfitnew M x = (gpdGrid M x).map (fun bs =>
      fitFromMean M x (posteriorMean (gridWeights M (gridScores M x bs)) bs)) := by
  unfold gpdfitnew gpdGrid
  simp only [Option.bind_eq_bind]
  cases toInt (sqrt M (ofNat x.length)) with
  | none => rfl
  | some sq =>
    cases toInt (ofNat x.length / fin 4 + fin (1 / 2) : Dbl α) with
    | none => rfl
    | some qi =>
      simp only [Option.some_bind]
      by_cases h1 : 0 ≤ qi - 1
      · simp only [h1, if_true]
        cases x[(qi - 1).toNat]? with
        | none => rfl
        | some xq =>
          simp only [Option.some_bind]
          by_cases h2 : 1 ≤ x.length
          · simp only [h2, if_true]
            cases x[x.length - 1]? with
            | none => rfl
            | some xmax => rfl
          · simp only [h2, if_false]
            rfl
      · simp only [h1, if_false]
        rfl

end Stages

/-! ## The function `logSum` -/

section LogSum

theorem logLimit_eq {α : Type} [LinearOrderedField α] :
    (-maxValue / fin 100 : Dbl α) = fin (-((2 - (1 / 2) ^ 52) * 2 ^ 1023) / 100) := by
  simp only [maxValue, Dbl.neg_fin, Dbl.fin_div_fin _ _ (by norm_num : (100 : α) ≠ 0)]

/-- Claim C11 (amended). `logSum` is commutative on finite arguments of which at least one
is not below the floor `-DBL_MAX/100`: then `logSum(x, y) = logSum(y, x)`. -/
theorem logSum_comm_above_floor {α : Type} [LinearOrderedField α] (M : CMath α) (x y : α)
    (h : -((2 - (1 / 2) ^ 52) * 2 ^ 1023) / 100 ≤ x ∨
      -((2 - (1 / 2) ^ 52) * 2 ^ 1023) / 100 ≤ y) :
    logSum M (fin x) (fin y) = logSum M (fin y) (fin x) := by
  unfold logSum
  simp only [logLimit_eq, Dbl.fin_sub_fin, Dbl.neg_fin, Dbl.lt_fin_fin, Bool.or_eq_true,
    decide_eq_true_eq]
  generalize (-((2 - (1 / 2) ^ 52) * 2 ^ 1023) / 100 : α) = ll at h
  have e1 : -(x - y) = y - x := by ring
  have e2 : -(y - x) = x - y := by ring
  by_cases h1 : 400 < y - x ∨ x < ll
  · have h2 : ¬ (400 < x - y ∨ y < ll) := by
      rintro (h2 | h2)
      · rcases h1 with h1 | h1
        · linarith
        · rcases h with h | h <;> linarith
      · rcases h1 with h1 | h1
        · rcases h with h | h <;> linarith
        · rcases h with h | h <;> linarith
    have h3 : x - y < -400 ∨ x < ll := by
      rcases h1 with h1 | h1
      · left
        linarith
      · right
        exact h1
    simp only [h1, h2, h3, if_true, if_false]
  · simp only [h1, if_false]
    push_neg at h1
    by_cases h2 : y - x < -400 ∨ y < ll
    · have h3 : 400 < x - y ∨ y < ll := by
        rcases h2 with h2 | h2
        · left
          linarith
        · right
          exact h2
      simp only [h2, h3, if_true]
    · simp only [h2, if_false]
      push_neg at h2
      have h3 : ¬ (400 < x - y ∨ y < ll) := by
        rintro (h3 | h3) <;> linarith [h2.1, h2.2]
      have h4 : ¬ (x - y < -400 ∨ x < ll) := by
        rintro (h4 | h4) <;> linarith [h1.1, h1.2]
      simp only [h3, h4, if_false]
      by_cases h5 : y - x < 0
      · have h6 : ¬ (x - y < 0) := by linarith
        simp only [h5, h6, if_true, if_false, e1]
      · by_cases h6 : x - y < 0
        · simp only [h5, h6, if_true, if_false, e2]
        · have hxy : x = y := by linarith
          subst hxy
          simp only [h5, if_false]

theorem logSum_comm_above_floor_witness :
    (-((2 - (1 / 2) ^ 52) * 2 ^ 1023) / 100 ≤ (0 : ℝ) ∨
      -((2 - (1 / 2) ^ 52) * 2 ^ 1023) / 100 ≤ (1 : ℝ)) ∧
    logSum (CMath.mk Real.exp Real.log (fun x => Real.log (1 + x)) (fun x => Real.exp x - 1)
      Real.sqrt) (fin 0) (fin 1)
    = logSum (CMath.mk Real.exp Real.log (fun x => Real.log (1 + x)) (fun x => Real.exp x - 1)
      Real.sqrt) (fin 1) (fin 0) :=
  ⟨Or.inl (by norm_num), logSum_comm_above_floor _ 0 1 (Or.inl (by norm_num))⟩

/-- Claim C11 (counterexample). For the finite arguments `x = -2e306` and `y = -3e306`, both
below the floor, `logSum(x, y)` is `y` and `logSum(y, x)` is `x`. -/
theorem logSum_not_comm_below_floor :
    logSum (CMath.mk Real.exp Real.log (fun x => Real.log (1 + x)) (fun x => Real.exp x - 1)
      Real.sqrt) (fin (-2 * 10 ^ 306)) (fin (-3 * 10 ^ 306))
    ≠ logSum (CMath.mk Real.exp Real.log (fun x => Real.log (1 + x)) (fun x => Real.exp x - 1)
      Real.sqrt) (fin (-3 * 10 ^ 306)) (fin (-2 * 10 ^ 306)) := by
  have h1 : (-2 * 10 ^ 306 : ℝ) < -((2 - (1 / 2) ^ 52) * 2 ^ 1023) / 100 := by norm_num
  have h2 : (-3 * 10 ^ 306 : ℝ) < -((2 - (1 / 2) ^ 52) * 2 ^ 1023) / 100 := by norm_num
  unfold logSum
  simp only [logLimit_eq, Dbl.lt_fin_fin, h1, h2, decide_True, Bool.or_true, if_true]
  intro h
  rw [Dbl.fin.injEq] at h
  norm_num at h

/-- Claim C12 (amended). Floor identity: for every finite `x` that is not itself below the
floor `-DBL_MAX/100` and every `y` below the floor (minus infinity included),
`logSum(x, y) = x`. -/
theorem logSum_floor_identity {α : Type} [LinearOrderedField α] (M : CMath α) (x : α)
    (y : Dbl α) (hx : -((2 - (1 / 2) ^ 52) * 2 ^ 1023) / 100 ≤ x)
    (hy : lt y (-maxValue / fin 100) = true) :
    logSum M (fin x) y = fin x := by
  unfold logSum
  rw [logLimit_eq] at hy ⊢
  have hx2 : ¬ (x < -((2 - (1 / 2) ^ 52) * 2 ^ 1023) / 100) := not_lt.2 hx
  cases y with
  | nan => simp [lt] at hy
  | pinf => simp [lt] at hy
  | ninf =>
    have e : (ninf : Dbl α) - fin x = ninf := rfl
    simp only [e, lt, Dbl.lt_fin_fin, hx2, decide_False, Bool.or_self, Bool.false_eq_true,
      if_false, Dbl.neg_fin, Bool.true_or, if_true]
  | fin yr =>
    simp only [Dbl.lt_fin_fin, decide_eq_true_eq] at hy
    have h1 : ¬ (400 < yr - x) := by linarith
    simp only [Dbl.fin_sub_fin, Dbl.lt_fin_fin, h1, hx2, decide_False, Bool.or_self,
      Bool.false_eq_true, if_false, hy, decide_True, Bool.or_true, if_true]

theorem logSum_floor_identity_witness :
    -((2 - (1 / 2) ^ 52) * 2 ^ 1023) / 100 ≤ (0 : ℝ) ∧
    lt (fin (-2 * 10 ^ 306 : ℝ)) (-maxValue / fin 100) = true ∧
    logSum (CMath.mk Real.exp Real.log (fun x => Real.log (1 + x)) (fun x => Real.exp x - 1)
      Real.sqrt) (fin 0) (fin (-2 * 10 ^ 306)) = fin 0 := by
  have h1 : -((2 - (1 / 2) ^ 52) * 2 ^ 1023) / 100 ≤ (0 : ℝ) := by norm_num
  have h2 : lt (fin (-2 * 10 ^ 306 : ℝ)) (-maxValue / fin 100) = true := by
    rw [logLimit_eq]
    simp only [Dbl.lt_fin_fin, decide_eq_true_eq]
    norm_num
  exact ⟨h1, h2, logSum_floor_identity _ 0 _ h1 h2⟩

/-- Claim C12 (counterexample). For the finite `x = -4e306` and `y = -5e306`, both below the
floor, `logSum(x, y)` is `y`, not `x`. -/
theorem logSum_floor_both_below :
    lt (fin (-5 * 10 ^ 306 : ℝ)) (-maxValue / fin 100) = true ∧
    logSum (CMath.mk Real.exp Real.log (fun x => Real.log (1 + x)) (fun x => Real.exp x - 1)
      Real.sqrt) (fin (-4 * 10 ^ 306)) (fin (-5 * 10 ^ 306)) = fin (-5 * 10 ^ 306) ∧
    (fin (-5 * 10 ^ 306) : Dbl ℝ) ≠ fin (-4 * 10 ^ 306) := by
  have h1 : (-4 * 10 ^ 306 : ℝ) < -((2 - (1 / 2) ^ 52) * 2 ^ 1023) / 100 := by norm_num
  have h2 : (-5 * 10 ^ 306 : ℝ) < -((2 - (1 / 2) ^ 52) * 2 ^ 1023) / 100 := by norm_num
  refine ⟨?_, ?_, ?_⟩
  · rw [logLimit_eq]
    simp only [Dbl.lt_fin_fin, h2, decide_True]
  · unfold logSum
    simp only [logLimit_eq, Dbl.lt_fin_fin, h1, decide_True, Bool.or_true, if_true]
  · intro h
    rw [Dbl.fin.injEq] at h
    norm_num at h

/-- Claim C13. For `x` and `y` not below the floor and `|y - x| <= 400`, `logSum(x, y)` is
computed as `max(x, y) + log1p(exp(-|y - x|))`, which equals `log(exp(x) + exp(y))` over the
reals. -/
theorem logSum_exact (M : CMath ℝ) (hM : M.Exact) (x y : ℝ)
    (hx : -((2 - (1 / 2) ^ 52) * 2 ^ 1023) / 100 ≤ x)
    (hy : -((2 - (1 / 2) ^ 52) * 2 ^ 1023) / 100 ≤ y) (h : |y - x| ≤ 400) :
    logSum M (fin x) (fin y) = fin (Max.max x y + Real.log (1 + Real.exp (-|y - x|))) ∧
    Max.max x y + Real.log (1 + Real.exp (-|y - x|)) = Real.log (Real.exp x + Real.exp y) := by
  have hexp : ∀ t : ℝ, log1p M (exp M (fin t)) = fin (Real.log (1 + Real.exp t)) := by
    intro t
    have h1 : ¬ (Real.exp t < -1) := by
      have := Real.exp_pos t
      linarith
    have h2 : ¬ (Real.exp t = -1) := by
      have := Real.exp_pos t
      intro h
      linarith
    simp only [Dbl.exp, Dbl.log1p, hM.exp_eq, hM.log1p_eq, h1, h2, if_false]
  have hsum : ∀ a b : ℝ, a + Real.log (1 + Real.exp (b - a))
      = Real.log (Real.exp a + Real.exp b) := by
    intro a b
    have hp : 0 < 1 + Real.exp (b - a) := by
      have := Real.exp_pos (b - a)
      linarith
    have e : Real.exp a + Real.exp b = Real.exp a * (1 + Real.exp (b - a)) := by
      rw [mul_add, mul_one, ← Real.exp_add]
      congr 2
      ring
    rw [e, Real.log_mul (ne_of_gt (Real.exp_pos _)) (ne_of_gt hp), Real.log_exp]
  obtain ⟨h1, h2⟩ := abs_le.1 h
  have hA : ¬ (400 < y - x ∨ x < -((2 - (1 / 2) ^ 52) * 2 ^ 1023) / 100) := by
    rintro (h3 | h3) <;> linarith
  have hB : ¬ (y - x < -400 ∨ y < -((2 - (1 / 2) ^ 52) * 2 ^ 1023) / 100) := by
    rintro (h3 | h3) <;> linarith
  unfold logSum
  simp only [logLimit_eq, Dbl.fin_sub_fin, Dbl.neg_fin, hexp, Dbl.fin_add_fin, Dbl.lt_fin_fin,
    Bool.or_eq_true, decide_eq_true_eq, hA, hB, if_false]
  by_cases hC : y - x < 0
  · have hmax : Max.max x y = x := max_eq_left (by linarith)
    have habs : -|y - x| = y - x := by rw [abs_of_neg hC, neg_neg]
    simp only [hC, if_true, hmax, habs, hsum, and_self]
  · have hmax : Max.max x y = y := max_eq_right (by linarith)
    have habs : -|y - x| = x - y := by rw [abs_of_nonneg (not_lt.1 hC), neg_sub]
    have e : -(y - x) = x - y := by ring
    simp only [hC, if_false, hmax, habs, e, hsum, true_and]
    rw [add_comm (Real.exp x)]

theorem logSum_exact_witness :
    -((2 - (1 / 2) ^ 52) * 2 ^ 1023) / 100 ≤ (0 : ℝ) ∧
    -((2 - (1 / 2) ^ 52) * 2 ^ 1023) / 100 ≤ (1 : ℝ) ∧ |(1 : ℝ) - 0| ≤ 400 ∧
    logSum (CMath.mk Real.exp Real.log (fun x => Real.log (1 + x)) (fun x => Real.exp x - 1)
      Real.sqrt) (fin 0) (fin 1)
      = fin (Max.max 0 1 + Real.log (1 + Real.exp (-|(1 : ℝ) - 0|))) ∧
    Max.max (0 : ℝ) 1 + Real.log (1 + Real.exp (-|(1 : ℝ) - 0|))
      = Real.log (Real.exp 0 + Real.exp 1) :=
  ⟨by norm_num, by norm_num, by norm_num,
    logSum_exact _ ⟨fun _ => rfl, fun _ => rfl, fun _ => rfl, fun _ => rfl, fun _ => rfl⟩ 0 1
      (by norm_num) (by norm_num) (by norm_num)⟩

end LogSum

/-! ## Pruning of the quadrature weights -/

section Prune

variable {α : Type} [LinearOrderedField α]

theorem eraseIdx_take_drop {β : Type} (l : List β) (i : ℕ) (hi : i < l.length) :
    (l.eraseIdx i).take i = l.take i ∧ (l.eraseIdx i).drop i = l.drop (i + 1) := by
  have hlen : (l.take i).length = i := by
    rw [List.length_take]
    omega
  rw [List.eraseIdx_eq_take_drop_succ]
  constructor
  · rw [List.take_append_of_le_length (by omega), List.take_of_length_le (by omega)]
  · rw [List.drop_append_of_le_length (by omega), List.drop_of_length_le (by omega),
      List.nil_append]

/-- The loop from position `i` on: the first `i` entries stay, of the rest exactly the
aligned pairs whose weight is not below `10 * epsilon` remain, in order. -/
theorem pruneLoop_eq (n : ℕ) : ∀ (i : ℕ) (w bs : List (Dbl α)), w.length - i = n →
    bs.length = w.length →
    pruneLoop i w bs =
      (w.take i ++ (((w.drop i).zip (bs.drop i)).filter
          (fun q => !(lt q.1 (fin 10 * epsilon)))).map Prod.fst,
       bs.take i ++ (((w.drop i).zip (bs.drop i)).filter
          (fun q => !(lt q.1 (fin 10 * epsilon)))).map Prod.snd) := by
  induction n with
  | zero =>
    intro i w bs hn hlen
    have hi : ¬ i < w.length := by omega
    rw [pruneLoop]
    simp only [dif_neg hi]
    rw [List.take_of_length_le (by omega), List.take_of_length_le (by omega),
      List.drop_of_length_le (by omega)]
    simp
  | succ n ih =>
    intro i w bs hn hlen
    have hi : i < w.length := by omega
    have hib : i < bs.length := by omega
    have hdw : w.drop i = w.get ⟨i, hi⟩ :: w.drop (i + 1) := by
      rw [List.drop_eq_getElem_cons hi]
      rfl
    have hdb : bs.drop i = bs.get ⟨i, hib⟩ :: bs.drop (i + 1) := by
      rw [List.drop_eq_getElem_cons hib]
      rfl
    rw [pruneLoop]
    simp only [dif_pos hi]
    cases hlt : lt (w.get ⟨i, hi⟩) (fin 10 * epsilon)
    · simp only [Bool.false_eq_true, if_false]
      rw [ih (i + 1) w bs (by omega) hlen, hdw, hdb]
      simp only [List.zip_cons_cons, List.filter_cons, hlt, Bool.not_false, if_true,
        List.map_cons]
      have tw : w.take (i + 1) = w.take i ++ [w.get ⟨i, hi⟩] := by
        rw [List.take_succ, List.getElem?_eq_getElem hi]
        rfl
      have tb : bs.take (i + 1) = bs.take i ++ [bs.get ⟨i, hib⟩] := by
        rw [List.take_succ, List.getElem?_eq_getElem hib]
        rfl
      rw [tw, tb]
      simp only [List.append_assoc, List.singleton_append, List.get_eq_getElem]
    · simp only [if_true]
      have hl1 : (w.eraseIdx i).length = w.length - 1 := by
        rw [List.length_eraseIdx]
        simp [hi]
      have hl2 : (bs.eraseIdx i).length = bs.length - 1 := by
        rw [List.length_eraseIdx]
        simp [hib]
      rw [ih i (w.eraseIdx i) (bs.eraseIdx i) (by omega) (by omega),
        (eraseIdx_take_drop w i hi).1, (eraseIdx_take_drop w i hi).2,
        (eraseIdx_take_drop bs i hib).1, (eraseIdx_take_drop bs i hib).2, hdw, hdb]
      simp only [List.zip_cons_cons, List.filter_cons, hlt, Bool.not_true, Bool.false_eq_true,
        if_false]

theorem ge_eq_not_lt {a b : Dbl α} (ha : a ≠ nan) (hb : b ≠ nan) : ge a b = !(lt a b) := by
  cases a with
  | nan => exact absurd rfl ha
  | ninf => cases b <;> simp_all [ge, le, lt]
  | pinf => cases b <;> simp_all [ge, le, lt]
  | fin x =>
    cases b with
    | nan => exact absurd rfl hb
    | ninf => rfl
    | pinf => rfl
    | fin y =>
      simp only [Dbl.ge_fin_fin, Dbl.lt_fin_fin]
      by_cases h : x < y
      · simp [h, not_le.2 h]
      · simp [h, not_lt.1 h]

/-- The loop from position 0: exactly the aligned pairs whose weight is not below
`10 * epsilon` remain, in order. -/
theorem pruneLoop_zero (w bs : List (Dbl α)) (hlen : bs.length = w.length) :
    pruneLoop 0 w bs = pruneFilter w bs := by
  rw [pruneLoop_eq (w.length - 0) 0 w bs rfl hlen]
  simp only [List.take_zero, List.nil_append, List.drop_zero, pruneFilter,
    List.unzip_eq_map]

/-- Claim C18 (amended). Pruning equals a filter: on lists `w` and `bs` of equal length the
erase-while-iterating loop (a total function, so it terminates) leaves exactly the aligned
pairs `(w[i], bs[i])` whose weight is not below `10 * epsilon`, in their original order; for
weights without NaN these are the pairs with `w[i] >= 10 * epsilon`. -/
theorem pruneLoop_eq_filter (w bs : List (Dbl α)) (hlen : bs.length = w.length) :
    pruneLoop 0 w bs = pruneFilter w bs ∧
    List.zip (pruneLoop 0 w bs).1 (pruneLoop 0 w bs).2
      = (List.zip w bs).filter (fun q => !(lt q.1 (fin 10 * epsilon))) ∧
    ((∀ x ∈ w, x ≠ nan) →
      pruneLoop 0 w bs
        = ((List.zip w bs).filter (fun q => ge q.1 (fin 10 * epsilon))).unzip) := by
  have h1 : pruneLoop 0 w bs = pruneFilter w bs := by
    rw [pruneLoop_eq (w.length - 0) 0 w bs rfl hlen]
    simp only [List.take_zero, List.nil_append, List.drop_zero, pruneFilter,
      List.unzip_eq_map]
  refine ⟨h1, ?_, ?_⟩
  · rw [h1]
    simp only [pruneFilter, List.zip_unzip]
  · intro hnan
    rw [h1, pruneFilter]
    congr 1
    apply List.filter_congr
    intro q hq
    have hq1 : q.1 ≠ nan := hnan q.1 (List.of_mem_zip (a := q.1) (b := q.2) hq).1
    have hthr : (fin 10 * epsilon : Dbl α) ≠ nan := by
      simp [epsilon]
    rw [ge_eq_not_lt hq1 hthr]

theorem pruneLoop_eq_filter_witness :
    ([fin 2, fin 3] : List (Dbl ℝ)).length = ([fin 1, fin 0] : List (Dbl ℝ)).length ∧
    pruneLoop 0 ([fin 1, fin 0] : List (Dbl ℝ)) [fin 2, fin 3] = ([fin 1], [fin 2]) := by
  refine ⟨rfl, ?_⟩
  rw [(pruneLoop_eq_filter ([fin 1, fin 0] : List (Dbl ℝ)) [fin 2, fin 3] rfl).1]
  have h1 : ¬ ((1 : ℝ) < 10 * (1 / 2) ^ 52) := by norm_num
  have h0 : (0 : ℝ) < 10 * (1 / 2) ^ 52 := by norm_num
  have e1 : lt (fin (1 : ℝ)) (fin 10 * epsilon) = false := by
    simp only [epsilon, Dbl.fin_mul_fin, Dbl.lt_fin_fin]
    exact decide_eq_false h1
  have e0 : lt (fin (0 : ℝ)) (fin 10 * epsilon) = true := by
    simp only [epsilon, Dbl.fin_mul_fin, Dbl.lt_fin_fin]
    exact decide_eq_true h0
  simp only [pruneFilter, List.zip_cons_cons, List.zip_nil_right, List.filter_cons, e1, e0,
    Bool.not_false, Bool.not_true, Bool.false_eq_true, if_true, if_false, List.filter_nil]
  rfl

/-- Claim C18 (counterexample). On the weights `[NaN]` with the candidates `[1]` the loop
erases nothing, because `NaN < 10 * epsilon` is false, while no pair has a weight
`>= 10 * epsilon`. -/
theorem pruneLoop_keeps_nan :
    pruneLoop 0 ([nan] : List (Dbl ℝ)) [fin 1] = ([nan], [fin 1]) ∧
    ((List.zip ([nan] : List (Dbl ℝ)) [fin 1]).filter
      (fun q => ge q.1 (fin 10 * epsilon))).unzip = ([], []) := by
  constructor
  · rw [pruneLoop_eq 1 0 [nan] [fin 1] rfl rfl]
    simp [lt]
  · simp [ge, le]

end Prune

/-! ## The estimates returned by `gpdfitnew` -/

section Estimates

theorem shrinkShape_fin {α : Type} [LinearOrderedField α] (n : ℕ) (κ : α) :
    shrinkShape n (fin κ) = fin (κ * n / (n + 10) + 10 * (1 / 2) / (n + 10)) := by
  have h : ((n : α) + 10) ≠ 0 := by positivity
  simp only [shrinkShape, ofNat, Dbl.fin_mul_fin, Dbl.fin_add_fin, Dbl.fin_div_fin _ _ h]

/-- Claim C20 (amended). The shrinkage step maps a finite raw shape `k_raw` to
`k_raw*n/(n+10) + 10*0.5/(n+10)`, which is no farther from `1/2` than `k_raw`; it is no
farther from zero than `k_raw` exactly when `k_raw >= 1/2` or `k_raw <= -5/(2n+10)`. -/
theorem shrinkShape_toward_half (n : ℕ) (hn : 1 ≤ n) (κ : ℝ) :
    ∃ r : ℝ, shrinkShape n (fin κ) = fin r ∧
      r = κ * n / (n + 10) + 10 * (1 / 2) / (n + 10) ∧
      |r - 1 / 2| ≤ |κ - 1 / 2| ∧
      (|r| ≤ |κ| ↔ (1 / 2 ≤ κ ∨ κ ≤ -5 / (2 * n + 10))) := by
  refine ⟨_, shrinkShape_fin n κ, rfl, ?_, ?_⟩
  · have hn0 : (0 : ℝ) < n := by exact_mod_cast hn
    have hN : (0 : ℝ) < (n : ℝ) + 10 := by linarith
    have e : κ * n / (n + 10) + 10 * (1 / 2) / (n + 10) - 1 / 2
        = (κ - 1 / 2) * (n / (n + 10)) := by
      field_simp
      ring
    rw [e, abs_mul]
    have h1 : |(n : ℝ) / (n + 10)| ≤ 1 := by
      rw [abs_of_nonneg (by positivity), div_le_one hN]
      linarith
    calc |κ - 1 / 2| * |(n : ℝ) / (n + 10)| ≤ |κ - 1 / 2| * 1 :=
          mul_le_mul_of_nonneg_left h1 (abs_nonneg _)
      _ = |κ - 1 / 2| := mul_one _
  · have hn0 : (0 : ℝ) < n := by exact_mod_cast hn
    have hN : (0 : ℝ) < (n : ℝ) + 10 := by linarith
    have h2N : (0 : ℝ) < 2 * (n : ℝ) + 10 := by linarith
    have e : κ * n / (n + 10) + 10 * (1 / 2) / (n + 10) = (κ * n + 5) / (n + 10) := by
      field_simp
      ring
    rw [e]
    constructor
    · intro h
      by_cases hk : 1 / 2 ≤ κ
      · exact Or.inl hk
      · right
        push_neg at hk
        have hr : (κ * n + 5) / (n + 10) ≤ |κ| := le_trans (le_abs_self _) h
        rw [div_le_iff₀ hN] at hr
        by_cases hk0 : 0 ≤ κ
        · rw [abs_of_nonneg hk0] at hr
          nlinarith
        · push_neg at hk0
          rw [abs_of_neg hk0] at hr
          rw [le_div_iff₀ h2N]
          nlinarith
    · rintro (hk | hk)
      · have hpos : 0 ≤ (κ * n + 5) / (n + 10) := by
          apply div_nonneg _ (le_of_lt hN)
          nlinarith
        rw [abs_of_nonneg hpos, abs_of_nonneg (by linarith), div_le_iff₀ hN]
        nlinarith
      · rw [le_div_iff₀ h2N] at hk
        have hk0 : κ < 0 := by nlinarith
        rw [abs_of_neg hk0, abs_le]
        constructor
        · rw [le_div_iff₀ hN]
          nlinarith
        · rw [div_le_iff₀ hN]
          nlinarith

theorem shrinkShape_toward_half_witness :
    1 ≤ 5 ∧ ∃ r : ℝ, shrinkShape 5 (fin (1 : ℝ)) = fin r ∧
      r = 1 * ((5 : ℕ) : ℝ) / (((5 : ℕ) : ℝ) + 10) + 10 * (1 / 2) / (((5 : ℕ) : ℝ) + 10) ∧
      |r - 1 / 2| ≤ |(1 : ℝ) - 1 / 2| ∧
      (|r| ≤ |(1 : ℝ)| ↔ (1 / 2 ≤ (1 : ℝ) ∨ (1 : ℝ) ≤ -5 / (2 * ((5 : ℕ) : ℝ) + 10))) :=
  ⟨by norm_num, shrinkShape_toward_half 5 (by norm_num) 1⟩

/-- Claim C20 (counterexample). For `n = 5` and the raw shape `k_raw = 0` the shrinkage step
returns `1/3`, which is farther from zero than `k_raw`. -/
theorem shrinkShape_zero_grows :
    shrinkShape 5 (fin (0 : ℝ)) = fin (1 / 3) ∧ ¬ (|(1 / 3 : ℝ)| ≤ |(0 : ℝ)|) := by
  constructor
  · rw [shrinkShape_fin]
    norm_num
  · norm_num

/-- Multiplying a double by a positive sample size and dividing by it again gives the
double back, also for NaN and the infinities. -/
theorem mul_div_ofNat {α : Type} [LinearOrderedField α] (d : Dbl α) (n : ℕ) (hn : 0 < n) :
    d * ofNat n / ofNat n = d := by
  have h0 : (0 : α) < n := by exact_mod_cast hn
  have h1 : ¬ ((n : α) < 0) := not_lt.2 (le_of_lt h0)
  have h2 : (n : α) ≠ 0 := ne_of_gt h0
  cases d with
  | nan => rfl
  | ninf =>
    show div (mul ninf (fin (n : α))) (fin (n : α)) = ninf
    simp [mul, div, infTimes, neg, h0, h1]
  | pinf =>
    show div (mul pinf (fin (n : α))) (fin (n : α)) = pinf
    simp [mul, div, infTimes, h0, h1]
  | fin x =>
    simp only [ofNat, Dbl.fin_mul_fin, Dbl.fin_div_fin _ _ h2]
    congr 1
    field_simp

end Estimates

/-! ## The quadrature weights -/

section Weights

theorem foldl_exp_sub_fin (M : CMath ℝ) (hM : M.Exact) (l : List ℝ) (c a : ℝ) :
    (l.map fin).foldl (fun sum Lj => sum + exp M (Lj - fin c)) (fin a)
      = fin (a + (l.map (fun y => Real.exp (y - c))).sum) := by
  induction l generalizing a with
  | nil => simp
  | cons y l ih =>
    have e : exp M (fin y - fin c) = fin (Real.exp (y - c)) := by
      rw [Dbl.fin_sub_fin]
      show fin (M.exp (y - c)) = _
      rw [hM.exp_eq]
    rw [List.map_cons, List.foldl_cons, e, Dbl.fin_add_fin, ih, List.map_cons, List.sum_cons]
    congr 1
    ring

theorem foldl_add_fin {α : Type} [LinearOrderedField α] (l : List α) (a : α) :
    (l.map fin).foldl (fun s wi => s + wi) (fin a) = fin (a + l.sum) := by
  induction l generalizing a with
  | nil => simp
  | cons y l ih =>
    simp only [List.map_cons, List.foldl_cons, Dbl.fin_add_fin, List.sum_cons]
    rw [ih]
    congr 1
    ring

theorem sum_exp_pos (l : List ℝ) (hne : l ≠ []) : 0 < (l.map Real.exp).sum := by
  cases l with
  | nil => exact absurd rfl hne
  | cons a l =>
    simp only [List.map_cons, List.sum_cons]
    have h1 := Real.exp_pos a
    have h2 : 0 ≤ (l.map Real.exp).sum := by
      apply List.sum_nonneg
      intro t ht
      obtain ⟨u, -, rfl⟩ := List.mem_map.1 ht
      exact le_of_lt (Real.exp_pos u)
    linarith

/-- The weights of finite scores: `w_i = exp(L_i) / sum_j exp(L_j)`. -/
theorem gridWeights_fin (M : CMath ℝ) (hM : M.Exact) (Ls : List ℝ) (hne : Ls ≠ []) :
    gridWeights M (Ls.map fin)
      = (Ls.map (fun c => Real.exp c / (Ls.map Real.exp).sum)).map fin := by
  have hT := sum_exp_pos Ls hne
  unfold gridWeights
  rw [List.map_map, List.map_map]
  apply List.map_congr_left
  intro c _
  simp only [Function.comp, foldl_exp_sub_fin M hM, zero_add]
  have e : (Ls.map (fun y => Real.exp (y - c))).sum = (Ls.map Real.exp).sum * Real.exp (-c) := by
    rw [← List.sum_map_mul_right]
    congr 1
    apply List.map_congr_left
    intro y _
    rw [← Real.exp_add]
    congr 1
  have hpos : 0 < (Ls.map Real.exp).sum * Real.exp (-c) := mul_pos hT (Real.exp_pos _)
  rw [e, Dbl.fin_div_fin _ _ (ne_of_gt hpos)]
  congr 1
  rw [Real.exp_neg]
  field_simp

theorem filter_zip_fst {β γ : Type} (P : β → Bool) (w : List β) (bs : List γ)
    (hlen : bs.length = w.length) :
    ((List.zip w bs).filter (fun q => P q.1)).map Prod.fst = w.filter P := by
  induction w generalizing bs with
  | nil => simp
  | cons a w ih =>
    cases bs with
    | nil => simp at hlen
    | cons b bs =>
      simp only [List.length_cons, add_left_inj] at hlen
      simp only [List.zip_cons_cons, List.filter_cons]
      cases P a
      · simp only [Bool.false_eq_true, if_false]
        exact ih bs hlen
      · simp only [if_true, List.map_cons, ih bs hlen]

theorem normaliseWeights_fin (ws : List ℝ) (hpos : 0 < ws.sum) :
    normaliseWeights (ws.map fin) = (ws.map (fun w => w / ws.sum)).map fin := by
  unfold normaliseWeights
  simp only [foldl_add_fin, zero_add, List.map_map]
  apply List.map_congr_left
  intro w _
  simp only [Function.comp, Dbl.fin_div_fin _ _ (ne_of_gt hpos)]

theorem sum_map_div_self (ws : List ℝ) (hpos : 0 < ws.sum) :
    (ws.map (fun w => w / ws.sum)).sum = 1 := by
  have e : (fun w : ℝ => w / ws.sum) = fun w => w * (ws.sum)⁻¹ := by
    funext w
    rw [div_eq_mul_inv]
  rw [e, List.sum_map_mul_right, List.map_id']
  exact mul_inv_cancel₀ (ne_of_gt hpos)

/-- Claim C17. Quadrature weights form a probability vector: for finite scores `L` of
length `m >= 1` the weights `w_i = 1 / sum_j exp(L_j - L_i)` are positive and sum to 1; when
`m < 1 / (10 * epsilon)`, the loop that discards the weights below `10 * epsilon` leaves at
least one weight, exactly those that are at least `10 * epsilon`, and after the division by
their sum the surviving weights are non-negative and sum to 1. -/
theorem quadrature_weights (M : CMath ℝ) (hM : M.Exact) (Ls : List ℝ) (hne : Ls ≠ []) :
    ∃ ws : List ℝ, gridWeights M (Ls.map fin) = ws.map fin ∧ ws.length = Ls.length ∧
      (∀ w ∈ ws, 0 < w) ∧ ws.sum = 1 ∧
      ((Ls.length : ℝ) < 1 / (10 * (1 / 2) ^ 52) →
        ∀ bs : List (Dbl ℝ), bs.length = Ls.length →
          ∃ ws2 vs : List ℝ, (pruneLoop 0 (ws.map fin) bs).1 = ws2.map fin ∧ ws2 ≠ [] ∧
            ws2.Sublist ws ∧ (∀ w ∈ ws, (w ∈ ws2 ↔ 10 * (1 / 2) ^ 52 ≤ w)) ∧
            normaliseWeights (pruneLoop 0 (ws.map fin) bs).1 = vs.map fin ∧
            vs.length = ws2.length ∧ (∀ v ∈ vs, 0 ≤ v) ∧ vs.sum = 1) := by
  have hT := sum_exp_pos Ls hne
  have hws_pos : ∀ w ∈ Ls.map (fun c => Real.exp c / (Ls.map Real.exp).sum), 0 < w := by
    intro w hw
    obtain ⟨c, -, rfl⟩ := List.mem_map.1 hw
    exact div_pos (Real.exp_pos c) hT
  have hws_sum : (Ls.map (fun c => Real.exp c / (Ls.map Real.exp).sum)).sum = 1 := by
    have e : (fun c : ℝ => Real.exp c / (Ls.map Real.exp).sum)
        = fun c => Real.exp c * ((Ls.map Real.exp).sum)⁻¹ := by
      funext c
      rw [div_eq_mul_inv]
    rw [e, List.sum_map_mul_right]
    exact mul_inv_cancel₀ (ne_of_gt hT)
  refine ⟨Ls.map (fun c => Real.exp c / (Ls.map Real.exp).sum), gridWeights_fin M hM Ls hne,
    List.length_map _ _, hws_pos, hws_sum, ?_⟩
  intro hm bs hlen
  generalize hws : Ls.map (fun c => Real.exp c / (Ls.map Real.exp).sum) = ws at *
  have hwl : ws.length = Ls.length := by rw [← hws, List.length_map]
  -- the loop is the filter
  have hprune : (pruneLoop 0 (ws.map fin) bs).1
      = (ws.filter (fun w => !(lt (fin w) (fin 10 * epsilon)))).map fin := by
    have hl : bs.length = (ws.map fin).length := by
      rw [List.length_map]
      omega
    rw [pruneLoop_zero (ws.map fin) bs hl, pruneFilter, List.unzip_eq_map]
    refine (filter_zip_fst (fun x => !(lt x (fin 10 * epsilon))) (ws.map fin) bs hl).trans ?_
    rw [List.filter_map]
    rfl
  have hkeep : ∀ w : ℝ, (!(lt (fin w) (fin 10 * epsilon : Dbl ℝ))) = true
      ↔ 10 * (1 / 2) ^ 52 ≤ w := by
    intro w
    simp only [epsilon, Dbl.fin_mul_fin, Dbl.lt_fin_fin, Bool.not_eq_true',
      decide_eq_false_iff_not, not_lt]
  have hmem : ∀ w ∈ ws, (w ∈ ws.filter (fun w => !(lt (fin w) (fin 10 * epsilon)))
      ↔ 10 * (1 / 2) ^ 52 ≤ w) := by
    intro w hw
    rw [List.mem_filter, hkeep]
    exact ⟨fun h => h.2, fun h => ⟨hw, h⟩⟩
  -- one weight survives
  have hex : ∃ w ∈ ws, 10 * (1 / 2) ^ 52 ≤ w := by
    by_contra hcon
    push_neg at hcon
    have h1 : ws.sum ≤ ws.length • (10 * (1 / 2) ^ 52 : ℝ) :=
      List.sum_le_card_nsmul _ _ (fun w hw => le_of_lt (hcon w hw))
    rw [hws_sum, hwl, nsmul_eq_mul] at h1
    rw [lt_div_iff₀ (by positivity)] at hm
    linarith
  obtain ⟨w0, hw0, hw0big⟩ := hex
  have hne2 : ws.filter (fun w => !(lt (fin w) (fin 10 * epsilon))) ≠ [] :=
    List.ne_nil_of_mem ((hmem w0 hw0).2 hw0big)
  have hpos2 : ∀ w ∈ ws.filter (fun w => !(lt (fin w) (fin 10 * epsilon))), 0 < w :=
    fun w hw => hws_pos w (List.mem_of_mem_filter hw)
  have hsum2 : 0 < (ws.filter (fun w => !(lt (fin w) (fin 10 * epsilon)))).sum := by
    have h1 : w0 ≤ (ws.filter (fun w => !(lt (fin w) (fin 10 * epsilon)))).sum :=
      List.single_le_sum (fun w hw => le_of_lt (hpos2 w hw)) w0 ((hmem w0 hw0).2 hw0big)
    have := hws_pos w0 hw0
    linarith
  refine ⟨_, _, hprune, hne2, List.filter_sublist _, hmem, ?_, List.length_map _ _, ?_,
    sum_map_div_self _ hsum2⟩
  · rw [hprune, normaliseWeights_fin _ hsum2]
  · intro v hv
    obtain ⟨w, hw, rfl⟩ := List.mem_map.1 hv
    exact div_nonneg (le_of_lt (hpos2 w hw)) (le_of_lt hsum2)

theorem quadrature_weights_witness :
    ([0, 1] : List ℝ) ≠ [] ∧
    ∃ ws : List ℝ, gridWeights (CMath.mk Real.exp Real.log (fun x => Real.log (1 + x))
        (fun x => Real.exp x - 1) Real.sqrt) (([0, 1] : List ℝ).map fin) = ws.map fin ∧
      ws.length = ([0, 1] : List ℝ).length ∧ (∀ w ∈ ws, 0 < w) ∧ ws.sum = 1 ∧
      ∃ ws2 vs : List ℝ, (pruneLoop 0 (ws.map fin) [fin 1, fin 2]).1 = ws2.map fin ∧
        ws2 ≠ [] ∧ (∀ v ∈ vs, 0 ≤ v) ∧ vs.sum = 1 ∧
        normaliseWeights (pruneLoop 0 (ws.map fin) [fin 1, fin 2]).1 = vs.map fin :=
  ⟨by simp, by
    obtain ⟨ws, h1, h2, h3, h4, h5⟩ := quadrature_weights (CMath.mk Real.exp Real.log
      (fun x => Real.log (1 + x)) (fun x => Real.exp x - 1) Real.sqrt)
      ⟨fun _ => rfl, fun _ => rfl, fun _ => rfl, fun _ => rfl, fun _ => rfl⟩ [0, 1] (by simp)
    obtain ⟨ws2, vs, g1, g2, -, -, g5, -, g7, g8⟩ := h5 (by norm_num) [fin 1, fin 2] rfl
    exact ⟨ws, h1, h2, h3, h4, ws2, vs, g1, g2, g7, g8, g5⟩⟩

end Weights

/-! ## The grid of candidates -/

section Grid

/-- The grid of `gpdfitnew` on a sample of at least two finite values: `m = 30 + floor(sqrt n)`
candidates built from the quartile element and the last element. -/
theorem gpdGrid_fin (M : CMath ℝ) (hM : M.Exact) (xs : List ℝ) (hx : 2 ≤ xs.length) :
    ∃ xq xmax : ℝ, xs[(⌊(xs.length : ℝ) / 4 + 1 / 2⌋ - 1).toNat]? = some xq ∧
      xs[xs.length - 1]? = some xmax ∧
      gpdGrid M (xs.map fin)
        = some (gridCandidates M (30 + ⌊Real.sqrt xs.length⌋).toNat (fin (3 * xq)) (fin xmax)) := by
  have hn0 : ¬ ((xs.length : ℝ) < 0) := not_lt.2 (Nat.cast_nonneg _)
  have hn2 : (2 : ℝ) ≤ xs.length := by exact_mod_cast hx
  have h1 : toInt (sqrt M (ofNat xs.length)) = some ⌊Real.sqrt xs.length⌋ := by
    simp only [ofNat, Dbl.sqrt, hn0, if_false, toInt, hM.sqrt_eq,
      Real.sqrt_nonneg, if_true]
  have h2 : toInt (ofNat xs.length / fin 4 + fin (1 / 2) : Dbl ℝ)
      = some ⌊(xs.length : ℝ) / 4 + 1 / 2⌋ := by
    have : (0 : ℝ) ≤ (xs.length : ℝ) / 4 + 1 / 2 := by positivity
    simp only [ofNat, Dbl.fin_div_fin _ _ (by norm_num : (4 : ℝ) ≠ 0),
      Dbl.fin_add_fin, toInt, this, if_true]
  have h3 : (0 : ℤ) ≤ ⌊(xs.length : ℝ) / 4 + 1 / 2⌋ - 1 := by
    have : (1 : ℤ) ≤ ⌊(xs.length : ℝ) / 4 + 1 / 2⌋ := by
      apply Int.le_floor.2
      push_cast
      linarith
    omega
  have h4 : (⌊(xs.length : ℝ) / 4 + 1 / 2⌋ - 1).toNat < xs.length := by
    have : ⌊(xs.length : ℝ) / 4 + 1 / 2⌋ ≤ (xs.length : ℤ) := by
      have := Int.floor_le ((xs.length : ℝ) / 4 + 1 / 2)
      have h5 : ((⌊(xs.length : ℝ) / 4 + 1 / 2⌋ : ℤ) : ℝ) ≤ ((xs.length : ℤ) : ℝ) := by
        push_cast
        linarith
      exact_mod_cast h5
    omega
  have h5 : xs.length - 1 < xs.length := by omega
  have h6 : 1 ≤ xs.length := by omega
  refine ⟨xs[(⌊(xs.length : ℝ) / 4 + 1 / 2⌋ - 1).toNat], xs[xs.length - 1],
    List.getElem?_eq_getElem h4, List.getElem?_eq_getElem h5, ?_⟩
  unfold gpdGrid
  simp only [List.length_map, h1, h2, h3, h6, if_true, Option.bind_eq_bind, Option.some_bind,
    List.getElem?_map, List.getElem?_eq_getElem h4,
    List.getElem?_eq_getElem h5, Option.map_some', Dbl.fin_mul_fin]

theorem gridCandidates_length {α : Type} [LinearOrderedField α] (M : CMath α) (m : ℕ)
    (denom xmax : Dbl α) : (gridCandidates M m denom xmax).length = m := by
  simp [gridCandidates]

/-- The candidate number `j + 1` of the grid, for finite non-zero `denom` and maximum. -/
theorem gridCandidates_getElem (M : CMath ℝ) (hM : M.Exact) (m : ℕ) (d xm : ℝ) (hd : d ≠ 0)
    (hxm : xm ≠ 0) (j : ℕ) (hj : j < m) :
    (gridCandidates M m (fin d) (fin xm))[j]?
      = some (fin ((1 - Real.sqrt (m / (((j + 1 : ℕ) : ℝ) - 1 / 2))) / d + 1 / xm)) := by
  have hi : (0 : ℝ) < ((j + 1 : ℕ) : ℝ) - 1 / 2 := by
    push_cast
    have : (0 : ℝ) ≤ j := Nat.cast_nonneg j
    linarith
  have hq : ¬ ((m : ℝ) / (((j + 1 : ℕ) : ℝ) - 1 / 2) < 0) :=
    not_lt.2 (div_nonneg (Nat.cast_nonneg m) (le_of_lt hi))
  unfold gridCandidates
  rw [List.getElem?_map, List.getElem?_range' _ _ hj]
  simp only [Option.map_some', ofNat, Dbl.fin_sub_fin]
  rw [show 1 + 1 * j = j + 1 by omega, Dbl.fin_div_fin _ _ (ne_of_gt hi)]
  simp only [Dbl.sqrt, hq, if_false, hM.sqrt_eq, Dbl.fin_sub_fin, Dbl.fin_div_fin _ _ hd,
    Dbl.fin_div_fin _ _ hxm, Dbl.fin_add_fin]

theorem gridScores_eq_map {α : Type} [LinearOrderedField α] (M : CMath α)
    (x bs : List (Dbl α)) :
    gridScores M x bs = bs.map (fun b =>
      (log M (-b / meanLog1p M x (-b)) - meanLog1p M x (-b) - fin 1) * ofNat x.length) := by
  unfold gridScores
  exact zipWith_map_same _ _ bs

theorem foldl_log1p_fin (M : CMath ℝ) (hM : M.Exact) (xs : List ℝ) (c a : ℝ)
    (h : ∀ x ∈ xs, -1 < c * x) :
    (xs.map fin).foldl (fun mean xj => mean + log1p M (fin c * xj)) (fin a)
      = fin (a + (xs.map (fun x => Real.log (1 + c * x))).sum) := by
  induction xs generalizing a with
  | nil => simp
  | cons y l ih =>
    have hy := h y (List.mem_cons_self _ _)
    have e : log1p M (fin c * fin y) = fin (Real.log (1 + c * y)) := by
      have h1 : ¬ (c * y < -1) := by linarith
      have h2 : ¬ (c * y = -1) := by
        intro h3
        linarith
      simp only [Dbl.fin_mul_fin, Dbl.log1p, h1, h2, if_false, hM.log1p_eq]
    rw [List.map_cons, List.foldl_cons, e, Dbl.fin_add_fin,
      ih _ (fun x hx => h x (List.mem_cons_of_mem _ hx)), List.map_cons, List.sum_cons]
    congr 1
    ring

/-- The mean of `log1p(c * x_j)` over a non-empty sample of finite values with
`c * x_j > -1`. -/
theorem meanLog1p_fin (M : CMath ℝ) (hM : M.Exact) (xs : List ℝ) (hne : xs ≠ []) (c : ℝ)
    (h : ∀ x ∈ xs, -1 < c * x) :
    meanLog1p M (xs.map fin) (fin c)
      = fin ((xs.map (fun x => Real.log (1 + c * x))).sum / xs.length) := by
  have hn : (xs.length : ℝ) ≠ 0 := by
    have : xs.length ≠ 0 := fun h0 => hne (List.length_eq_zero.1 h0)
    exact_mod_cast this
  unfold meanLog1p
  rw [foldl_log1p_fin M hM xs c 0 h, List.length_map, ofNat, Dbl.fin_div_fin _ _ hn, zero_add]

end Grid

/-! ## The likelihood scores of the candidates -/

section GridScores

/-- In an ascending list no element exceeds the last one. -/
theorem sorted_le_last (xs : List ℝ) (hs : xs.Sorted (· ≤ ·)) (xmax : ℝ)
    (hl : xs[xs.length - 1]? = some xmax) : ∀ x ∈ xs, x ≤ xmax := by
  intro x hx
  obtain ⟨k, hk, rfl⟩ := List.getElem_of_mem hx
  have hlast : xs.length - 1 < xs.length := by omega
  rw [List.getElem?_eq_getElem hlast] at hl
  have hl2 : xs[xs.length - 1] = xmax := Option.some.inj hl
  by_cases hkl : k = xs.length - 1
  · subst hkl
    exact le_of_eq hl2
  · rw [← hl2]
    exact (List.pairwise_iff_getElem.1 hs) k (xs.length - 1) hk hlast (by omega)

theorem sum_neg_of_forall_neg (l : List ℝ) (hne : l ≠ []) (h : ∀ t ∈ l, t < 0) :
    l.sum < 0 := by
  induction l with
  | nil => exact absurd rfl hne
  | cons a l ih =>
    rw [List.sum_cons]
    have ha := h a (List.mem_cons_self _ _)
    by_cases hl : l = []
    · subst hl
      simpa using ha
    · have := ih hl (fun t ht => h t (List.mem_cons_of_mem _ ht))
      linarith

theorem sum_pos_of_forall_pos (l : List ℝ) (hne : l ≠ []) (h : ∀ t ∈ l, 0 < t) :
    0 < l.sum := by
  induction l with
  | nil => exact absurd rfl hne
  | cons a l ih =>
    rw [List.sum_cons]
    have ha := h a (List.mem_cons_self _ _)
    by_cases hl : l = []
    · subst hl
      simpa using ha
    · have := ih hl (fun t ht => h t (List.mem_cons_of_mem _ ht))
      linarith

/-- The mean of `log(1 - β x)` over a positive sample has the sign opposite to `β` when
`β x < 1` throughout. -/
theorem mean_log_sign (xs : List ℝ) (hne : xs ≠ []) (hpos : ∀ x ∈ xs, 0 < x) (β : ℝ)
    (hβ : β ≠ 0) (hlt : ∀ x ∈ xs, β * x < 1) :
    0 < -β / ((xs.map (fun x => Real.log (1 + -β * x))).sum / xs.length) := by
  have hn : (0 : ℝ) < xs.length := by
    have : xs.length ≠ 0 := fun h0 => hne (List.length_eq_zero.1 h0)
    exact_mod_cast Nat.pos_of_ne_zero this
  have hne2 : xs.map (fun x => Real.log (1 + -β * x)) ≠ [] := by
    simpa using hne
  rcases lt_or_gt_of_ne hβ with hb | hb
  · have hs : 0 < (xs.map (fun x => Real.log (1 + -β * x))).sum := by
      apply sum_pos_of_forall_pos _ hne2
      intro t ht
      obtain ⟨x, hx, rfl⟩ := List.mem_map.1 ht
      apply Real.log_pos
      have := mul_pos_of_neg_of_neg hb (neg_lt_zero.2 (hpos x hx))
      nlinarith [hpos x hx]
    exact div_pos (by linarith) (div_pos hs hn)
  · have hs : (xs.map (fun x => Real.log (1 + -β * x))).sum < 0 := by
      apply sum_neg_of_forall_neg _ hne2
      intro t ht
      obtain ⟨x, hx, rfl⟩ := List.mem_map.1 ht
      have h1 := hlt x hx
      have h2 := mul_pos hb (hpos x hx)
      apply Real.log_neg
      · linarith
      · linarith
    exact div_pos_of_neg_of_neg (by linarith) (div_neg_of_neg_of_pos hs hn)

/-- The score of a finite candidate `β`: finite when `β` is not zero, NaN when it is. -/
theorem score_of_candidate (M : CMath ℝ) (hM : M.Exact) (xs : List ℝ) (hne : xs ≠ [])
    (hpos : ∀ x ∈ xs, 0 < x) (β : ℝ) (hlt : ∀ x ∈ xs, β * x < 1) :
    ∃ κ : ℝ, meanLog1p M (xs.map fin) (-(fin β)) = fin κ ∧
      (β ≠ 0 → κ ≠ 0 ∧ 0 < -β / κ ∧
        (log M (-(fin β) / meanLog1p M (xs.map fin) (-(fin β)))
            - meanLog1p M (xs.map fin) (-(fin β)) - fin 1) * ofNat (xs.map fin).length
          = fin ((Real.log (-β / κ) - κ - 1) * xs.length)) ∧
      (β = 0 → κ = 0 ∧
        (log M (-(fin β) / meanLog1p M (xs.map fin) (-(fin β)))
            - meanLog1p M (xs.map fin) (-(fin β)) - fin 1) * ofNat (xs.map fin).length
          = nan) := by
  have hk := meanLog1p_fin M hM xs hne (-β) (fun x hx => by
    have := hlt x hx
    linarith)
  refine ⟨_, by rw [Dbl.neg_fin]; exact hk, ?_, ?_⟩
  · intro hβ
    have hsgn := mean_log_sign xs hne hpos β hβ hlt
    have hκ : (xs.map (fun x => Real.log (1 + -β * x))).sum / xs.length ≠ 0 := by
      intro h0
      rw [h0, div_zero] at hsgn
      exact lt_irrefl _ hsgn
    refine ⟨hκ, hsgn, ?_⟩
    rw [Dbl.neg_fin, hk, Dbl.fin_div_fin _ _ hκ]
    have h1 : ¬ (-β / ((xs.map (fun x => Real.log (1 + -β * x))).sum / xs.length) < 0) :=
      not_lt.2 (le_of_lt hsgn)
    have h2 : ¬ (-β / ((xs.map (fun x => Real.log (1 + -β * x))).sum / xs.length) = 0) :=
      ne_of_gt hsgn
    simp only [Dbl.log, h1, h2, if_false, hM.log_eq, Dbl.fin_sub_fin, ofNat, Dbl.fin_mul_fin,
      List.length_map]
  · intro hβ
    subst hβ
    have hz : (xs.map (fun x => Real.log (1 + -(0 : ℝ) * x))).sum / xs.length = 0 := by
      have : xs.map (fun x => Real.log (1 + -(0 : ℝ) * x)) = xs.map (fun _ => (0 : ℝ)) := by
        apply List.map_congr_left
        intro x _
        simp
      rw [this]
      simp
    refine ⟨hz, ?_⟩
    have e : (fin (-0) / fin 0 : Dbl ℝ) = nan := by
      show Dbl.div _ _ = _
      simp [Dbl.div, infTimes]
    rw [Dbl.neg_fin, hk, hz, e]
    rfl

/-- The candidates of the grid on an ascending positive sample: each is finite and its
product with every sample value is below one. -/
theorem gpdGrid_candidates (M : CMath ℝ) (hM : M.Exact) (xs : List ℝ) (hn : 2 ≤ xs.length)
    (hs : xs.Sorted (· ≤ ·)) (hpos : ∀ x ∈ xs, 0 < x) :
    ∃ bs, gpdGrid M (xs.map fin) = some bs ∧
      bs.length = (30 + ⌊Real.sqrt xs.length⌋).toNat ∧
      ∀ i, i < bs.length → ∃ β : ℝ, bs[i]? = some (fin β) ∧ ∀ x ∈ xs, β * x < 1 := by
  obtain ⟨xq, xmax, hq, hmax, hg⟩ := gpdGrid_fin M hM xs hn
  have hxq : 0 < xq := hpos xq (List.getElem?_mem hq)
  have hxmax : 0 < xmax := hpos xmax (List.getElem?_mem hmax)
  have hle := sorted_le_last xs hs xmax hmax
  refine ⟨_, hg, gridCandidates_length _ _ _ _, ?_⟩
  intro i hi
  rw [gridCandidates_length] at hi
  refine ⟨_, gridCandidates_getElem M hM _ (3 * xq) xmax (by positivity) (ne_of_gt hxmax) i hi,
    ?_⟩
  intro x hx
  generalize hm : (30 + ⌊Real.sqrt xs.length⌋).toNat = m at hi
  have hden : (0 : ℝ) < ((i + 1 : ℕ) : ℝ) - 1 / 2 := by
    push_cast
    have : (0 : ℝ) ≤ i := Nat.cast_nonneg i
    linarith
  have hratio : (1 : ℝ) < (m : ℝ) / (((i + 1 : ℕ) : ℝ) - 1 / 2) := by
    rw [lt_div_iff₀ hden]
    have : ((i + 1 : ℕ) : ℝ) ≤ m := by exact_mod_cast hi
    linarith
  have hsq : 1 < Real.sqrt ((m : ℝ) / (((i + 1 : ℕ) : ℝ) - 1 / 2)) := by
    rw [Real.lt_sqrt (by norm_num)]
    simpa using hratio
  have hfirst : (1 - Real.sqrt ((m : ℝ) / (((i + 1 : ℕ) : ℝ) - 1 / 2))) / (3 * xq) < 0 :=
    div_neg_of_neg_of_pos (by linarith) (by positivity)
  have hx0 := hpos x hx
  have hxle := hle x hx
  have hinv : 1 / xmax * x ≤ 1 := by
    rw [one_div, inv_mul_le_iff₀ hxmax]
    linarith
  have : (1 - Real.sqrt ((m : ℝ) / (((i + 1 : ℕ) : ℝ) - 1 / 2))) / (3 * xq) * x < 0 :=
    mul_neg_of_neg_of_pos hfirst hx0
  rw [add_mul]
  linarith

/-- Claim C16 (counterexample).  The ascending sample of sixteen positive values with
`x[3] = 1` and `x[15] = 3` has `m = 34` candidates, and candidate 9 is
`(1 - sqrt(34 / 8.5)) / 3 + 1 / 3 = 0`: its shape `k_9` is zero and its score is NaN. -/
theorem gridScores_zero_candidate :
    ∃ bs, gpdGrid (CMath.mk Real.exp Real.log (fun x => Real.log (1 + x))
          (fun x => Real.exp x - 1) Real.sqrt)
        (([1, 1, 1, 1, 2, 2, 2, 2, 2, 2, 2, 2, 2, 2, 2, 3] : List ℝ).map fin) = some bs ∧
      bs[8]? = some (fin 0) ∧
      meanLog1p (CMath.mk Real.exp Real.log (fun x => Real.log (1 + x))
          (fun x => Real.exp x - 1) Real.sqrt)
        (([1, 1, 1, 1, 2, 2, 2, 2, 2, 2, 2, 2, 2, 2, 2, 3] : List ℝ).map fin) (-(fin 0))
        = fin 0 ∧
      (gridScores (CMath.mk Real.exp Real.log (fun x => Real.log (1 + x))
          (fun x => Real.exp x - 1) Real.sqrt)
        (([1, 1, 1, 1, 2, 2, 2, 2, 2, 2, 2, 2, 2, 2, 2, 3] : List ℝ).map fin) bs)[8]?
        = some nan := by
  have hM : (CMath.mk Real.exp Real.log (fun x => Real.log (1 + x))
      (fun x => Real.exp x - 1) Real.sqrt).Exact :=
    ⟨fun _ => rfl, fun _ => rfl, fun _ => rfl, fun _ => rfl, fun _ => rfl⟩
  generalize hMd : CMath.mk Real.exp Real.log (fun x => Real.log (1 + x))
      (fun x => Real.exp x - 1) Real.sqrt = M at hM
  generalize hxs : ([1, 1, 1, 1, 2, 2, 2, 2, 2, 2, 2, 2, 2, 2, 2, 3] : List ℝ) = xs
  have hlen : xs.length = 16 := by rw [← hxs]; rfl
  have hpos : ∀ x ∈ xs, 0 < x := by
    intro x hx
    rw [← hxs] at hx
    simp only [List.mem_cons, List.mem_singleton, List.not_mem_nil, or_false] at hx
    rcases hx with h | h | h | h | h | h | h | h | h | h | h | h | h | h | h | h <;>
      rw [h] <;> norm_num
  have hne : xs ≠ [] := by
    intro h
    rw [h] at hlen
    exact absurd hlen (by simp)
  obtain ⟨xq, xmax, hq, hmax, hg⟩ := gpdGrid_fin M hM xs (by omega)
  have hsqrt : Real.sqrt (16 : ℝ) = 4 := by
    rw [show (16 : ℝ) = 4 ^ 2 by norm_num, Real.sqrt_sq (by norm_num)]
  have hfl : ⌊(16 : ℝ) / 4 + 1 / 2⌋ = 4 := by
    rw [Int.floor_eq_iff]
    constructor <;> norm_num
  rw [hlen] at hq hmax hg
  push_cast at hq hg
  rw [hfl] at hq
  rw [hsqrt] at hg
  have hxq : xq = 1 := by
    rw [← hxs] at hq
    exact (Option.some.inj hq).symm
  have hxmax : xmax = 3 := by
    rw [← hxs] at hmax
    exact (Option.some.inj hmax).symm
  subst hxq hxmax
  have hm : (30 + ⌊(4 : ℝ)⌋).toNat = 34 := by
    rw [show (4 : ℝ) = ((4 : ℤ) : ℝ) by norm_num, Int.floor_intCast]
    rfl
  rw [hm] at hg
  have hb := gridCandidates_getElem M hM 34 (3 * 1) 3 (by norm_num) (by norm_num) 8
    (by norm_num)
  have hval : (1 - Real.sqrt (((34 : ℕ) : ℝ) / (((8 + 1 : ℕ) : ℝ) - 1 / 2))) / (3 * 1) + 1 / 3
      = (0 : ℝ) := by
    have : ((34 : ℕ) : ℝ) / (((8 + 1 : ℕ) : ℝ) - 1 / 2) = 2 ^ 2 := by norm_num
    rw [this, Real.sqrt_sq (by norm_num)]
    norm_num
  rw [hval] at hb
  obtain ⟨κ, hκ, -, h2⟩ := score_of_candidate M hM xs hne hpos 0 (fun x _ => by simp)
  obtain ⟨hκ0, hnan⟩ := h2 rfl
  subst hκ0
  refine ⟨_, hg, hb, hκ, ?_⟩
  rw [gridScores_eq_map, List.getElem?_map, hb]
  exact congrArg some hnan

end GridScores

/-! ## The tail of `psislw` and its exceedances -/

section Tail

/-- A pair of `zip l (range l.length)` holds the element of `l` at its index. -/
theorem zip_range_getElem {β : Type} (l : List β) (a : β) (i : ℕ)
    (h : (a, i) ∈ List.zip l (List.range l.length)) : l[i]? = some a := by
  obtain ⟨k, hk⟩ := List.mem_iff_getElem?.1 h
  rw [List.getElem?_zip_eq_some] at hk
  obtain ⟨h1, h2⟩ := hk
  have hkl : k < l.length := by
    by_contra hcon
    rw [List.getElem?_eq_none (by omega)] at h1
    exact absurd h1 (by simp)
  rw [List.getElem?_range hkl] at h2
  have : k = i := Option.some.inj h2
  rw [← this]
  exact h1

/-- The indices recorded in the sorted pairs are pairwise distinct. -/
theorem sortPairs_indices_nodup {α : Type} [LinearOrderedField α] (l : List (Dbl α)) :
    ((sortPairs (List.zip l (List.range l.length))).map Prod.snd).Nodup := by
  have hp := (sortPairs_perm (List.zip l (List.range l.length))).map Prod.snd
  rw [hp.nodup_iff, List.map_snd_zip _ _ (by rw [List.length_range])]
  exact List.nodup_range _

theorem insertPair_sorted (a : Dbl ℝ × ℕ) (l : List (Dbl ℝ × ℕ))
    (ha : ∃ y : ℝ, a.1 = fin y) (hl : ∀ q ∈ l, ∃ y : ℝ, q.1 = fin y)
    (hs : l.Pairwise (fun p q => le p.1 q.1 = true)) :
    (insertPair a l).Pairwise (fun p q => le p.1 q.1 = true) := by
  obtain ⟨ya, hya⟩ := ha
  induction l with
  | nil => simp [insertPair]
  | cons b l ih =>
    obtain ⟨yb, hyb⟩ := hl b (List.mem_cons_self _ _)
    rw [List.pairwise_cons] at hs
    obtain ⟨hb, hs2⟩ := hs
    simp only [insertPair]
    by_cases hlt : pairLt b a = true
    · rw [if_pos hlt, List.pairwise_cons]
      refine ⟨?_, ih (fun q hq => hl q (List.mem_cons_of_mem _ hq)) hs2⟩
      intro q hq
      rcases List.mem_cons.1 ((insertPair_perm a l).mem_iff.1 hq) with h | h
      · rw [h, hya, hyb, Dbl.le_fin_fin, decide_eq_true_eq]
        simp only [pairLt, hya, hyb, Dbl.lt_fin_fin, Bool.or_eq_true, Bool.and_eq_true,
          Bool.not_eq_true', decide_eq_true_eq, decide_eq_false_iff_not] at hlt
        rcases hlt with h1 | ⟨h1, -⟩
        · exact le_of_lt h1
        · exact not_lt.1 h1
      · exact hb q h
    · rw [if_neg hlt, List.pairwise_cons]
      have hab : ya ≤ yb := by
        simp only [pairLt, hya, hyb, Dbl.lt_fin_fin, Bool.or_eq_true, Bool.and_eq_true,
          Bool.not_eq_true', decide_eq_true_eq, decide_eq_false_iff_not, not_or] at hlt
        exact not_lt.1 hlt.1
      refine ⟨?_, List.pairwise_cons.2 ⟨hb, hs2⟩⟩
      intro q hq
      rcases List.mem_cons.1 hq with h | h
      · rw [h, hya, hyb, Dbl.le_fin_fin, decide_eq_true_eq]
        exact hab
      · obtain ⟨yq, hyq⟩ := hl q (List.mem_cons_of_mem _ h)
        have := hb q h
        rw [hyb, hyq, Dbl.le_fin_fin, decide_eq_true_eq] at this
        rw [hya, hyq, Dbl.le_fin_fin, decide_eq_true_eq]
        exact le_trans hab this

/-- The sorted pairs of finite values are ascending in the value. -/
theorem sortPairs_sorted (v : List (Dbl ℝ × ℕ)) (hv : ∀ q ∈ v, ∃ y : ℝ, q.1 = fin y) :
    (sortPairs v).Pairwise (fun p q => le p.1 q.1 = true) := by
  induction v with
  | nil => exact List.Pairwise.nil
  | cons a l ih =>
    show (insertPair a (sortPairs l)).Pairwise _
    apply insertPair_sorted a _ (hv a (List.mem_cons_self _ _))
    · intro q hq
      exact hv q (List.mem_cons_of_mem _ ((sortPairs_perm l).mem_iff.1 hq))
    · exact ih (fun q hq => hv q (List.mem_cons_of_mem _ hq))

/-- The split of `psislw` with its cutoff element: the pair at sorted position
`n - cutoff_ind - 1` gives `xcutoff`, the pairs after it are the tail. -/
theorem psislwSplit_cutoff (M : CMath ℝ) (xs : List ℝ) (Reff : Dbl ℝ) (c : ℤ)
    (hc : cutoffInd M xs.length Reff = some c) (h0 : 0 ≤ c) :
    ∃ (m : ℝ) (s : Split ℝ) (vc : Dbl ℝ × ℕ), m ∈ xs ∧ (∀ x ∈ xs, x ≤ m) ∧
      psislwSplit M (xs.map fin) Reff = some s ∧
      s.lw = xs.map (fun x => fin (x - m)) ∧
      s.tail = (sortPairs (List.zip s.lw (List.range xs.length))).drop
        (xs.length - c.toNat) ∧
      s.tail.length = c.toNat ∧ c.toNat < xs.length ∧
      (sortPairs (List.zip s.lw (List.range xs.length)))[xs.length - c.toNat - 1]? = some vc ∧
      s.xcutoff = Dbl.max vc.1 (log M minPositive) := by
  have hlt := cutoffInd_lt M xs.length Reff c hc h0
  have hne : xs ≠ [] := by
    intro h
    rw [h] at hlt
    simp at hlt
    omega
  obtain ⟨m, hm, hmem, hmax⟩ := maxElement_fin xs hne
  have hidx : (0 : ℤ) ≤ (xs.length : ℤ) - c - 1 := by omega
  have hshift : List.map (fun w => w - fin m) (xs.map fin) = xs.map (fun x => fin (x - m)) := by
    rw [List.map_map]
    apply List.map_congr_left
    intro a _
    simp
  have hlen : (sortPairs (List.zip (xs.map (fun x => fin (x - m)))
      (List.range xs.length))).length = xs.length := by
    rw [sortPairs_length, List.length_zip, List.length_map, List.length_range, Nat.min_self]
  have hget : ((xs.length : ℤ) - c - 1).toNat < (sortPairs (List.zip
      (xs.map (fun x => fin (x - m))) (List.range xs.length))).length := by
    rw [hlen]
    omega
  have hdrop : ((xs.length : ℤ) - c).toNat = xs.length - c.toNat := by omega
  have hidx2 : ((xs.length : ℤ) - c - 1).toNat = xs.length - c.toNat - 1 := by omega
  refine ⟨m, ⟨xs.map (fun x => fin (x - m)),
    (sortPairs (List.zip (xs.map (fun x => fin (x - m))) (List.range xs.length))).drop
      (xs.length - c.toNat),
    Dbl.max ((sortPairs (List.zip (xs.map (fun x => fin (x - m)))
      (List.range xs.length))).get ⟨_, hget⟩).1 (log M minPositive)⟩,
    (sortPairs (List.zip (xs.map (fun x => fin (x - m)))
      (List.range xs.length))).get ⟨_, hget⟩,
    hmem, hmax, ?_, rfl, rfl, ?_, by omega, ?_, rfl⟩
  · unfold psislwSplit
    simp only [List.length_map, hc, hm, Option.bind_eq_bind, Option.some_bind, hidx, if_true,
      hshift, List.getElem?_eq_getElem hget, hdrop]
    rfl
  · simp only [List.length_drop]
    rw [hlen]
    omega
  · show (sortPairs (List.zip (xs.map (fun x => fin (x - m)))
      (List.range xs.length)))[xs.length - c.toNat - 1]? = _
    rw [← hidx2, List.getElem?_eq_getElem hget]
    rfl

/-- The indices of the tail are pairwise distinct. -/
theorem tail_indices_nodup (l : List (Dbl ℝ)) (k : ℕ) :
    (((sortPairs (List.zip l (List.range l.length))).drop k).map Prod.snd).Nodup := by
  rw [List.map_drop]
  exact (sortPairs_indices_nodup l).sublist (List.drop_sublist _ _)

/-- Every tail element of a split of finite values: its value is a shifted input at its
recorded index, it is not below the cutoff element, and its exceedance is
`exp(w) - exp(xcutoff)` with `xcutoff` the larger of the cutoff element and
`log(2^-1074)`. -/
theorem tail_element (M : CMath ℝ) (hM : M.Exact) (xs : List ℝ) (Reff : Dbl ℝ) (c : ℤ)
    (hc : cutoffInd M xs.length Reff = some c) (h0 : 0 ≤ c) :
    ∃ (m : ℝ) (s : Split ℝ) (y0 : ℝ), m ∈ xs ∧ (∀ x ∈ xs, x ≤ m) ∧
      psislwSplit M (xs.map fin) Reff = some s ∧
      s.tail.length = c.toNat ∧
      s.xcutoff = fin (Max.max y0 (Real.log ((1 / 2) ^ 1074))) ∧
      (s.tail.map Prod.snd).Nodup ∧
      ∀ j, j < s.tail.length → ∃ (w : ℝ) (i : ℕ), s.tail[j]? = some (fin w, i) ∧
        xs[i]? = some (w + m) ∧ y0 ≤ w ∧
        (exceedances M s)[j]?
          = some (fin (Real.exp w - Real.exp (Max.max y0 (Real.log ((1 / 2) ^ 1074))))) := by
  obtain ⟨m, s, vc, hmem, hmax, hs, hlw, htail, hlen, hcn, hvc, hxc⟩ :=
    psislwSplit_cutoff M xs Reff c hc h0
  have hlw2 : s.lw = (xs.map (fun x => x - m)).map fin := by
    rw [hlw, List.map_map]
    rfl
  have hlenlw : s.lw.length = xs.length := by rw [hlw, List.length_map]
  have hfinite : ∀ q ∈ sortPairs (List.zip s.lw (List.range xs.length)),
      ∃ y : ℝ, q.1 = fin y ∧ xs[q.2]? = some (y + m) := by
    intro q hq
    have h1 : q ∈ List.zip s.lw (List.range s.lw.length) := by
      rw [hlenlw]
      exact (sortPairs_perm _).mem_iff.1 hq
    obtain ⟨a, i⟩ := q
    have h2 := zip_range_getElem s.lw a i h1
    rw [hlw, List.getElem?_map] at h2
    cases hx : xs[i]? with
    | none =>
      rw [hx] at h2
      exact absurd h2 (by simp)
    | some x =>
      rw [hx] at h2
      simp only [Option.map_some', Option.some.injEq] at h2
      exact ⟨x - m, h2.symm, by simp⟩
  have hsorted := sortPairs_sorted (List.zip s.lw (List.range xs.length))
    (fun q hq => by
      obtain ⟨y, hy, -⟩ := hfinite q ((sortPairs_perm _).mem_iff.2 hq)
      exact ⟨y, hy⟩)
  have hvlen : (sortPairs (List.zip s.lw (List.range xs.length))).length = xs.length := by
    rw [sortPairs_length, List.length_zip, hlenlw, List.length_range, Nat.min_self]
  obtain ⟨y0, hy0, -⟩ := hfinite vc (List.getElem?_mem hvc)
  obtain ⟨hl, -⟩ := log_minPositive M hM
  have hxc2 : s.xcutoff = fin (Max.max y0 (Real.log ((1 / 2) ^ 1074))) := by
    rw [hxc, hy0, hl]
    simp only [Dbl.max, Dbl.lt_fin_fin, decide_eq_true_eq]
    by_cases h : y0 < Real.log ((1 / 2) ^ 1074)
    · rw [if_pos h, max_eq_right (le_of_lt h)]
    · rw [if_neg h, max_eq_left (not_lt.1 h)]
  have hnd : (s.tail.map Prod.snd).Nodup := by
    rw [htail, ← hlenlw]
    exact tail_indices_nodup s.lw _
  refine ⟨m, s, y0, hmem, hmax, hs, hlen, hxc2, hnd, ?_⟩
  intro j hj
  have hjv : xs.length - c.toNat + j
      < (sortPairs (List.zip s.lw (List.range xs.length))).length := by
    rw [hvlen]
    omega
  have hcv : xs.length - c.toNat - 1
      < (sortPairs (List.zip s.lw (List.range xs.length))).length := by
    rw [hvlen]
    omega
  have hq : s.tail[j]?
      = some ((sortPairs (List.zip s.lw (List.range xs.length)))[xs.length - c.toNat + j]) := by
    rw [htail, List.getElem?_drop, List.getElem?_eq_getElem hjv]
  obtain ⟨w, hw, hxi⟩ := hfinite _ (List.getElem_mem hjv)
  have hvc2 : (sortPairs (List.zip s.lw (List.range xs.length)))[xs.length - c.toNat - 1]
      = vc := by
    rw [List.getElem?_eq_getElem hcv] at hvc
    exact Option.some.inj hvc
  have hle := (List.pairwise_iff_getElem.1 hsorted) (xs.length - c.toNat - 1)
    (xs.length - c.toNat + j) hcv hjv (by omega)
  rw [hvc2, hy0, hw, Dbl.le_fin_fin, decide_eq_true_eq] at hle
  refine ⟨w, ((sortPairs (List.zip s.lw (List.range xs.length)))[xs.length - c.toNat + j]).2,
    ?_, hxi, hle, ?_⟩
  · rw [hq, ← hw]
  · unfold exceedances
    rw [List.map_map, List.getElem?_map, hq, Option.map_some', Function.comp_apply, hw, hxc2]
    simp only [Dbl.exp, hM.exp_eq, Dbl.fin_sub_fin]

/-- Claim C15 (counterexample).  For the 26 log weights `0, -1000, ..., -1000` and `Reff = 1`
the tail has more than four elements and one of the exceedances handed to `gpdfitnew` is
negative: a tail value `-1000` lies below `xcutoff >= log(2^-1074)`. -/
theorem exceedances_negative_below_floor :
    ∃ s, psislwSplit (CMath.mk Real.exp Real.log (fun x => Real.log (1 + x))
        (fun x => Real.exp x - 1) Real.sqrt)
        (((0 : ℝ) :: List.replicate 25 (-1000)).map fin) (fin 1) = some s ∧
      4 < s.tail.length ∧
      ∃ e ∈ exceedances (CMath.mk Real.exp Real.log (fun x => Real.log (1 + x))
        (fun x => Real.exp x - 1) Real.sqrt) s, lt e (fin 0) = true := by
  have hM : (CMath.mk Real.exp Real.log (fun x => Real.log (1 + x))
      (fun x => Real.exp x - 1) Real.sqrt).Exact :=
    ⟨fun _ => rfl, fun _ => rfl, fun _ => rfl, fun _ => rfl, fun _ => rfl⟩
  generalize hMd : CMath.mk Real.exp Real.log (fun x => Real.log (1 + x))
      (fun x => Real.exp x - 1) Real.sqrt = M at hM
  generalize hxs : ((0 : ℝ) :: List.replicate 25 (-1000)) = xs
  have hlen : xs.length = 26 := by rw [← hxs]; simp
  have hmemx : ∀ x ∈ xs, x = 0 ∨ x = -1000 := by
    intro x hx
    rw [← hxs] at hx
    rcases List.mem_cons.1 hx with h | h
    · exact Or.inl h
    · exact Or.inr (List.eq_of_mem_replicate h)
  obtain ⟨c, hc, h0, h4⟩ := cutoffInd_one M hM xs.length (by omega)
  have hc5 : 4 < c := by
    by_contra hcon
    have := h4.1 (by omega)
    omega
  obtain ⟨m, s, y0, hm, hmax, hs, hl, hxc, hnd, ht⟩ := tail_element M hM xs (fin 1) c hc h0
  have hm0 : m = 0 := by
    have h1 := hmax 0 (by rw [← hxs]; exact List.mem_cons_self _ _)
    rcases hmemx m hm with h | h
    · exact h
    · rw [h] at h1
      norm_num at h1
  subst hm0
  have hlen5 : 4 < s.tail.length := by omega
  refine ⟨s, hs, hlen5, ?_⟩
  -- two tail elements with distinct indices: one of them is not index 0
  obtain ⟨w0, i0, hq0, hx0, -, he0⟩ := ht 0 (by omega)
  obtain ⟨w1, i1, hq1, hx1, -, he1⟩ := ht 1 (by omega)
  have hne01 : i0 ≠ i1 := by
    intro h
    have h0l : 0 < (s.tail.map Prod.snd).length := by rw [List.length_map]; omega
    have h1l : 1 < (s.tail.map Prod.snd).length := by rw [List.length_map]; omega
    have e0 : (s.tail.map Prod.snd)[0] = i0 := by
      have : (s.tail.map Prod.snd)[0]? = some i0 := by rw [List.getElem?_map, hq0]; rfl
      rw [List.getElem?_eq_getElem h0l] at this
      exact Option.some.inj this
    have e1 : (s.tail.map Prod.snd)[1] = i1 := by
      have : (s.tail.map Prod.snd)[1]? = some i1 := by rw [List.getElem?_map, hq1]; rfl
      rw [List.getElem?_eq_getElem h1l] at this
      exact Option.some.inj this
    have := (List.Nodup.getElem_inj_iff hnd).1 (e0.trans (h.trans e1.symm))
    omega
  have hy0 : Real.log ((1 / 2) ^ 1074) ≤ Max.max y0 (Real.log ((1 / 2) ^ 1074)) :=
    le_max_right _ _
  have hfloor := (log_minPositive M hM).2
  have key : ∀ (w : ℝ) (i : ℕ), i ≠ 0 → xs[i]? = some (w + 0) →
      lt (fin (Real.exp w - Real.exp (Max.max y0 (Real.log ((1 / 2) ^ 1074)))) : Dbl ℝ) (fin 0)
        = true := by
    intro w i hi hx
    have hw : w = -1000 := by
      rw [← hxs] at hx
      obtain ⟨k, rfl⟩ := Nat.exists_eq_succ_of_ne_zero hi
      rw [List.getElem?_cons_succ] at hx
      have := List.eq_of_mem_replicate (List.getElem?_mem hx)
      linarith
    rw [Dbl.lt_fin_fin, decide_eq_true_eq, sub_neg, Real.exp_lt_exp, hw]
    linarith
  by_cases hi0 : i0 = 0
  · refine ⟨_, List.getElem?_mem he1, key w1 i1 ?_ hx1⟩
    intro h
    exact hne01 (hi0.trans h.symm)
  · exact ⟨_, List.getElem?_mem he0, key w0 i0 hi0 hx0⟩

end Tail

/-! ## The write-back of the smoothed tail -/

section WriteBack

/-- A position that no write targets keeps its element. -/
theorem foldl_set_getElem_of_not_mem {β γ : Type} (f : γ → ℕ) (g : γ → β) (qs : List γ)
    (l : List β) (i : ℕ) (hi : i ∉ qs.map f) :
    (qs.foldl (fun lw vq => lw.set (f vq) (g vq)) l)[i]? = l[i]? := by
  induction qs generalizing l with
  | nil => rfl
  | cons q qs ih =>
    simp only [List.map_cons, List.mem_cons, not_or] at hi
    rw [List.foldl_cons, ih _ hi.2, List.getElem?_set_ne (fun h => hi.1 h.symm)]

/-- With pairwise distinct targets inside the vector, every write is still in place after
the loop. -/
theorem foldl_set_getElem {β γ : Type} (f : γ → ℕ) (g : γ → β) (qs : List γ) (l : List β)
    (hnd : (qs.map f).Nodup) (hlt : ∀ q ∈ qs, f q < l.length) :
    ∀ q ∈ qs, (qs.foldl (fun lw vq => lw.set (f vq) (g vq)) l)[f q]? = some (g q) := by
  induction qs generalizing l with
  | nil =>
    intro q hq
    exact absurd hq (List.not_mem_nil _)
  | cons q0 qs ih =>
    rw [List.map_cons, List.nodup_cons] at hnd
    intro q hq
    rw [List.foldl_cons]
    rcases List.mem_cons.1 hq with h | h
    · rw [h, foldl_set_getElem_of_not_mem f g qs _ _ hnd.1,
        List.getElem?_set_self (hlt q0 (List.mem_cons_self _ _))]
    · exact ih _ hnd.2 (fun q2 hq2 => by
        rw [List.length_set]
        exact hlt q2 (List.mem_cons_of_mem _ hq2)) q h

/-- The order statistics as a map over the positions `0 .. r - 1`. -/
theorem stiLoop_eq_map (n2 : ℕ) (hn2 : n2 ≠ 0) (r : ℕ) (a : ℝ) :
    stiLoop n2 r (fin a) = (List.range r).map (fun t : ℕ => fin (((t : ℝ) + a) / n2)) := by
  have hn : (n2 : ℝ) ≠ 0 := by exact_mod_cast hn2
  induction r generalizing a with
  | zero => rfl
  | succ r ih =>
    rw [List.range_succ_eq_map, List.map_cons, List.map_map]
    simp only [stiLoop, ofNat, Dbl.fin_div_fin _ _ hn, Dbl.fin_add_fin]
    rw [ih (a + 1)]
    congr 1
    · simp
    · apply List.map_congr_left
      intro t _
      simp only [Function.comp_apply, Nat.succ_eq_add_one]
      congr 2
      push_cast
      ring

/-- Claim C14.  Tail write-back touches only the tail.  For a vector of finite log weights
whose tail has more than four elements, the tail is the part of the sorted pairs from rank
`n - n2` on and its recorded indices are pairwise distinct.  For every fit `(k, sigma)` the
renormalised smoothed vector `out` is the result of `psislw` when `(k, sigma)` is the fit
of the exceedances and `k >= 1/3`; with `sumlogs` the accumulated log-normaliser, the tail
element of rank `n - n2 + j` is overwritten at its recorded index with
`min(log(q_j + exp(xcutoff)), 0) - sumlogs`, where `q_j` is element `j` of `gpinv` at the
probabilities `(t + 1/2) / n2`, and every position that is not a tail index holds
`lw[i] - max(lw) - sumlogs`. -/
theorem psislw_tail_write_back (M : CMath ℝ) (xs : List ℝ) (Reff : Dbl ℝ) (c : ℤ)
    (hc : cutoffInd M xs.length Reff = some c) (h4 : 4 < c) :
    ∃ (m : ℝ) (s : Split ℝ), m ∈ xs ∧ (∀ x ∈ xs, x ≤ m) ∧
      psislwSplit M (xs.map fin) Reff = some s ∧ 4 < s.tail.length ∧
      s.tail = (sortPairs (List.zip (xs.map (fun x => fin (x - m)))
        (List.range xs.length))).drop (xs.length - s.tail.length) ∧
      (s.tail.map Prod.snd).Nodup ∧
      ∀ k sigma : Dbl ℝ, ∃ (sumlogs : Dbl ℝ) (out : List (Dbl ℝ)),
        (∃ a l, smoothTail M s k sigma = a :: l ∧
          sumlogs = l.foldl (fun acc w => logSum M acc w) a) ∧
        renormalize M (smoothTail M s k sigma) = some out ∧
        (gpdfitnew M (exceedances M s) = some (k, sigma) → ge k (fin 1 / fin 3) = true →
          psislw M (xs.map fin) Reff = some (k, out)) ∧
        out.length = xs.length ∧
        (∀ (j : ℕ) (q : Dbl ℝ × ℕ), s.tail[j]? = some q →
          ∃ qj, (gpinv M ((List.range s.tail.length).map
              (fun t : ℕ => fin (((t : ℝ) + 1 / 2) / s.tail.length))) k sigma)[j]? = some qj ∧
            out[q.2]? = some (Dbl.min (log M (qj + exp M s.xcutoff)) (fin 0) - sumlogs)) ∧
        (∀ (i : ℕ) (x : ℝ), xs[i]? = some x → i ∉ s.tail.map Prod.snd →
          out[i]? = some (fin (x - m) - sumlogs)) := by
  obtain ⟨m, s, vc, hmem, hmax, hs, hlw, htail, hlen, hcn, -, -⟩ :=
    psislwSplit_cutoff M xs Reff c hc (by omega)
  have hlen4 : 4 < s.tail.length := by
    rw [hlen]
    omega
  have hn2 : s.tail.length ≠ 0 := by omega
  have hlenlw : s.lw.length = xs.length := by rw [hlw, List.length_map]
  have hnd : (s.tail.map Prod.snd).Nodup := by
    rw [htail, ← hlenlw]
    exact tail_indices_nodup s.lw _
  have htail2 : s.tail = (sortPairs (List.zip (xs.map (fun x => fin (x - m)))
      (List.range xs.length))).drop (xs.length - s.tail.length) := by
    rw [hlen, ← hlw]
    exact htail
  have hidx : ∀ q ∈ s.tail, q.2 < s.lw.length := by
    intro q hq
    rw [htail] at hq
    have h1 : q ∈ List.zip s.lw (List.range xs.length) :=
      (sortPairs_perm _).mem_iff.1 (List.mem_of_mem_drop hq)
    obtain ⟨a, i⟩ := q
    have h2 := (List.of_mem_zip h1).2
    rw [hlenlw]
    exact List.mem_range.1 h2
  refine ⟨m, s, hmem, hmax, hs, hlen4, htail2, hnd, ?_⟩
  intro k sigma
  have hsti : stiLoop s.tail.length s.tail.length (fin (1 / 2))
      = (List.range s.tail.length).map
          (fun t : ℕ => (fin (((t : ℝ) + 1 / 2) / s.tail.length) : Dbl ℝ)) :=
    stiLoop_eq_map s.tail.length hn2 s.tail.length (1 / 2)
  generalize hqq : gpinv M ((List.range s.tail.length).map
      (fun t : ℕ => (fin (((t : ℝ) + 1 / 2) / s.tail.length) : Dbl ℝ))) k sigma = qq
  have hqqlen : qq.length = s.tail.length := by
    rw [← hqq, gpinv_length, List.length_map, List.length_range]
  -- the vector after the write-back loop
  generalize hw : (List.zip s.tail qq).foldl
      (fun lw (vq : (Dbl ℝ × ℕ) × Dbl ℝ) => lw.set vq.1.2 (log M (vq.2 + exp M s.xcutoff)))
      s.lw = written
  have hsmooth : smoothTail M s k sigma = written.map (fun xx => Dbl.min xx (fin 0)) := by
    unfold smoothTail
    simp only [hsti, hqq, hw]
  have hwlen : written.length = xs.length := by
    rw [← hw, foldl_set_length (fun vq : (Dbl ℝ × ℕ) × Dbl ℝ => vq.1.2), hlenlw]
  have hmapf : (List.zip s.tail qq).map (fun vq : (Dbl ℝ × ℕ) × Dbl ℝ => vq.1.2)
      = s.tail.map Prod.snd := by
    have : (fun vq : (Dbl ℝ × ℕ) × Dbl ℝ => vq.1.2) = Prod.snd ∘ Prod.fst := rfl
    rw [this, ← List.map_map, List.map_fst_zip _ _ (by rw [hqqlen])]
  have hne : smoothTail M s k sigma ≠ [] := by
    intro h
    have hl := smoothTail_length M s k sigma
    rw [h, hlenlw] at hl
    simp only [List.length_nil] at hl
    omega
  obtain ⟨a, l, hal⟩ := List.exists_cons_of_ne_nil hne
  have hren : renormalize M (smoothTail M s k sigma)
      = some ((smoothTail M s k sigma).map
          (fun xx => xx - l.foldl (fun acc w => logSum M acc w) a)) := by
    rw [hal]
    rfl
  refine ⟨l.foldl (fun acc w => logSum M acc w) a, _, ⟨a, l, hal, rfl⟩, hren, ?_, ?_, ?_, ?_⟩
  · intro hfit hk
    rw [psislw_of_fit M _ _ s k sigma hs hlen4 hfit]
    simp only [hk, if_true, hren]
    rfl
  · rw [List.length_map, smoothTail_length, hlenlw]
  · intro j q hq
    have hj : j < s.tail.length := by
      by_contra hcon
      rw [List.getElem?_eq_none (by omega)] at hq
      exact absurd hq (by simp)
    have hjq : j < qq.length := by rw [hqqlen]; exact hj
    refine ⟨qq[j], List.getElem?_eq_getElem hjq, ?_⟩
    have hmemz : (q, qq[j]) ∈ List.zip s.tail qq := by
      apply List.mem_iff_getElem?.2
      exact ⟨j, List.getElem?_zip_eq_some.2 ⟨hq, List.getElem?_eq_getElem hjq⟩⟩
    have hset := foldl_set_getElem (fun vq : (Dbl ℝ × ℕ) × Dbl ℝ => vq.1.2)
      (fun vq => log M (vq.2 + exp M s.xcutoff)) (List.zip s.tail qq) s.lw
      (by rw [hmapf]; exact hnd)
      (fun vq hvq => hidx vq.1 (List.of_mem_zip (a := vq.1) (b := vq.2) hvq).1)
      (q, qq[j]) hmemz
    rw [hw] at hset
    rw [hsmooth, List.map_map, List.getElem?_map, hset]
    rfl
  · intro i x hx hi
    have hkeep := foldl_set_getElem_of_not_mem (fun vq : (Dbl ℝ × ℕ) × Dbl ℝ => vq.1.2)
      (fun vq => log M (vq.2 + exp M s.xcutoff)) (List.zip s.tail qq) s.lw i
      (by rw [hmapf]; exact hi)
    rw [hw, hlw, List.getElem?_map, hx, Option.map_some'] at hkeep
    rw [hsmooth, List.map_map, List.getElem?_map, hkeep, Option.map_some',
      Function.comp_apply]
    have hxm : ¬ (0 < x - m) := by
      have := hmax x (List.getElem?_mem hx)
      linarith
    have hmin : Dbl.min (fin (x - m)) (fin 0) = (fin (x - m) : Dbl ℝ) := by
      simp only [Dbl.min, Dbl.lt_fin_fin, hxm, decide_False, Bool.false_eq_true, if_false]
    rw [hmin]

end WriteBack

/-! ## The bounds of the tail split -/

section TailSplit

/-- Claim C21 (amended).  Tail split is in bounds: for every vector of `n >= 1` finite log
weights and every finite `Reff > 0`, `cutoff_ind = ceil(min(0.2 n, 3 sqrt(n / Reff))) - 1`
satisfies `0 <= cutoff_ind <= n - 1`, the split is defined, the position
`n - cutoff_ind - 1` read for `xcutoff` holds an element of the sorted vector, and the tail
has exactly `cutoff_ind` elements. -/
theorem cutoffInd_in_bounds (M : CMath ℝ) (hM : M.Exact) (xs : List ℝ) (hn : 1 ≤ xs.length)
    (r : ℝ) (hr : 0 < r) :
    ∃ (c : ℤ) (s : Split ℝ) (vc : Dbl ℝ × ℕ),
      cutoffInd M xs.length (fin r) = some c ∧
      c = ⌈Min.min ((xs.length : ℝ) / 5) (3 * Real.sqrt ((xs.length : ℝ) / r))⌉ - 1 ∧
      0 ≤ c ∧ c ≤ (xs.length : ℤ) - 1 ∧
      psislwSplit M (xs.map fin) (fin r) = some s ∧
      (sortPairs (List.zip s.lw (List.range xs.length))).length = xs.length ∧
      (xs.length : ℤ) - c - 1 = ((xs.length - c.toNat - 1 : ℕ) : ℤ) ∧
      xs.length - c.toNat - 1 < xs.length ∧
      (sortPairs (List.zip s.lw (List.range xs.length)))[xs.length - c.toNat - 1]? = some vc ∧
      s.xcutoff = Dbl.max vc.1 (log M minPositive) ∧
      s.tail = (sortPairs (List.zip s.lw (List.range xs.length))).drop
        (xs.length - c.toNat) ∧
      (s.tail.length : ℤ) = c := by
  obtain ⟨c, hc, h0⟩ := cutoffInd_nonneg M hM xs.length hn r hr
  have hlt := cutoffInd_lt M xs.length (fin r) c hc h0
  have hval := cutoffInd_fin M hM xs.length r hr
  rw [hc, Option.some.injEq] at hval
  obtain ⟨m, s, vc, -, -, hs, hlw, htail, hlen, hcn, hvc, hxc⟩ :=
    psislwSplit_cutoff M xs (fin r) c hc h0
  refine ⟨c, s, vc, hc, hval, h0, by omega, hs, ?_, by omega, by omega, hvc, hxc, htail, ?_⟩
  · rw [sortPairs_length, List.length_zip, hlw, List.length_map, List.length_range,
      Nat.min_self]
  · rw [hlen]
    omega

theorem cutoffInd_in_bounds_witness :
    ∃ (c : ℤ) (s : Split ℝ) (vc : Dbl ℝ × ℕ),
      cutoffInd (CMath.mk Real.exp Real.log (fun x => Real.log (1 + x))
        (fun x => Real.exp x - 1) Real.sqrt) ([0, -1] : List ℝ).length (fin 1) = some c ∧
      c = ⌈Min.min ((([0, -1] : List ℝ).length : ℝ) / 5)
        (3 * Real.sqrt ((([0, -1] : List ℝ).length : ℝ) / 1))⌉ - 1 ∧
      0 ≤ c ∧ c ≤ (([0, -1] : List ℝ).length : ℤ) - 1 ∧
      psislwSplit (CMath.mk Real.exp Real.log (fun x => Real.log (1 + x))
        (fun x => Real.exp x - 1) Real.sqrt) (([0, -1] : List ℝ).map fin) (fin 1) = some s ∧
      (sortPairs (List.zip s.lw (List.range ([0, -1] : List ℝ).length))).length
        = ([0, -1] : List ℝ).length ∧
      (([0, -1] : List ℝ).length : ℤ) - c - 1
        = ((([0, -1] : List ℝ).length - c.toNat - 1 : ℕ) : ℤ) ∧
      ([0, -1] : List ℝ).length - c.toNat - 1 < ([0, -1] : List ℝ).length ∧
      (sortPairs (List.zip s.lw (List.range ([0, -1] : List ℝ).length)))[
        ([0, -1] : List ℝ).length - c.toNat - 1]? = some vc ∧
      s.xcutoff = Dbl.max vc.1 (log (CMath.mk Real.exp Real.log (fun x => Real.log (1 + x))
        (fun x => Real.exp x - 1) Real.sqrt) minPositive) ∧
      s.tail = (sortPairs (List.zip s.lw (List.range ([0, -1] : List ℝ).length))).drop
        (([0, -1] : List ℝ).length - c.toNat) ∧
      (s.tail.length : ℤ) = c :=
  cutoffInd_in_bounds _ ⟨fun _ => rfl, fun _ => rfl, fun _ => rfl, fun _ => rfl, fun _ => rfl⟩
    [0, -1] (by decide) 1 one_pos

/-- Claim C21 (counterexample).  For `Reff = +infinity`, which is greater than zero, and the
vector `[0]` of length 1: `n / Reff = 0`, so `cutoff_ind = ceil(min(0.2, 0)) - 1 = -1`, below
zero; the position `n - cutoff_ind - 1 = 1` is outside the sorted vector of one pair, and the
split is undefined. -/
theorem cutoffInd_infinite_Reff :
    lt (fin 0) (pinf : Dbl ℝ) = true ∧
    cutoffInd (CMath.mk Real.exp Real.log (fun x => Real.log (1 + x))
      (fun x => Real.exp x - 1) Real.sqrt) ([fin 0] : List (Dbl ℝ)).length pinf = some (-1) ∧
    (sortPairs (List.zip (([fin 0] : List (Dbl ℝ)).map (fun w => w - fin 0))
      (List.range 1)))[1]? = none ∧
    psislwSplit (CMath.mk Real.exp Real.log (fun x => Real.log (1 + x))
      (fun x => Real.exp x - 1) Real.sqrt) ([fin 0] : List (Dbl ℝ)) pinf = none := by
  have hc : cutoffInd (CMath.mk Real.exp Real.log (fun x => Real.log (1 + x))
      (fun x => Real.exp x - 1) Real.sqrt) 1 (pinf : Dbl ℝ) = some (-1) := by
    have h1 : (ofNat 1 / pinf : Dbl ℝ) = fin 0 := rfl
    have h2 : sqrt (CMath.mk Real.exp Real.log (fun x => Real.log (1 + x))
        (fun x => Real.exp x - 1) Real.sqrt) (fin (0 : ℝ)) = fin 0 := by
      simp [Dbl.sqrt]
    have h3 : Dbl.min (fin (1 / 5) * ofNat 1) (fin 3 * fin (0 : ℝ)) = fin 0 := by
      simp [Dbl.min, ofNat]
    have h5 : ⌈(-1 : ℝ)⌉ = -1 := by
      rw [show (-1 : ℝ) = ((-1 : ℤ) : ℝ) by norm_num, Int.ceil_intCast]
    have h4 : toInt (ceil (fin (0 : ℝ)) - fin 1) = some (-1) := by
      simp only [ceil, toInt, Dbl.fin_sub_fin, Int.ceil_zero, Int.cast_zero, zero_sub]
      rw [if_neg (by norm_num), h5]
    simp only [cutoffInd, h1, h2, h3, h4]
  refine ⟨rfl, hc, rfl, ?_⟩
  simp only [psislwSplit, List.length_singleton, hc, maxElement, List.foldl_nil,
    Option.bind_eq_bind, Option.some_bind, List.map_cons, List.map_nil]
  rfl

end TailSplit

/-! ## The domain of `log1p` in `gpdfitnew` -/

section LogDomain

/-- The grid for a finite non-zero `denom` and maximum, as a list of real numbers. -/
theorem gridCandidates_fin (M : CMath ℝ) (hM : M.Exact) (m : ℕ) (d xm : ℝ) (hd : d ≠ 0)
    (hxm : xm ≠ 0) :
    gridCandidates M m (fin d) (fin xm)
      = ((List.range m).map (fun j : ℕ =>
          (1 - Real.sqrt (m / (((j + 1 : ℕ) : ℝ) - 1 / 2))) / d + 1 / xm)).map fin := by
  apply List.ext_getElem?
  intro j
  by_cases hj : j < m
  · rw [gridCandidates_getElem M hM m d xm hd hxm j hj, List.getElem?_map, List.getElem?_map,
      List.getElem?_range hj]
    rfl
  · rw [List.getElem?_eq_none (by rw [gridCandidates_length]; omega),
      List.getElem?_eq_none (by
        rw [List.length_map, List.length_map, List.length_range]
        omega)]

/-- Every candidate lies strictly below `1 / xmax`: the first summand is negative. -/
theorem candidate_lt (m j : ℕ) (hj : j < m) (xq xmax : ℝ) (hxq : 0 < xq) :
    (1 - Real.sqrt (m / (((j + 1 : ℕ) : ℝ) - 1 / 2))) / (3 * xq) + 1 / xmax < 1 / xmax := by
  have hden : (0 : ℝ) < ((j + 1 : ℕ) : ℝ) - 1 / 2 := by
    push_cast
    have : (0 : ℝ) ≤ j := Nat.cast_nonneg j
    linarith
  have hratio : (1 : ℝ) < (m : ℝ) / (((j + 1 : ℕ) : ℝ) - 1 / 2) := by
    rw [lt_div_iff₀ hden]
    have : ((j + 1 : ℕ) : ℝ) ≤ m := by exact_mod_cast hj
    linarith
  have hsq : 1 < Real.sqrt ((m : ℝ) / (((j + 1 : ℕ) : ℝ) - 1 / 2)) := by
    rw [Real.lt_sqrt (by norm_num)]
    simpa using hratio
  have hfirst : (1 - Real.sqrt ((m : ℝ) / (((j + 1 : ℕ) : ℝ) - 1 / 2))) / (3 * xq) < 0 :=
    div_neg_of_neg_of_pos (by linarith) (by positivity)
  linarith

/-- A number below `1 / xmax` times a positive sample value that is at most `xmax` is
below one. -/
theorem mul_lt_one_of_lt_inv (b xmax x : ℝ) (hx0 : 0 < x) (hx : x ≤ xmax)
    (hb : b < 1 / xmax) : b * x < 1 := by
  have hxmax : 0 < xmax := lt_of_lt_of_le hx0 hx
  by_cases hb0 : b ≤ 0
  · have := mul_nonpos_of_nonpos_of_nonneg hb0 (le_of_lt hx0)
    linarith
  · have hbpos : 0 < b := not_le.1 hb0
    have h1 : b * x ≤ b * xmax := mul_le_mul_of_nonneg_left hx (le_of_lt hbpos)
    have h2 : b * xmax < 1 := by
      rw [lt_div_iff₀ hxmax] at hb
      exact hb
    linarith

theorem convex_sum_le (c : ℝ) : ∀ (βs vs : List ℝ), vs.length = βs.length →
    (∀ β ∈ βs, β < c) → (∀ v ∈ vs, 0 ≤ v) →
    (List.zipWith (· * ·) βs vs).sum ≤ c * vs.sum
  | [], [], _, _, _ => by simp
  | [], _ :: _, h, _, _ => by simp at h
  | _ :: _, [], h, _, _ => by simp at h
  | β :: βs, v :: vs, h, hβ, hv => by
    have ih := convex_sum_le c βs vs (by simpa using h)
      (fun b hb => hβ b (List.mem_cons_of_mem _ hb))
      (fun w hw => hv w (List.mem_cons_of_mem _ hw))
    have h1 := hβ β (List.mem_cons_self _ _)
    have h2 := hv v (List.mem_cons_self _ _)
    simp only [List.zipWith_cons_cons, List.sum_cons]
    nlinarith [mul_nonneg (sub_nonneg.2 (le_of_lt h1)) h2]

/-- A combination of numbers below `c` with non-negative weights of positive sum is below
`c` times the sum of the weights. -/
theorem convex_sum_lt (c : ℝ) : ∀ (βs vs : List ℝ), vs.length = βs.length →
    (∀ β ∈ βs, β < c) → (∀ v ∈ vs, 0 ≤ v) → 0 < vs.sum →
    (List.zipWith (· * ·) βs vs).sum < c * vs.sum
  | [], [], _, _, _, hs => by simp at hs
  | [], _ :: _, h, _, _, _ => by simp at h
  | _ :: _, [], h, _, _, _ => by simp at h
  | β :: βs, v :: vs, h, hβ, hv, hs => by
    have hle := convex_sum_le c βs vs (by simpa using h)
      (fun b hb => hβ b (List.mem_cons_of_mem _ hb))
      (fun w hw => hv w (List.mem_cons_of_mem _ hw))
    have h1 := hβ β (List.mem_cons_self _ _)
    have h2 := hv v (List.mem_cons_self _ _)
    simp only [List.zipWith_cons_cons, List.sum_cons] at hs ⊢
    rcases lt_or_eq_of_le h2 with hpos | hzero
    · nlinarith [mul_pos (sub_pos.2 h1) hpos]
    · have ih := convex_sum_lt c βs vs (by simpa using h)
        (fun b hb => hβ b (List.mem_cons_of_mem _ hb))
        (fun w hw => hv w (List.mem_cons_of_mem _ hw)) (by linarith)
      rw [← hzero]
      linarith

/-- The accumulation of the posterior mean on finite candidates and weights. -/
theorem foldl_mul_add_fin (βs vs : List ℝ) (a : ℝ) :
    (List.zip (βs.map fin) (vs.map fin)).foldl
        (fun (b : Dbl ℝ) (q : Dbl ℝ × Dbl ℝ) => b + q.1 * q.2) (fin a)
      = fin (a + (List.zipWith (· * ·) βs vs).sum) := by
  induction βs generalizing vs a with
  | nil => simp
  | cons β βs ih =>
    cases vs with
    | nil => simp
    | cons v vs =>
      simp only [List.map_cons, List.zip_cons_cons, List.foldl_cons, Dbl.fin_mul_fin,
        Dbl.fin_add_fin, List.zipWith_cons_cons, List.sum_cons]
      rw [ih]
      congr 1
      ring

/-- The pruning loop on finite weights and candidates keeps the pairs whose weight is not
below `10 * epsilon`. -/
theorem pruneLoop_fin (ws βs : List ℝ) (hlen : βs.length = ws.length) :
    pruneLoop 0 (ws.map fin) (βs.map fin)
      = ((((List.zip ws βs).filter
            (fun q => !(lt (fin q.1 : Dbl ℝ) (fin 10 * epsilon)))).map Prod.fst).map fin,
         (((List.zip ws βs).filter
            (fun q => !(lt (fin q.1 : Dbl ℝ) (fin 10 * epsilon)))).map Prod.snd).map fin) := by
  rw [pruneLoop_zero _ _ (by rw [List.length_map, List.length_map]; exact hlen), pruneFilter,
    List.unzip_eq_map, List.zip_map, List.filter_map]
  simp only [List.map_map]
  rfl

/-- The posterior mean for finite positive weights and finite candidates: a combination of
candidates with non-negative weights that sum to one, or zero when every weight is pruned. -/
theorem posteriorMean_fin (ws βs : List ℝ) (hlen : βs.length = ws.length)
    (hpos : ∀ w ∈ ws, 0 < w) :
    ∃ β2 v2 : List ℝ, (∀ β ∈ β2, β ∈ βs) ∧ v2.length = β2.length ∧ (∀ v ∈ v2, 0 ≤ v) ∧
      (v2 = [] ∨ v2.sum = 1) ∧
      posteriorMean (ws.map fin) (βs.map fin) = fin ((List.zipWith (· * ·) β2 v2).sum) := by
  generalize hps : (List.zip ws βs).filter
      (fun q => !(lt (fin q.1 : Dbl ℝ) (fin 10 * epsilon))) = ps
  have hprune := pruneLoop_fin ws βs hlen
  rw [hps] at hprune
  have hmem : ∀ q ∈ ps, q.1 ∈ ws ∧ q.2 ∈ βs := by
    intro q hq
    rw [← hps] at hq
    exact List.of_mem_zip (a := q.1) (b := q.2) (List.mem_of_mem_filter hq)
  have hw2pos : ∀ w ∈ ps.map Prod.fst, 0 < w := by
    intro w hw
    obtain ⟨q, hq, rfl⟩ := List.mem_map.1 hw
    exact hpos _ (hmem q hq).1
  have hβ2 : ∀ β ∈ ps.map Prod.snd, β ∈ βs := by
    intro β hβ
    obtain ⟨q, hq, rfl⟩ := List.mem_map.1 hβ
    exact (hmem q hq).2
  by_cases hnil : ps = []
  · refine ⟨[], [], by simp, rfl, by simp, Or.inl rfl, ?_⟩
    unfold posteriorMean
    rw [hprune, hnil]
    rfl
  · have hne : ps.map Prod.fst ≠ [] := by simpa using hnil
    have hsum : 0 < (ps.map Prod.fst).sum := sum_pos_of_forall_pos _ hne hw2pos
    refine ⟨ps.map Prod.snd, (ps.map Prod.fst).map (fun w => w / (ps.map Prod.fst).sum), hβ2,
      by simp, ?_, Or.inr (sum_map_div_self _ hsum), ?_⟩
    · intro v hv
      obtain ⟨w, hw, rfl⟩ := List.mem_map.1 hv
      exact div_nonneg (le_of_lt (hw2pos w hw)) (le_of_lt hsum)
    · unfold posteriorMean
      rw [hprune]
      show (List.zip ((ps.map Prod.snd).map fin)
        (normaliseWeights ((ps.map Prod.fst).map fin))).foldl _ (fin 0) = _
      rw [normaliseWeights_fin _ hsum, foldl_mul_add_fin, zero_add]

/-- Adding NaN gives NaN. -/
theorem add_nan (x : Dbl ℝ) : x + nan = nan := by
  cases x <;> rfl

theorem mul_nan (x : Dbl ℝ) : x * nan = nan := by
  cases x <;> rfl

theorem foldl_add_nan {β : Type} (f : β → Dbl ℝ) (l : List β) :
    l.foldl (fun s y => s + f y) nan = nan := by
  induction l with
  | nil => rfl
  | cons y l ih =>
    rw [List.foldl_cons]
    exact ih

/-- A sum that meets a NaN summand is NaN. -/
theorem foldl_add_of_nan {β : Type} (f : β → Dbl ℝ) (l : List β) (a : Dbl ℝ)
    (h : ∃ y ∈ l, f y = nan) : l.foldl (fun s y => s + f y) a = nan := by
  induction l generalizing a with
  | nil =>
    obtain ⟨y, hy, -⟩ := h
    exact absurd hy (List.not_mem_nil _)
  | cons z l ih =>
    rw [List.foldl_cons]
    obtain ⟨y, hy, hfy⟩ := h
    rcases List.mem_cons.1 hy with h1 | h1
    · rw [← h1, hfy, add_nan]
      exact foldl_add_nan f l
    · exact ih _ ⟨y, h1, hfy⟩

/-- One NaN score makes every weight NaN. -/
theorem gridWeights_of_nan (M : CMath ℝ) (L : List (Dbl ℝ)) (h : nan ∈ L) :
    gridWeights M L = List.replicate L.length nan := by
  unfold gridWeights
  rw [List.eq_replicate_iff]
  refine ⟨List.length_map _ _, ?_⟩
  intro w hw
  obtain ⟨Li, -, rfl⟩ := List.mem_map.1 hw
  rw [foldl_add_of_nan (fun Lj => exp M (Lj - Li)) L (fin 0) ⟨nan, h, rfl⟩]
  rfl

/-- With NaN weights the posterior mean is NaN. -/
theorem posteriorMean_of_nan (n : ℕ) (hn : 0 < n) (bs : List (Dbl ℝ)) (hlen : bs.length = n) :
    posteriorMean (List.replicate n nan) bs = nan := by
  have hkeep : pruneLoop 0 (List.replicate n (nan : Dbl ℝ)) bs = (List.replicate n nan, bs) := by
    rw [pruneLoop_zero _ _ (by rw [List.length_replicate]; exact hlen), pruneFilter]
    have hall : (List.zip (List.replicate n (nan : Dbl ℝ)) bs).filter
        (fun q => !(lt q.1 (fin 10 * epsilon))) = List.zip (List.replicate n nan) bs := by
      rw [List.filter_eq_self]
      intro q hq
      have := List.eq_of_mem_replicate (List.of_mem_zip (a := q.1) (b := q.2) hq).1
      rw [this]
      rfl
    rw [hall, List.unzip_zip (by rw [List.length_replicate]; omega)]
  have hsum : (List.replicate n (nan : Dbl ℝ)).foldl (fun s wi => s + wi) (fin 0) = nan := by
    apply foldl_add_of_nan (fun wi : Dbl ℝ => wi)
    exact ⟨nan, List.mem_replicate.2 ⟨by omega, rfl⟩, rfl⟩
  have hnorm : normaliseWeights (List.replicate n (nan : Dbl ℝ)) = List.replicate n nan := by
    unfold normaliseWeights
    simp only [hsum, List.map_replicate]
    rfl
  unfold posteriorMean
  rw [hkeep]
  show (List.zip bs (normaliseWeights (List.replicate n nan))).foldl _ (fin 0) = nan
  rw [hnorm]
  apply foldl_add_of_nan (fun q : Dbl ℝ × Dbl ℝ => q.1 * q.2)
  cases bs with
  | nil =>
    simp only [List.length_nil] at hlen
    omega
  | cons b bs =>
    obtain ⟨k, rfl⟩ := Nat.exists_eq_succ_of_ne_zero (by omega : n ≠ 0)
    exact ⟨(b, nan), by simp [List.replicate_succ], mul_nan b⟩

/-- A candidate that is exactly zero makes its score NaN, and with it the posterior mean. -/
theorem posteriorMean_of_zero_candidate (M : CMath ℝ) (hM : M.Exact) (xs : List ℝ)
    (hne : xs ≠ []) (hpos : ∀ x ∈ xs, 0 < x) (bs : List (Dbl ℝ)) (h0 : fin 0 ∈ bs) :
    posteriorMean (gridWeights M (gridScores M (xs.map fin) bs)) bs = nan := by
  obtain ⟨κ, -, -, h2⟩ := score_of_candidate M hM xs hne hpos 0 (fun x _ => by simp)
  have hnan : nan ∈ gridScores M (xs.map fin) bs := by
    rw [gridScores_eq_map]
    exact List.mem_map.2 ⟨fin 0, h0, (h2 rfl).2⟩
  have hlen : (gridScores M (xs.map fin) bs).length = bs.length := by
    rw [gridScores_eq_map, List.length_map]
  have hpos2 : 0 < bs.length := List.length_pos_of_mem h0
  rw [gridWeights_of_nan M _ hnan, hlen]
  exact posteriorMean_of_nan bs.length hpos2 bs rfl

/-- With the posterior mean NaN the fit is `(NaN, NaN)`. -/
theorem fitFromMean_nan (M : CMath ℝ) (x : List (Dbl ℝ)) (hne : x ≠ []) :
    fitFromMean M x nan = (nan, nan) := by
  have hk : meanLog1p M x (-nan) = nan := by
    unfold meanLog1p
    obtain ⟨a, l, rfl⟩ := List.exists_cons_of_ne_nil hne
    rw [foldl_add_of_nan (fun xj => log1p M (-nan * xj)) (a :: l) (fin 0)
      ⟨a, List.mem_cons_self _ _, by cases a <;> rfl⟩]
    rfl
  unfold fitFromMean
  simp only [hk]
  rfl

/-- The sample of sixteen ascending positive values with `x[3] = 1` and `x[15] = 3`:
the grid has 34 candidates and candidate 9 is exactly zero. -/
theorem grid_zero_candidate (M : CMath ℝ) (hM : M.Exact) :
    ∃ bs, gpdGrid M (([1, 1, 1, 1, 2, 2, 2, 2, 2, 2, 2, 2, 2, 2, 2, 3] : List ℝ).map fin)
      = some bs ∧ bs[8]? = some (fin 0) := by
  generalize hxs : ([1, 1, 1, 1, 2, 2, 2, 2, 2, 2, 2, 2, 2, 2, 2, 3] : List ℝ) = xs
  have hlen : xs.length = 16 := by rw [← hxs]; rfl
  obtain ⟨xq, xmax, hq, hmax, hg⟩ := gpdGrid_fin M hM xs (by omega)
  have hsqrt : Real.sqrt (16 : ℝ) = 4 := by
    rw [show (16 : ℝ) = 4 ^ 2 by norm_num, Real.sqrt_sq (by norm_num)]
  have hfl : ⌊(16 : ℝ) / 4 + 1 / 2⌋ = 4 := by
    rw [Int.floor_eq_iff]
    constructor <;> norm_num
  rw [hlen] at hq hmax hg
  push_cast at hq hg
  rw [hfl] at hq
  rw [hsqrt] at hg
  have hxq : xq = 1 := by
    rw [← hxs] at hq
    exact (Option.some.inj hq).symm
  have hxmax : xmax = 3 := by
    rw [← hxs] at hmax
    exact (Option.some.inj hmax).symm
  subst hxq hxmax
  have hm : (30 + ⌊(4 : ℝ)⌋).toNat = 34 := by
    rw [show (4 : ℝ) = ((4 : ℤ) : ℝ) by norm_num, Int.floor_intCast]
    rfl
  rw [hm] at hg
  have hb := gridCandidates_getElem M hM 34 (3 * 1) 3 (by norm_num) (by norm_num) 8
    (by norm_num)
  have hval : (1 - Real.sqrt (((34 : ℕ) : ℝ) / (((8 + 1 : ℕ) : ℝ) - 1 / 2))) / (3 * 1) + 1 / 3
      = (0 : ℝ) := by
    have : ((34 : ℕ) : ℝ) / (((8 + 1 : ℕ) : ℝ) - 1 / 2) = 2 ^ 2 := by norm_num
    rw [this, Real.sqrt_sq (by norm_num)]
    norm_num
  rw [hval] at hb
  exact ⟨_, hg, hb⟩

/-- Claim C22 (counterexample).  For the ascending sample of sixteen positive values with
`x[3] = 1` and `x[15] = 3`, candidate 9 of the grid is exactly zero; its score is NaN, every
weight is NaN, and the posterior mean `b` is NaN.  The arguments `-b * x[j]` of the last
`log1p` are NaN, not greater than `-1`, and `gpdfitnew` returns `(NaN, NaN)`. -/
theorem gpdfitnew_posterior_mean_nan :
    ∃ bs, gpdGrid (CMath.mk Real.exp Real.log (fun x => Real.log (1 + x))
        (fun x => Real.exp x - 1) Real.sqrt) (([1, 1, 1, 1, 2, 2, 2, 2, 2, 2, 2, 2, 2, 2, 2, 3] : List ℝ).map fin) = some bs ∧
      bs[8]? = some (fin 0) ∧
      posteriorMean (gridWeights (CMath.mk Real.exp Real.log (fun x => Real.log (1 + x))
        (fun x => Real.exp x - 1) Real.sqrt) (gridScores (CMath.mk Real.exp Real.log (fun x => Real.log (1 + x))
        (fun x => Real.exp x - 1) Real.sqrt) (([1, 1, 1, 1, 2, 2, 2, 2, 2, 2, 2, 2, 2, 2, 2, 3] : List ℝ).map fin) bs)) bs = nan ∧
      (∀ x : Dbl ℝ, lt (fin (-1))
        (-(posteriorMean (gridWeights (CMath.mk Real.exp Real.log (fun x => Real.log (1 + x))
        (fun x => Real.exp x - 1) Real.sqrt) (gridScores (CMath.mk Real.exp Real.log (fun x => Real.log (1 + x))
        (fun x => Real.exp x - 1) Real.sqrt) (([1, 1, 1, 1, 2, 2, 2, 2, 2, 2, 2, 2, 2, 2, 2, 3] : List ℝ).map fin) bs)) bs) * x) = false) ∧
      gpdfitnew (CMath.mk Real.exp Real.log (fun x => Real.log (1 + x))
        (fun x => Real.exp x - 1) Real.sqrt) (([1, 1, 1, 1, 2, 2, 2, 2, 2, 2, 2, 2, 2, 2, 2, 3] : List ℝ).map fin) = some (nan, nan) := by
  have hM : (CMath.mk Real.exp Real.log (fun x => Real.log (1 + x))
        (fun x => Real.exp x - 1) Real.sqrt).Exact :=
    ⟨fun _ => rfl, fun _ => rfl, fun _ => rfl, fun _ => rfl, fun _ => rfl⟩
  generalize hMd : (CMath.mk Real.exp Real.log (fun x => Real.log (1 + x))
        (fun x => Real.exp x - 1) Real.sqrt) = M at hM
  obtain ⟨bs, hg, hb⟩ := grid_zero_candidate M hM
  have hpm := posteriorMean_of_zero_candidate M hM
    [1, 1, 1, 1, 2, 2, 2, 2, 2, 2, 2, 2, 2, 2, 2, 3] (by simp)
    (by
      intro x hx
      simp only [List.mem_cons, List.mem_singleton, List.not_mem_nil, or_false] at hx
      rcases hx with h | h | h | h | h | h | h | h | h | h | h | h | h | h | h | h <;>
        rw [h] <;> norm_num)
    bs (List.getElem?_mem hb)
  refine ⟨bs, hg, hb, hpm, ?_, ?_⟩
  · intro x
    rw [hpm]
    rfl
  · rw [gpdfitnew_stages, hg, Option.map_some', hpm, fitFromMean_nan M _ (by simp)]

end LogDomain

/-! ## The rank order of the smoothed weights -/

section RankOrder

/-- The order facts of the split of a vector of finite values: the tail is ascending, every
tail value is at least the cutoff element `y0`, every value outside the tail is at most
`y0`, and `y0` is at most zero. -/
theorem split_order (M : CMath ℝ) (hM : M.Exact) (xs : List ℝ) (Reff : Dbl ℝ) (c : ℤ)
    (hc : cutoffInd M xs.length Reff = some c) (h0 : 0 ≤ c) :
    ∃ (m : ℝ) (s : Split ℝ) (y0 : ℝ), m ∈ xs ∧ (∀ x ∈ xs, x ≤ m) ∧
      psislwSplit M (xs.map fin) Reff = some s ∧
      s.lw = xs.map (fun x => fin (x - m)) ∧
      s.tail.length = c.toNat ∧
      s.xcutoff = fin (Max.max y0 (Real.log ((1 / 2) ^ 1074))) ∧ y0 ≤ 0 ∧
      (s.tail.map Prod.snd).Nodup ∧
      (∀ q ∈ s.tail, ∃ w : ℝ, q.1 = fin w ∧ xs[q.2]? = some (w + m) ∧ y0 ≤ w) ∧
      (∀ (j j2 : ℕ) (q q2 : Dbl ℝ × ℕ) (w w2 : ℝ), j ≤ j2 → s.tail[j]? = some q →
        s.tail[j2]? = some q2 → q.1 = fin w → q2.1 = fin w2 → w ≤ w2) ∧
      (∀ (i : ℕ) (x : ℝ), xs[i]? = some x → i ∉ s.tail.map Prod.snd → x - m ≤ y0) := by
  obtain ⟨m, s, vc, hmem, hmax, hs, hlw, htail, hlen, hcn, hvc, hxc⟩ :=
    psislwSplit_cutoff M xs Reff c hc h0
  have hlenlw : s.lw.length = xs.length := by rw [hlw, List.length_map]
  have hfinite : ∀ q ∈ sortPairs (List.zip s.lw (List.range xs.length)),
      ∃ y : ℝ, q.1 = fin y ∧ xs[q.2]? = some (y + m) := by
    intro q hq
    have h1 : q ∈ List.zip s.lw (List.range s.lw.length) := by
      rw [hlenlw]
      exact (sortPairs_perm _).mem_iff.1 hq
    obtain ⟨a, i⟩ := q
    have h2 := zip_range_getElem s.lw a i h1
    rw [hlw, List.getElem?_map] at h2
    cases hx : xs[i]? with
    | none =>
      rw [hx] at h2
      exact absurd h2 (by simp)
    | some x =>
      rw [hx] at h2
      simp only [Option.map_some', Option.some.injEq] at h2
      exact ⟨x - m, h2.symm, by simp⟩
  have hsorted := sortPairs_sorted (List.zip s.lw (List.range xs.length))
    (fun q hq => by
      obtain ⟨y, hy, -⟩ := hfinite q ((sortPairs_perm _).mem_iff.2 hq)
      exact ⟨y, hy⟩)
  have hvlen : (sortPairs (List.zip s.lw (List.range xs.length))).length = xs.length := by
    rw [sortPairs_length, List.length_zip, hlenlw, List.length_range, Nat.min_self]
  obtain ⟨y0, hy0, hy0x⟩ := hfinite vc (List.getElem?_mem hvc)
  have hy0le : y0 ≤ 0 := by
    have := hmax _ (List.getElem?_mem hy0x)
    linarith
  obtain ⟨hl, -⟩ := log_minPositive M hM
  have hxc2 : s.xcutoff = fin (Max.max y0 (Real.log ((1 / 2) ^ 1074))) := by
    rw [hxc, hy0, hl]
    simp only [Dbl.max, Dbl.lt_fin_fin, decide_eq_true_eq]
    by_cases h : y0 < Real.log ((1 / 2) ^ 1074)
    · rw [if_pos h, max_eq_right (le_of_lt h)]
    · rw [if_neg h, max_eq_left (not_lt.1 h)]
  have hnd : (s.tail.map Prod.snd).Nodup := by
    rw [htail, ← hlenlw]
    exact tail_indices_nodup s.lw _
  have hcv : xs.length - c.toNat - 1
      < (sortPairs (List.zip s.lw (List.range xs.length))).length := by
    rw [hvlen]
    omega
  have hvc2 : (sortPairs (List.zip s.lw (List.range xs.length)))[xs.length - c.toNat - 1]
      = vc := by
    rw [List.getElem?_eq_getElem hcv] at hvc
    exact Option.some.inj hvc
  -- an element of the tail by its position in the sorted vector
  have hpos : ∀ (j : ℕ) (q : Dbl ℝ × ℕ), s.tail[j]? = some q →
      ∃ h : xs.length - c.toNat + j
          < (sortPairs (List.zip s.lw (List.range xs.length))).length,
        (sortPairs (List.zip s.lw (List.range xs.length)))[xs.length - c.toNat + j] = q := by
    intro j q hq
    rw [htail, List.getElem?_drop] at hq
    have hj : xs.length - c.toNat + j
        < (sortPairs (List.zip s.lw (List.range xs.length))).length := by
      by_contra hcon
      rw [List.getElem?_eq_none (by omega)] at hq
      exact absurd hq (by simp)
    rw [List.getElem?_eq_getElem hj] at hq
    exact ⟨hj, Option.some.inj hq⟩
  refine ⟨m, s, y0, hmem, hmax, hs, hlw, hlen, hxc2, hy0le, hnd, ?_, ?_, ?_⟩
  · intro q hq
    obtain ⟨j, hj⟩ := List.mem_iff_getElem?.1 hq
    obtain ⟨hjv, hqv⟩ := hpos j q hj
    obtain ⟨w, hw, hxi⟩ := hfinite q (by rw [← hqv]; exact List.getElem_mem hjv)
    have hle := (List.pairwise_iff_getElem.1 hsorted) (xs.length - c.toNat - 1)
      (xs.length - c.toNat + j) hcv hjv (by omega)
    rw [hvc2, hqv, hy0, hw, Dbl.le_fin_fin, decide_eq_true_eq] at hle
    exact ⟨w, hw, hxi, hle⟩
  · intro j j2 q q2 w w2 hjj hq hq2 hw hw2
    obtain ⟨hjv, hqv⟩ := hpos j q hq
    obtain ⟨hjv2, hqv2⟩ := hpos j2 q2 hq2
    rcases Nat.lt_or_ge j j2 with hlt | hge
    · have hle := (List.pairwise_iff_getElem.1 hsorted) (xs.length - c.toNat + j)
        (xs.length - c.toNat + j2) hjv hjv2 (by omega)
      rw [hqv, hqv2, hw, hw2, Dbl.le_fin_fin, decide_eq_true_eq] at hle
      exact hle
    · have hjeq : j = j2 := by omega
      subst hjeq
      rw [hq] at hq2
      have : q = q2 := Option.some.inj hq2
      subst this
      rw [hw] at hw2
      exact le_of_eq (Dbl.fin.inj hw2)
  · intro i x hx hi
    have hin : i < xs.length := by
      by_contra hcon
      rw [List.getElem?_eq_none (by omega)] at hx
      exact absurd hx (by simp)
    have hz : (fin (x - m), i) ∈ List.zip s.lw (List.range xs.length) := by
      apply List.mem_iff_getElem?.2
      refine ⟨i, List.getElem?_zip_eq_some.2 ⟨?_, List.getElem?_range hin⟩⟩
      rw [hlw, List.getElem?_map, hx]
      rfl
    have hv := (sortPairs_perm _).mem_iff.2 hz
    obtain ⟨p, hp, hpv⟩ := List.getElem_of_mem hv
    by_cases hpt : xs.length - c.toNat ≤ p
    · exfalso
      apply hi
      have : (fin (x - m), i) ∈ s.tail := by
        rw [htail]
        apply List.mem_iff_getElem?.2
        refine ⟨p - (xs.length - c.toNat), ?_⟩
        rw [List.getElem?_drop, show xs.length - c.toNat + (p - (xs.length - c.toNat)) = p by
          omega, List.getElem?_eq_getElem hp, hpv]
      exact List.mem_map.2 ⟨_, this, rfl⟩
    · by_cases hpe : p = xs.length - c.toNat - 1
      · subst hpe
        rw [hvc2] at hpv
        rw [hpv] at hy0
        exact le_of_eq (Dbl.fin.inj hy0)
      · have hle := (List.pairwise_iff_getElem.1 hsorted) p (xs.length - c.toNat - 1) hp hcv
          (by omega)
        rw [hvc2, hpv, hy0, Dbl.le_fin_fin, decide_eq_true_eq] at hle
        exact hle

/-- The entries of the smoothed and truncated vector: at the recorded index of the tail
element of rank `j` the truncated logarithm of the quantile `j`, elsewhere the shifted
input. -/
theorem smoothTail_entries (M : CMath ℝ) (xs : List ℝ) (m : ℝ) (s : Split ℝ)
    (k sigma : Dbl ℝ) (hlw : s.lw = xs.map (fun x => fin (x - m)))
    (hn2 : s.tail.length ≠ 0) (hnd : (s.tail.map Prod.snd).Nodup)
    (hidx : ∀ q ∈ s.tail, q.2 < xs.length) :
    (∀ (j : ℕ) (q : Dbl ℝ × ℕ), s.tail[j]? = some q →
      ∃ qj, (gpinv M ((List.range s.tail.length).map
          (fun t : ℕ => fin (((t : ℝ) + 1 / 2) / s.tail.length))) k sigma)[j]? = some qj ∧
        (smoothTail M s k sigma)[q.2]?
          = some (Dbl.min (log M (qj + exp M s.xcutoff)) (fin 0))) ∧
    (∀ (i : ℕ) (x : ℝ), xs[i]? = some x → i ∉ s.tail.map Prod.snd →
      (smoothTail M s k sigma)[i]? = some (Dbl.min (fin (x - m)) (fin 0))) := by
  have hlenlw : s.lw.length = xs.length := by rw [hlw, List.length_map]
  have hsti : stiLoop s.tail.length s.tail.length (fin (1 / 2))
      = (List.range s.tail.length).map
          (fun t : ℕ => (fin (((t : ℝ) + 1 / 2) / s.tail.length) : Dbl ℝ)) :=
    stiLoop_eq_map s.tail.length hn2 s.tail.length (1 / 2)
  generalize hqq : gpinv M ((List.range s.tail.length).map
      (fun t : ℕ => (fin (((t : ℝ) + 1 / 2) / s.tail.length) : Dbl ℝ))) k sigma = qq
  have hqqlen : qq.length = s.tail.length := by
    rw [← hqq, gpinv_length, List.length_map, List.length_range]
  generalize hw : (List.zip s.tail qq).foldl
      (fun lw (vq : (Dbl ℝ × ℕ) × Dbl ℝ) => lw.set vq.1.2 (log M (vq.2 + exp M s.xcutoff)))
      s.lw = written
  have hsmooth : smoothTail M s k sigma = written.map (fun xx => Dbl.min xx (fin 0)) := by
    unfold smoothTail
    simp only [hsti, hqq, hw]
  have hmapf : (List.zip s.tail qq).map (fun vq : (Dbl ℝ × ℕ) × Dbl ℝ => vq.1.2)
      = s.tail.map Prod.snd := by
    have : (fun vq : (Dbl ℝ × ℕ) × Dbl ℝ => vq.1.2) = Prod.snd ∘ Prod.fst := rfl
    rw [this, ← List.map_map, List.map_fst_zip _ _ (by rw [hqqlen])]
  constructor
  · intro j q hq
    have hj : j < s.tail.length := by
      by_contra hcon
      rw [List.getElem?_eq_none (by omega)] at hq
      exact absurd hq (by simp)
    have hjq : j < qq.length := by rw [hqqlen]; exact hj
    refine ⟨qq[j], List.getElem?_eq_getElem hjq, ?_⟩
    have hmemz : (q, qq[j]) ∈ List.zip s.tail qq := by
      apply List.mem_iff_getElem?.2
      exact ⟨j, List.getElem?_zip_eq_some.2 ⟨hq, List.getElem?_eq_getElem hjq⟩⟩
    have hset := foldl_set_getElem (fun vq : (Dbl ℝ × ℕ) × Dbl ℝ => vq.1.2)
      (fun vq => log M (vq.2 + exp M s.xcutoff)) (List.zip s.tail qq) s.lw
      (by rw [hmapf]; exact hnd)
      (fun vq hvq => by
        rw [hlenlw]
        exact hidx vq.1 (List.of_mem_zip (a := vq.1) (b := vq.2) hvq).1)
      (q, qq[j]) hmemz
    rw [hw] at hset
    rw [hsmooth, List.getElem?_map, hset]
    rfl
  · intro i x hx hi
    have hkeep := foldl_set_getElem_of_not_mem (fun vq : (Dbl ℝ × ℕ) × Dbl ℝ => vq.1.2)
      (fun vq => log M (vq.2 + exp M s.xcutoff)) (List.zip s.tail qq) s.lw i
      (by rw [hmapf]; exact hi)
    rw [hw, hlw, List.getElem?_map, hx, Option.map_some'] at hkeep
    rw [hsmooth, List.getElem?_map, hkeep]
    rfl

/-- The quantile of the generalised Pareto distribution with positive shape and scale is
not negative and does not decrease in the probability. -/
theorem quantile_mono (kr sr : ℝ) (hk : 0 < kr) (hsr : 0 < sr) (p p2 : ℝ) (hp : 0 < p)
    (hpp : p ≤ p2) (hp2 : p2 < 1) :
    0 ≤ (Real.exp (-kr * Real.log (1 - p)) - 1) / kr * sr ∧
    (Real.exp (-kr * Real.log (1 - p)) - 1) / kr * sr
      ≤ (Real.exp (-kr * Real.log (1 - p2)) - 1) / kr * sr := by
  have hlog : Real.log (1 - p) < 0 := Real.log_neg (by linarith) (by linarith)
  have hlog2 : Real.log (1 - p2) ≤ Real.log (1 - p) :=
    Real.log_le_log (by linarith) (by linarith)
  have hpos : 0 < -kr * Real.log (1 - p) := by nlinarith
  have hexp : 1 < Real.exp (-kr * Real.log (1 - p)) := Real.one_lt_exp_iff.2 hpos
  have hmono : Real.exp (-kr * Real.log (1 - p)) ≤ Real.exp (-kr * Real.log (1 - p2)) := by
    apply Real.exp_le_exp.2
    nlinarith
  constructor
  · exact mul_nonneg (div_nonneg (by linarith) (le_of_lt hk)) (le_of_lt hsr)
  · apply mul_le_mul_of_nonneg_right _ (le_of_lt hsr)
    apply div_le_div_of_nonneg_right _ (le_of_lt hk)
    linarith

theorem getElem?_of_map_fin (zs : List ℝ) (i : ℕ) (t : ℝ)
    (h : (zs.map fin : List (Dbl ℝ))[i]? = some (fin t)) : zs[i]? = some t := by
  rw [List.getElem?_map] at h
  cases hz : zs[i]? with
  | none =>
    rw [hz] at h
    exact absurd h (by simp)
  | some y =>
    rw [hz, Option.map_some', Option.some.injEq] at h
    rw [Dbl.fin.inj h]

/-- Claim C23.  Smoothing preserves rank order.  For a vector of finite log weights whose tail
has more than four elements and every finite fit `k >= 1/3`, `sigma > 0`: the smoothed
vector is finite and, when `(k, sigma)` is the fit of the exceedances, its renormalisation
is the output of `psislw`.  The value substituted for the tail element of rank `j` is
`T_j = min(log(q_j + exp(xcutoff)), 0)` with `q_j` the quantile at `(j + 1/2) / n2`; the
`T_j` do not decrease in `j` and each is at least `xcutoff`; every element outside the tail
keeps its shifted value, which is at most `xcutoff`; and `lw_in[i] < lw_in[j]` implies
`lw_out[i] <= lw_out[j]`. -/
theorem psislw_rank_order (M : CMath ℝ) (hM : M.Exact) (xs : List ℝ) (Reff : Dbl ℝ) (c : ℤ)
    (hc : cutoffInd M xs.length Reff = some c) (h4 : 4 < c) :
    ∃ (m : ℝ) (s : Split ℝ) (xc : ℝ), m ∈ xs ∧ (∀ x ∈ xs, x ≤ m) ∧
      psislwSplit M (xs.map fin) Reff = some s ∧ 4 < s.tail.length ∧ s.xcutoff = fin xc ∧
      ∀ kr sr : ℝ, 1 / 3 ≤ kr → 0 < sr →
        ∃ (z : ℝ) (zs : List ℝ),
          smoothTail M s (fin kr) (fin sr) = zs.map fin ∧
          renormalize M (smoothTail M s (fin kr) (fin sr))
            = some (zs.map (fun y => fin (y - z))) ∧
          (gpdfitnew M (exceedances M s) = some (fin kr, fin sr) →
            psislw M (xs.map fin) Reff = some (fin kr, zs.map (fun y => fin (y - z)))) ∧
          (∀ (j : ℕ) (q : Dbl ℝ × ℕ), s.tail[j]? = some q →
            zs[q.2]? = some ((Min.min (Real.log ((Real.exp (-kr * Real.log (1 - ((j : ℝ) + 1 / 2) / s.tail.length)) - 1)
              / kr * sr + Real.exp xc)) 0))) ∧
          (∀ j j2 : ℕ, j ≤ j2 → j2 < s.tail.length → (Min.min (Real.log ((Real.exp (-kr * Real.log (1 - ((j : ℝ) + 1 / 2) / s.tail.length)) - 1)
              / kr * sr + Real.exp xc)) 0) ≤ (Min.min (Real.log ((Real.exp (-kr * Real.log (1 - ((j2 : ℝ) + 1 / 2) / s.tail.length)) - 1)
              / kr * sr + Real.exp xc)) 0)) ∧
          (∀ j : ℕ, j < s.tail.length → xc ≤ (Min.min (Real.log ((Real.exp (-kr * Real.log (1 - ((j : ℝ) + 1 / 2) / s.tail.length)) - 1)
              / kr * sr + Real.exp xc)) 0)) ∧
          (∀ (i : ℕ) (x : ℝ), xs[i]? = some x → i ∉ s.tail.map Prod.snd →
            zs[i]? = some (x - m) ∧ x - m ≤ xc) ∧
          (∀ (i j : ℕ) (xi xj oi oj : ℝ), xs[i]? = some xi → xs[j]? = some xj →
            (zs.map (fun y => (fin (y - z) : Dbl ℝ)))[i]? = some (fin oi) →
            (zs.map (fun y => (fin (y - z) : Dbl ℝ)))[j]? = some (fin oj) →
            xi < xj → oi ≤ oj) := by
  obtain ⟨m, s, y0, hmem, hmax, hs, hlw, hlen, hxc, hy0le, hnd, htailq, htsorted, hbody⟩ :=
    split_order M hM xs Reff c hc (by omega)
  have hlen4 : 4 < s.tail.length := by
    rw [hlen]
    omega
  have hn2 : s.tail.length ≠ 0 := by omega
  have hn2pos : (0 : ℝ) < s.tail.length := by exact_mod_cast Nat.pos_of_ne_zero hn2
  have hcm0 : Real.log ((1 / 2) ^ 1074) ≤ 0 :=
    Real.log_nonpos (by positivity) (pow_le_one₀ (by norm_num) (by norm_num))
  generalize hxcdef : Max.max y0 (Real.log ((1 / 2) ^ 1074)) = xc at hxc
  have hxc0 : xc ≤ 0 := by
    rw [← hxcdef]
    exact max_le hy0le hcm0
  have hy0xc : y0 ≤ xc := by
    rw [← hxcdef]
    exact le_max_left _ _
  have hidx : ∀ q ∈ s.tail, q.2 < xs.length := by
    intro q hq
    obtain ⟨w, -, hx, -⟩ := htailq q hq
    by_contra hcon
    rw [List.getElem?_eq_none (by omega)] at hx
    exact absurd hx (by simp)
  refine ⟨m, s, xc, hmem, hmax, hs, hlen4, hxc, ?_⟩
  intro kr sr hk hsr
  have hkr : 0 < kr := by linarith
  have hkabs : (1 / 2 : ℝ) ^ 52 ≤ |kr| := by
    rw [abs_of_pos hkr]
    have : (1 / 2 : ℝ) ^ 52 ≤ 1 / 3 := by norm_num
    linarith
  -- the probabilities lie strictly between 0 and 1
  have hprob : ∀ j : ℕ, j < s.tail.length →
      0 < ((j : ℝ) + 1 / 2) / s.tail.length ∧ ((j : ℝ) + 1 / 2) / s.tail.length < 1 := by
    intro j hj
    have hj2 : (j : ℝ) + 1 ≤ s.tail.length := by exact_mod_cast hj
    constructor
    · positivity
    · rw [div_lt_one hn2pos]
      linarith
  have hmonoQ : ∀ j j2 : ℕ, j ≤ j2 → j2 < s.tail.length →
      0 ≤ (Real.exp (-kr * Real.log (1 - ((j : ℝ) + 1 / 2) / s.tail.length)) - 1) / kr * sr ∧
      (Real.exp (-kr * Real.log (1 - ((j : ℝ) + 1 / 2) / s.tail.length)) - 1) / kr * sr
        ≤ (Real.exp (-kr * Real.log (1 - ((j2 : ℝ) + 1 / 2) / s.tail.length)) - 1)
          / kr * sr := by
    intro j j2 hjj hj2
    apply quantile_mono kr sr hkr hsr _ _ (hprob j (by omega)).1 _ (hprob j2 hj2).2
    apply div_le_div_of_nonneg_right _ (le_of_lt hn2pos)
    have : (j : ℝ) ≤ j2 := by exact_mod_cast hjj
    linarith
  have hTmono : ∀ j j2 : ℕ, j ≤ j2 → j2 < s.tail.length → (Min.min (Real.log ((Real.exp (-kr * Real.log (1 - ((j : ℝ) + 1 / 2) / s.tail.length)) - 1)
              / kr * sr + Real.exp xc)) 0) ≤ (Min.min (Real.log ((Real.exp (-kr * Real.log (1 - ((j2 : ℝ) + 1 / 2) / s.tail.length)) - 1)
              / kr * sr + Real.exp xc)) 0) := by
    intro j j2 hjj hj2
    obtain ⟨hq0, hq⟩ := hmonoQ j j2 hjj hj2
    have he := Real.exp_pos xc
    apply min_le_min _ (le_refl _)
    exact Real.log_le_log (by linarith) (by linarith)
  have hTxc : ∀ j : ℕ, j < s.tail.length → xc ≤ (Min.min (Real.log ((Real.exp (-kr * Real.log (1 - ((j : ℝ) + 1 / 2) / s.tail.length)) - 1)
              / kr * sr + Real.exp xc)) 0) := by
    intro j hj
    obtain ⟨hq0, -⟩ := hmonoQ j j (le_refl _) hj
    have he := Real.exp_pos xc
    apply le_min _ hxc0
    rw [Real.le_log_iff_exp_le (by linarith)]
    linarith
  obtain ⟨zs, hzs, hzlen, -⟩ := smoothTail_fin M hM xs Reff c s hc h4 hs kr sr hk hsr
  have hzne : zs ≠ [] := by
    intro h
    rw [h, List.length_nil] at hzlen
    have := cutoffInd_lt M xs.length Reff c hc (by omega)
    omega
  obtain ⟨z, hz⟩ := renormalize_fin M hM zs hzne
  obtain ⟨hent1, hent2⟩ := smoothTail_entries M xs m s (fin kr) (fin sr) hlw hn2 hnd hidx
  have htailval : ∀ (j : ℕ) (q : Dbl ℝ × ℕ), s.tail[j]? = some q → zs[q.2]? = some ((Min.min (Real.log ((Real.exp (-kr * Real.log (1 - ((j : ℝ) + 1 / 2) / s.tail.length)) - 1)
              / kr * sr + Real.exp xc)) 0)) := by
    intro j q hq
    have hj : j < s.tail.length := by
      by_contra hcon
      rw [List.getElem?_eq_none (by omega)] at hq
      exact absurd hq (by simp)
    obtain ⟨qj, hqj, hval⟩ := hent1 j q hq
    have hp : ((List.range s.tail.length).map
        (fun t : ℕ => (fin (((t : ℝ) + 1 / 2) / s.tail.length) : Dbl ℝ)))[j]?
        = some (fin (((j : ℝ) + 1 / 2) / s.tail.length)) := by
      rw [List.getElem?_map, List.getElem?_range hj]
      rfl
    rw [gpinv_interior_value M hM _ kr sr _ hsr hkabs j hp (hprob j hj).1 (hprob j hj).2,
      Option.some.injEq] at hqj
    obtain ⟨hq0, -⟩ := hmonoQ j j (le_refl _) hj
    have he := Real.exp_pos xc
    apply getElem?_of_map_fin
    rw [← hzs, hval, ← hqj, hxc]
    have h1 : ¬ ((Real.exp (-kr * Real.log (1 - ((j : ℝ) + 1 / 2) / s.tail.length)) - 1)
        / kr * sr + Real.exp xc < 0) := by linarith
    have h2 : ¬ ((Real.exp (-kr * Real.log (1 - ((j : ℝ) + 1 / 2) / s.tail.length)) - 1)
        / kr * sr + Real.exp xc = 0) := by
      intro h
      linarith
    simp only [Dbl.exp, hM.exp_eq, Dbl.fin_add_fin, Dbl.log, h1, h2, if_false, hM.log_eq,
      Dbl.min, Dbl.lt_fin_fin, decide_eq_true_eq]
    by_cases h3 : 0 < Real.log ((Real.exp (-kr * Real.log
        (1 - ((j : ℝ) + 1 / 2) / s.tail.length)) - 1) / kr * sr + Real.exp xc)
    · rw [if_pos h3, min_eq_right (le_of_lt h3)]
    · rw [if_neg h3, min_eq_left (not_lt.1 h3)]
  have hbodyval : ∀ (i : ℕ) (x : ℝ), xs[i]? = some x → i ∉ s.tail.map Prod.snd →
      zs[i]? = some (x - m) ∧ x - m ≤ xc := by
    intro i x hx hi
    refine ⟨?_, le_trans (hbody i x hx hi) hy0xc⟩
    apply getElem?_of_map_fin
    rw [← hzs, hent2 i x hx hi]
    have hxm : ¬ (0 < x - m) := by
      have := hmax x (List.getElem?_mem hx)
      linarith
    simp only [Dbl.min, Dbl.lt_fin_fin, hxm, decide_False, Bool.false_eq_true, if_false]
  -- every position is a body position or the position of a tail rank
  have hclass : ∀ (i : ℕ) (xi oi : ℝ), xs[i]? = some xi → zs[i]? = some oi →
      (oi = xi - m ∧ xi - m ≤ y0) ∨
      ∃ (j : ℕ) (q : Dbl ℝ × ℕ), s.tail[j]? = some q ∧ q.1 = fin (xi - m) ∧ oi = (Min.min (Real.log ((Real.exp (-kr * Real.log (1 - ((j : ℝ) + 1 / 2) / s.tail.length)) - 1)
              / kr * sr + Real.exp xc)) 0) ∧
        y0 ≤ xi - m := by
    intro i xi oi hxi hoi
    by_cases hi : i ∈ s.tail.map Prod.snd
    · right
      obtain ⟨q, hq, hqi⟩ := List.mem_map.1 hi
      obtain ⟨j, hj⟩ := List.mem_iff_getElem?.1 hq
      obtain ⟨w, hw, hxw, hyw⟩ := htailq q hq
      rw [hqi, hxi, Option.some.injEq] at hxw
      have hw2 : w = xi - m := by linarith
      have hv := htailval j q hj
      rw [hqi, hoi, Option.some.injEq] at hv
      exact ⟨j, q, hj, by rw [hw, hw2], hv, by rw [← hw2]; exact hyw⟩
    · left
      obtain ⟨h1, -⟩ := hbodyval i xi hxi hi
      rw [hoi, Option.some.injEq] at h1
      exact ⟨h1, hbody i xi hxi hi⟩
  have hout : ∀ (i : ℕ) (o : ℝ),
      (zs.map (fun y => (fin (y - z) : Dbl ℝ)))[i]? = some (fin o) →
      ∃ y : ℝ, zs[i]? = some y ∧ o = y - z := by
    intro i o h
    rw [List.getElem?_map] at h
    cases hzi : zs[i]? with
    | none =>
      rw [hzi] at h
      exact absurd h (by simp)
    | some y =>
      rw [hzi, Option.map_some', Option.some.injEq] at h
      exact ⟨y, rfl, (Dbl.fin.inj h).symm⟩
  refine ⟨z, zs, hzs, by rw [hzs]; exact hz, ?_, htailval, hTmono, hTxc, hbodyval, ?_⟩
  · intro hfit
    rw [psislw_of_fit M _ _ s (fin kr) (fin sr) hs hlen4 hfit]
    have hge : ge (fin kr) (fin 1 / fin 3 : Dbl ℝ) = true := by
      rw [Dbl.fin_div_fin _ _ (by norm_num), Dbl.ge_fin_fin, decide_eq_true_eq]
      exact hk
    simp only [hge, if_true, hzs, hz, Option.map_some']
  · intro i j xi xj oi oj hxi hxj hoi hoj hlt
    obtain ⟨yi, hyi, rfl⟩ := hout i oi hoi
    obtain ⟨yj, hyj, rfl⟩ := hout j oj hoj
    have key : yi ≤ yj := by
      rcases hclass i xi yi hxi hyi with ⟨hi1, hi2⟩ | ⟨ji, qi, hqi, hqi1, hi1, hi2⟩
      · rcases hclass j xj yj hxj hyj with ⟨hj1, hj2⟩ | ⟨jj, qj, hqj, hqj1, hj1, hj2⟩
        · rw [hi1, hj1]
          linarith
        · have hjj : jj < s.tail.length := by
            by_contra hcon
            rw [List.getElem?_eq_none (by omega)] at hqj
            exact absurd hqj (by simp)
          have := hTxc jj hjj
          rw [hi1, hj1]
          linarith
      · rcases hclass j xj yj hxj hyj with ⟨hj1, hj2⟩ | ⟨jj, qj, hqj, hqj1, hj1, hj2⟩
        · exfalso
          linarith
        · have hjj : jj < s.tail.length := by
            by_contra hcon
            rw [List.getElem?_eq_none (by omega)] at hqj
            exact absurd hqj (by simp)
          rcases Nat.lt_or_ge jj ji with hord | hord
          · exfalso
            have := htsorted jj ji qj qi (xj - m) (xi - m) (le_of_lt hord) hqj hqi hqj1 hqi1
            linarith
          · rw [hi1, hj1]
            exact hTmono ji jj hord hjj
    linarith

theorem psislw_rank_order_witness :
    ∃ c : ℤ, cutoffInd (CMath.mk Real.exp Real.log (fun x => Real.log (1 + x))
        (fun x => Real.exp x - 1) Real.sqrt) ((List.range 26).map (fun i : ℕ => (i : ℝ))).length (fin 1) = some c ∧ 4 < c ∧
      ∃ s : Split ℝ, psislwSplit (CMath.mk Real.exp Real.log (fun x => Real.log (1 + x))
        (fun x => Real.exp x - 1) Real.sqrt) (((List.range 26).map (fun i : ℕ => (i : ℝ))).map fin) (fin 1) = some s ∧ 4 < s.tail.length ∧
        ∀ kr sr : ℝ, 1 / 3 ≤ kr → 0 < sr →
          ∃ (z : ℝ) (zs : List ℝ),
            renormalize (CMath.mk Real.exp Real.log (fun x => Real.log (1 + x))
        (fun x => Real.exp x - 1) Real.sqrt) (smoothTail (CMath.mk Real.exp Real.log (fun x => Real.log (1 + x))
        (fun x => Real.exp x - 1) Real.sqrt) s (fin kr) (fin sr))
              = some (zs.map (fun y => fin (y - z))) ∧
            ∀ (i j : ℕ) (xi xj oi oj : ℝ), ((List.range 26).map (fun i : ℕ => (i : ℝ)))[i]? = some xi → ((List.range 26).map (fun i : ℕ => (i : ℝ)))[j]? = some xj →
              (zs.map (fun y => (fin (y - z) : Dbl ℝ)))[i]? = some (fin oi) →
              (zs.map (fun y => (fin (y - z) : Dbl ℝ)))[j]? = some (fin oj) →
              xi < xj → oi ≤ oj := by
  have hM : (CMath.mk Real.exp Real.log (fun x => Real.log (1 + x))
        (fun x => Real.exp x - 1) Real.sqrt).Exact :=
    ⟨fun _ => rfl, fun _ => rfl, fun _ => rfl, fun _ => rfl, fun _ => rfl⟩
  obtain ⟨c, hc, -, hiff⟩ := cutoffInd_one _ hM 26 (by norm_num)
  have h4 : 4 < c := by
    by_contra h
    have := hiff.1 (by omega)
    norm_num at this
  have hc2 : cutoffInd (CMath.mk Real.exp Real.log (fun x => Real.log (1 + x))
        (fun x => Real.exp x - 1) Real.sqrt) ((List.range 26).map (fun i : ℕ => (i : ℝ))).length (fin 1) = some c := by
    rw [List.length_map, List.length_range]
    exact hc
  obtain ⟨m, s, xc, -, -, hs, hlen4, -, hall⟩ := psislw_rank_order _ hM ((List.range 26).map (fun i : ℕ => (i : ℝ))) (fin 1) c hc2 h4
  refine ⟨c, hc2, h4, s, hs, hlen4, ?_⟩
  intro kr sr hk hsr
  obtain ⟨z, zs, -, hren, -, -, -, -, -, hord⟩ := hall kr sr hk hsr
  exact ⟨z, zs, hren, hord⟩

end RankOrder

/-! ## Fits over a grid of negative candidates -/

section NegativeGrid

/-- A candidate of the grid is negative when the maximum exceeds `18 m` times the quartile
element: `sqrt(m / (j + 1/2)) >= 1 + 1 / (6 m)` for `j < m`. -/
theorem candidate_neg (m j : ℕ) (hj : j < m) (xq xmax : ℝ) (hxq : 0 < xq)
    (hbig : 18 * m * xq < xmax) :
    (1 - Real.sqrt (m / (((j + 1 : ℕ) : ℝ) - 1 / 2))) / (3 * xq) + 1 / xmax < 0 := by
  have hm : (0 : ℝ) < m := by exact_mod_cast (by omega : 0 < m)
  have hj1 : ((j + 1 : ℕ) : ℝ) ≤ m := by exact_mod_cast hj
  have hj0 : (0 : ℝ) ≤ j := Nat.cast_nonneg j
  have hden : 0 < ((j + 1 : ℕ) : ℝ) - 1 / 2 := by
    push_cast
    linarith
  have hs : 1 + 1 / (6 * (m : ℝ)) ≤ Real.sqrt (m / (((j + 1 : ℕ) : ℝ) - 1 / 2)) := by
    apply Real.le_sqrt_of_sq_le
    rw [le_div_iff₀ hden]
    have h1 : (1 + 1 / (6 * (m : ℝ))) ^ 2 * (((j + 1 : ℕ) : ℝ) - 1 / 2)
        ≤ (1 + 1 / (6 * (m : ℝ))) ^ 2 * ((m : ℝ) - 1 / 2) := by
      apply mul_le_mul_of_nonneg_left _ (sq_nonneg _)
      linarith
    have h2 : (1 + 1 / (6 * (m : ℝ))) ^ 2 * ((m : ℝ) - 1 / 2)
        = m - 1 / 6 - 5 / (36 * m) - 1 / (72 * m ^ 2) := by
      field_simp
      ring
    have h3 : (0 : ℝ) < 5 / (36 * m) := by positivity
    have h4 : (0 : ℝ) < 1 / (72 * (m : ℝ) ^ 2) := by positivity
    linarith
  have h1 : (1 - Real.sqrt (m / (((j + 1 : ℕ) : ℝ) - 1 / 2))) / (3 * xq)
      ≤ (-(1 / (6 * (m : ℝ)))) / (3 * xq) :=
    div_le_div_of_nonneg_right (by linarith) (by positivity)
  have h2 : 1 / xmax < 1 / (18 * m * xq) := one_div_lt_one_div_of_lt (by positivity) hbig
  have h3 : (-(1 / (6 * (m : ℝ)))) / (3 * xq) = -(1 / (18 * m * xq)) := by
    field_simp
    ring
  linarith

/-- The posterior mean when a weight survives the pruning: a combination of candidates with
non-negative weights that sum to one. -/
theorem posteriorMean_convex (ws βs : List ℝ) (hlen : βs.length = ws.length)
    (hpos : ∀ w ∈ ws, 0 < w) (hex : ∃ w ∈ ws, 10 * (1 / 2) ^ 52 ≤ w) :
    ∃ β2 v2 : List ℝ, β2 ≠ [] ∧ (∀ β ∈ β2, β ∈ βs) ∧ v2.length = β2.length ∧
      (∀ v ∈ v2, 0 ≤ v) ∧ v2.sum = 1 ∧
      posteriorMean (ws.map fin) (βs.map fin) = fin ((List.zipWith (· * ·) β2 v2).sum) := by
  generalize hps : (List.zip ws βs).filter
      (fun q => !(lt (fin q.1 : Dbl ℝ) (fin 10 * epsilon))) = ps
  have hprune := pruneLoop_fin ws βs hlen
  rw [hps] at hprune
  have hmem : ∀ q ∈ ps, q.1 ∈ ws ∧ q.2 ∈ βs := by
    intro q hq
    rw [← hps] at hq
    exact List.of_mem_zip (a := q.1) (b := q.2) (List.mem_of_mem_filter hq)
  have hw2pos : ∀ w ∈ ps.map Prod.fst, 0 < w := by
    intro w hw
    obtain ⟨q, hq, rfl⟩ := List.mem_map.1 hw
    exact hpos _ (hmem q hq).1
  have hβ2 : ∀ β ∈ ps.map Prod.snd, β ∈ βs := by
    intro β hβ
    obtain ⟨q, hq, rfl⟩ := List.mem_map.1 hβ
    exact (hmem q hq).2
  have hnil : ps ≠ [] := by
    obtain ⟨w0, hw0, hbig⟩ := hex
    obtain ⟨i, hi⟩ := List.mem_iff_getElem?.1 hw0
    obtain ⟨hiw, -⟩ := List.getElem?_eq_some.1 hi
    have hib : i < βs.length := by omega
    have hz : (w0, βs[i]) ∈ List.zip ws βs :=
      List.getElem?_mem (List.getElem?_zip_eq_some.2 ⟨hi, List.getElem?_eq_getElem hib⟩)
    have hkeep : (!(lt (fin w0) (fin 10 * epsilon : Dbl ℝ))) = true := by
      simp only [epsilon, Dbl.fin_mul_fin, Dbl.lt_fin_fin, Bool.not_eq_true',
        decide_eq_false_iff_not, not_lt]
      exact hbig
    have : (w0, βs[i]) ∈ ps := by
      rw [← hps]
      exact List.mem_filter.2 ⟨hz, hkeep⟩
    exact List.ne_nil_of_mem this
  have hne : ps.map Prod.fst ≠ [] := by simpa using hnil
  have hsum : 0 < (ps.map Prod.fst).sum := sum_pos_of_forall_pos _ hne hw2pos
  refine ⟨ps.map Prod.snd, (ps.map Prod.fst).map (fun w => w / (ps.map Prod.fst).sum),
    by simpa using hnil, hβ2, by simp, ?_, sum_map_div_self _ hsum, ?_⟩
  · intro v hv
    obtain ⟨w, hw, rfl⟩ := List.mem_map.1 hv
    exact div_nonneg (le_of_lt (hw2pos w hw)) (le_of_lt hsum)
  · unfold posteriorMean
    rw [hprune]
    show (List.zip ((ps.map Prod.snd).map fin)
      (normaliseWeights ((ps.map Prod.fst).map fin))).foldl _ (fin 0) = _
    rw [normaliseWeights_fin _ hsum, foldl_mul_add_fin, zero_add]

/-- The posterior mean over finite candidates without a zero, each with `β x < 1` on the
positive sample, when the grid is shorter than `1 / (10 epsilon)`: a combination of
candidates with non-negative weights that sum to one. -/
theorem posteriorMean_of_nonzero (M : CMath ℝ) (hM : M.Exact) (xs : List ℝ) (hne : xs ≠ [])
    (hpos : ∀ x ∈ xs, 0 < x) (βs : List ℝ) (hβne : βs ≠ [])
    (hlt : ∀ β ∈ βs, ∀ x ∈ xs, β * x < 1) (hnz : ∀ β ∈ βs, β ≠ 0)
    (hm : (βs.length : ℝ) < 1 / (10 * (1 / 2) ^ 52)) :
    ∃ β2 v2 : List ℝ, β2 ≠ [] ∧ (∀ β ∈ β2, β ∈ βs) ∧ v2.length = β2.length ∧
      (∀ v ∈ v2, 0 ≤ v) ∧ v2.sum = 1 ∧
      posteriorMean (gridWeights M (gridScores M (xs.map fin) (βs.map fin))) (βs.map fin)
        = fin ((List.zipWith (· * ·) β2 v2).sum) := by
  have hfin : ∀ L ∈ gridScores M (xs.map fin) (βs.map fin), ∃ r : ℝ, L = fin r := by
    intro L hL
    rw [gridScores_eq_map, List.map_map] at hL
    obtain ⟨β, hβ, rfl⟩ := List.mem_map.1 hL
    obtain ⟨κ, -, h1, -⟩ := score_of_candidate M hM xs hne hpos β (hlt β hβ)
    exact ⟨_, (h1 (hnz β hβ)).2.2⟩
  obtain ⟨Ls, hLs⟩ := list_fin_of_forall _ hfin
  have hLlen : Ls.length = βs.length := by
    have := congrArg List.length hLs
    rw [gridScores_eq_map, List.length_map, List.length_map, List.length_map] at this
    exact this.symm
  have hLne : Ls ≠ [] := by
    intro h
    rw [h, List.length_nil] at hLlen
    exact hβne (List.length_eq_zero.1 hLlen.symm)
  have hT := sum_exp_pos Ls hLne
  rw [hLs, gridWeights_fin M hM Ls hLne]
  have hws_pos : ∀ w ∈ Ls.map (fun c => Real.exp c / (Ls.map Real.exp).sum), 0 < w := by
    intro w hw
    obtain ⟨c, -, rfl⟩ := List.mem_map.1 hw
    exact div_pos (Real.exp_pos c) hT
  have hws_sum : (Ls.map (fun c => Real.exp c / (Ls.map Real.exp).sum)).sum = 1 := by
    have e : (fun c : ℝ => Real.exp c / (Ls.map Real.exp).sum)
        = fun c => Real.exp c * ((Ls.map Real.exp).sum)⁻¹ := by
      funext c
      rw [div_eq_mul_inv]
    rw [e, List.sum_map_mul_right]
    exact mul_inv_cancel₀ (ne_of_gt hT)
  generalize hws : Ls.map (fun c => Real.exp c / (Ls.map Real.exp).sum) = ws at *
  have hwl : ws.length = βs.length := by rw [← hws, List.length_map, hLlen]
  have hex : ∃ w ∈ ws, 10 * (1 / 2) ^ 52 ≤ w := by
    by_contra hcon
    push_neg at hcon
    have h1 : ws.sum ≤ ws.length • (10 * (1 / 2) ^ 52 : ℝ) :=
      List.sum_le_card_nsmul _ _ (fun w hw => le_of_lt (hcon w hw))
    rw [hws_sum, hwl, nsmul_eq_mul] at h1
    rw [lt_div_iff₀ (by positivity)] at hm
    linarith
  exact posteriorMean_convex ws βs hwl.symm hws_pos hex

/-- The fit over a grid of negative candidates on a positive sample: the posterior mean `b`
is a negative number and the shape estimate `mean_j log1p(-b x_j)` a positive one. -/
theorem fit_of_negative_grid (M : CMath ℝ) (hM : M.Exact) (xs : List ℝ) (hne : xs ≠ [])
    (hpos : ∀ x ∈ xs, 0 < x) (βs : List ℝ) (hβne : βs ≠ []) (hneg : ∀ β ∈ βs, β < 0)
    (hm : (βs.length : ℝ) < 1 / (10 * (1 / 2) ^ 52)) :
    ∃ b κ : ℝ,
      posteriorMean (gridWeights M (gridScores M (xs.map fin) (βs.map fin))) (βs.map fin)
        = fin b ∧ b < 0 ∧
      meanLog1p M (xs.map fin) (-(fin b)) = fin κ ∧ 0 < κ := by
  obtain ⟨β2, v2, -, hsub, hvlen, hv0, hv1, hmean⟩ :=
    posteriorMean_of_nonzero M hM xs hne hpos βs hβne
      (fun β hβ x hx => by
        have := mul_neg_of_neg_of_pos (hneg β hβ) (hpos x hx)
        linarith)
      (fun β hβ => ne_of_lt (hneg β hβ)) hm
  have hb : (List.zipWith (· * ·) β2 v2).sum < 0 := by
    have h1 := convex_sum_lt 0 β2 v2 hvlen (fun β hβ => hneg β (hsub β hβ)) hv0
      (by rw [hv1]; exact one_pos)
    rw [zero_mul] at h1
    exact h1
  generalize (List.zipWith (· * ·) β2 v2).sum = b at hmean hb
  have harg : ∀ x ∈ xs, 0 < -b * x := fun x hx => mul_pos (by linarith) (hpos x hx)
  have hk := meanLog1p_fin M hM xs hne (-b) (fun x hx => by
    have := harg x hx
    linarith)
  refine ⟨b, _, hmean, hb, by rw [Dbl.neg_fin]; exact hk, ?_⟩
  apply div_pos
  · apply sum_pos_of_forall_pos
    · simpa using hne
    · intro t ht
      obtain ⟨x, hx, rfl⟩ := List.mem_map.1 ht
      apply Real.log_pos
      have := harg x hx
      linarith
  · exact_mod_cast List.length_pos.2 hne

end NegativeGrid

/-! ## Samples of five values -/

section FiveSample

theorem floor_sqrt_five : ⌊Real.sqrt ((5 : ℕ) : ℝ)⌋ = 2 := by
  rw [Int.floor_eq_iff]
  constructor
  · apply Real.le_sqrt_of_sq_le
    norm_num
  · rw [Real.sqrt_lt' (by norm_num)]
    norm_num

theorem floor_quartile_five : ⌊((5 : ℕ) : ℝ) / 4 + 1 / 2⌋ = 1 := by
  rw [Int.floor_eq_iff]
  constructor <;> norm_num

/-- The grid on a sample of five finite values with positive first element `x0` and last
element `x4 > 576 x0`: 32 candidates built from `x0` and `x4`, all of them negative. -/
theorem grid_five (M : CMath ℝ) (hM : M.Exact) (xs : List ℝ) (h5 : xs.length = 5)
    (x0 x4 : ℝ) (h0 : xs[0]? = some x0) (h4 : xs[4]? = some x4) (hx0 : 0 < x0)
    (hbig : 576 * x0 < x4) :
    ∃ βs : List ℝ, gpdGrid M (xs.map fin) = some (βs.map fin) ∧
      βs = (List.range 32).map (fun j : ℕ =>
        (1 - Real.sqrt (((32 : ℕ) : ℝ) / (((j + 1 : ℕ) : ℝ) - 1 / 2))) / (3 * x0) + 1 / x4) ∧
      βs.length = 32 ∧ ∀ β ∈ βs, β < 0 := by
  obtain ⟨xq, xmax, hq, hmax, hg⟩ := gpdGrid_fin M hM xs (by omega)
  rw [h5, floor_sqrt_five] at hg
  rw [h5] at hq hmax
  rw [floor_quartile_five] at hq
  have hxq : xq = x0 := by
    rw [show ((1 : ℤ) - 1).toNat = 0 from rfl, h0] at hq
    exact (Option.some.inj hq).symm
  have hxmax : xmax = x4 := by
    rw [show 5 - 1 = 4 from rfl, h4] at hmax
    exact (Option.some.inj hmax).symm
  subst hxq hxmax
  have hx4 : 0 < xmax := by linarith
  rw [show ((30 : ℤ) + 2).toNat = 32 from rfl,
    gridCandidates_fin M hM 32 (3 * xq) xmax (by positivity) (ne_of_gt hx4)] at hg
  refine ⟨_, hg, rfl, by simp, ?_⟩
  intro β hβ
  obtain ⟨j, hj, rfl⟩ := List.mem_map.1 hβ
  exact candidate_neg 32 j (List.mem_range.1 hj) xq xmax hx0 (by push_cast; linarith)

/-- The fit of `gpdfitnew` on a sample of five positive finite values whose last element
exceeds 576 times the first: finite, with shape above `1/3` and positive scale. -/
theorem gpdfitnew_five (M : CMath ℝ) (hM : M.Exact) (xs : List ℝ) (h5 : xs.length = 5)
    (x0 x4 : ℝ) (h0 : xs[0]? = some x0) (h4 : xs[4]? = some x4) (hbig : 576 * x0 < x4)
    (hpos : ∀ x ∈ xs, 0 < x) :
    ∃ kr sr : ℝ, gpdfitnew M (xs.map fin) = some (fin kr, fin sr) ∧ 1 / 3 < kr ∧ 0 < sr := by
  have hx0 : 0 < x0 := hpos x0 (List.getElem?_mem h0)
  have hne : xs ≠ [] := by
    intro h
    rw [h] at h5
    simp at h5
  obtain ⟨βs, hg, -, hlen, hneg⟩ := grid_five M hM xs h5 x0 x4 h0 h4 hx0 hbig
  obtain ⟨b, κ, hb, hb0, hκ, hκ0⟩ := fit_of_negative_grid M hM xs hne hpos βs
    (by
      intro h
      rw [h] at hlen
      simp at hlen)
    hneg (by rw [hlen]; norm_num)
  refine ⟨κ * (5 : ℕ) / ((5 : ℕ) + 10) + 10 * (1 / 2) / ((5 : ℕ) + 10), -κ / b, ?_, ?_, ?_⟩
  · rw [Dbl.neg_fin] at hκ
    rw [gpdfitnew_stages, hg, Option.map_some', hb]
    simp only [fitFromMean, Dbl.neg_fin, hκ, List.length_map, h5, Nat.sub_zero,
      mul_div_ofNat _ 5 (by norm_num), shrinkShape_fin,
      Dbl.fin_div_fin _ _ (ne_of_lt hb0)]
  · push_cast
    linarith
  · exact div_pos_of_neg_of_neg (by linarith) hb0

end FiveSample

/-! ## Sorting an ascending vector -/

section SortedInput

/-- Sorting leaves an arrangement in place in which no element comes before its
predecessor. -/
theorem sortPairs_of_chain {α : Type} [LinearOrderedField α] (v : List (Dbl α × ℕ))
    (h : v.Chain' (fun p q => pairLt q p = false)) : sortPairs v = v := by
  induction v with
  | nil => rfl
  | cons a l ih =>
    have e : sortPairs (a :: l) = insertPair a (sortPairs l) := rfl
    rw [e, ih h.tail]
    cases l with
    | nil => rfl
    | cons b l =>
      have hb : pairLt b a = false := h.rel_head
      simp only [insertPair, hb, Bool.false_eq_true, if_false]

end SortedInput

/-! ## A vector on the smoothing path -/

section SmoothingSample

theorem cutoffInd_twenty_six (M : CMath ℝ) (hM : M.Exact) :
    cutoffInd M 26 (fin 1) = some 5 := by
  rw [cutoffInd_fin M hM 26 1 one_pos]
  have h1 : (5 : ℝ) ≤ Real.sqrt (((26 : ℕ) : ℝ) / 1) := by
    apply Real.le_sqrt_of_sq_le
    norm_num
  have h2 : Min.min (((26 : ℕ) : ℝ) / 5) (3 * Real.sqrt (((26 : ℕ) : ℝ) / 1)) = 26 / 5 := by
    rw [min_eq_left]
    · norm_num
    · push_cast at h1 ⊢
      linarith
  have h3 : ⌈(26 / 5 : ℝ)⌉ = 6 := by
    rw [Int.ceil_eq_iff]
    constructor <;> norm_num
  rw [h2, h3]
  rfl

theorem log_minPositive_lt : Real.log ((1 / 2 : ℝ) ^ 1074) < -13 := by
  rw [Real.log_pow, one_div, Real.log_inv]
  have := Real.log_two_gt_d9
  push_cast
  linarith

/-- The split of the vector of 21 values `-13` followed by `-12, -3, -2, -1, 0` with
`Reff = 1`: the maximum is 0, the vector is already ascending, the tail holds the last five
values at their positions and the cutoff is `-13`. -/
theorem smoothing_sample_split (M : CMath ℝ) (hM : M.Exact) :
    ∃ s : Split ℝ,
      psislwSplit M ((List.replicate 21 (-13) ++ [-12, -3, -2, -1, 0] : List ℝ).map fin) (fin 1)
        = some s ∧
      s.tail = [(fin (-12), 21), (fin (-3), 22), (fin (-2), 23), (fin (-1), 24), (fin 0, 25)] ∧
      s.xcutoff = fin (-13) := by
  have hA : (List.replicate 21 (-13) ++ [-12, -3, -2, -1, 0] : List ℝ)
      = [-13, -13, -13, -13, -13, -13, -13, -13, -13, -13, -13, -13, -13, -13, -13, -13, -13,
         -13, -13, -13, -13, -12, -3, -2, -1, 0] := rfl
  rw [hA]
  generalize hxs : ([-13, -13, -13, -13, -13, -13, -13, -13, -13, -13, -13, -13, -13, -13, -13,
    -13, -13, -13, -13, -13, -13, -12, -3, -2, -1, 0] : List ℝ) = xs
  have hlen : xs.length = 26 := by rw [← hxs]; rfl
  have hc : cutoffInd M xs.length (fin 1) = some 5 := by
    rw [hlen]
    exact cutoffInd_twenty_six M hM
  obtain ⟨m, s, vc, hmem, hmax, hs, hlw, htail, -, -, hvc, hxc⟩ :=
    psislwSplit_cutoff M xs (fin 1) 5 hc (by norm_num)
  have hm : m = 0 := by
    apply le_antisymm
    · rw [← hxs] at hmem
      simp only [List.mem_cons, List.mem_singleton, List.not_mem_nil, or_false] at hmem
      rcases hmem with h | h | h | h | h | h | h | h | h | h | h | h | h | h | h | h | h | h |
        h | h | h | h | h | h | h | h <;> rw [h] <;> norm_num
    · apply hmax
      rw [← hxs]
      simp
  subst hm
  have hr : List.range 26 = [0, 1, 2, 3, 4, 5, 6, 7, 8, 9, 10, 11, 12, 13, 14, 15, 16, 17, 18,
    19, 20, 21, 22, 23, 24, 25] := by decide
  have hz : List.zip s.lw (List.range xs.length)
      = [(fin (-13), 0), (fin (-13), 1), (fin (-13), 2), (fin (-13), 3), (fin (-13), 4),
         (fin (-13), 5), (fin (-13), 6), (fin (-13), 7), (fin (-13), 8), (fin (-13), 9),
         (fin (-13), 10), (fin (-13), 11), (fin (-13), 12), (fin (-13), 13), (fin (-13), 14),
         (fin (-13), 15), (fin (-13), 16), (fin (-13), 17), (fin (-13), 18), (fin (-13), 19),
         (fin (-13), 20), (fin (-12), 21), (fin (-3), 22), (fin (-2), 23), (fin (-1), 24),
         (fin 0, 25)] := by
    rw [hlw, hlen, hr, ← hxs]
    simp
  have hsort : sortPairs (List.zip s.lw (List.range xs.length))
      = List.zip s.lw (List.range xs.length) := by
    apply sortPairs_of_chain
    rw [hz]
    simp [pairLt, Dbl.lt_fin_fin]
    norm_num
  rw [hsort, hz, hlen] at htail hvc
  have hvc2 : vc = (fin (-13), 20) := by
    simp at hvc
    exact hvc.symm
  refine ⟨s, hs, ?_, ?_⟩
  · rw [htail]
    rfl
  · rw [hxc, hvc2, (log_minPositive M hM).1]
    have := log_minPositive_lt
    simp only [Dbl.max, Dbl.lt_fin_fin]
    rw [if_neg]
    simp only [decide_eq_true_eq, not_lt]
    linarith

end SmoothingSample

section SmoothingFit

/-- The fit of the tail of the vector of 21 values `-13` followed by `-12, -3, -2, -1, 0`:
the exceedances are `exp(w) - exp(-13)` for `w = -12, -3, -2, -1, 0`, positive, the last
above 576 times the first; the fit is finite with shape above `1/3` and positive scale. -/
theorem smoothing_sample_fit (M : CMath ℝ) (hM : M.Exact) (s : Split ℝ)
    (htail : s.tail
      = [(fin (-12), 21), (fin (-3), 22), (fin (-2), 23), (fin (-1), 24), (fin 0, 25)])
    (hxc : s.xcutoff = fin (-13)) :
    exceedances M s = ([Real.exp (-12) - Real.exp (-13), Real.exp (-3) - Real.exp (-13),
      Real.exp (-2) - Real.exp (-13), Real.exp (-1) - Real.exp (-13),
      Real.exp 0 - Real.exp (-13)] : List ℝ).map fin ∧
    ∃ kr sr : ℝ, gpdfitnew M (exceedances M s) = some (fin kr, fin sr) ∧ 1 / 3 < kr ∧
      0 < sr := by
  have he : exceedances M s = ([Real.exp (-12) - Real.exp (-13),
      Real.exp (-3) - Real.exp (-13), Real.exp (-2) - Real.exp (-13),
      Real.exp (-1) - Real.exp (-13), Real.exp 0 - Real.exp (-13)] : List ℝ).map fin := by
    unfold exceedances
    rw [htail, hxc]
    simp only [List.map_cons, List.map_nil, Dbl.exp, hM.exp_eq, Dbl.fin_sub_fin]
  refine ⟨he, ?_⟩
  rw [he]
  have h12 : Real.exp (-12) ≤ (1 / 2) ^ 12 := by
    have := exp_neg_nat_le 12
    push_cast at this
    exact this
  have h13 : Real.exp (-13) ≤ (1 / 2) ^ 13 := by
    have := exp_neg_nat_le 13
    push_cast at this
    exact this
  have hp13 := Real.exp_pos (-13)
  apply gpdfitnew_five M hM [Real.exp (-12) - Real.exp (-13), Real.exp (-3) - Real.exp (-13),
    Real.exp (-2) - Real.exp (-13), Real.exp (-1) - Real.exp (-13),
    Real.exp 0 - Real.exp (-13)] rfl (Real.exp (-12) - Real.exp (-13))
    (Real.exp 0 - Real.exp (-13)) rfl rfl
  · rw [Real.exp_zero]
    norm_num at h12 h13
    linarith
  · intro x hx
    simp only [List.mem_cons, List.mem_singleton, List.not_mem_nil, or_false] at hx
    rcases hx with h | h | h | h | h <;> rw [h, sub_pos, Real.exp_lt_exp] <;> norm_num

end SmoothingFit

/-! ## The scale estimate of `gpdfitnew` -/

section ScaleEstimate

end ScaleEstimate

/-! ## Exceedances above the floor -/

section TailFloor

/-- Claim C15 (amended).  For every vector of finite log weights whose tail has more than
four elements, the split is defined, the tail is not empty and `xcutoff` is the finite number
`max(value at sorted position n - n2 - 1, log(2^-1074))`; every tail value `w` is finite and
its exceedance, as handed to `gpdfitnew`, is `exp(w) - exp(xcutoff)`, which is not negative
whenever `w >= log(2^-1074)`, the logarithm of the smallest positive double. -/
theorem exceedances_nonneg_above_floor (M : CMath ℝ) (hM : M.Exact) (xs : List ℝ)
    (Reff : Dbl ℝ) (c : ℤ) (hc : cutoffInd M xs.length Reff = some c) (h4 : 4 < c) :
    ∃ (s : Split ℝ) (y0 : ℝ), psislwSplit M (xs.map fin) Reff = some s ∧
      4 < s.tail.length ∧ (exceedances M s).length = s.tail.length ∧
      s.xcutoff = fin (Max.max y0 (Real.log ((1 / 2) ^ 1074))) ∧
      ∀ j, j < s.tail.length → ∃ (w : ℝ) (i : ℕ), s.tail[j]? = some (fin w, i) ∧
        y0 ≤ w ∧
        (exceedances M s)[j]?
          = some (fin (Real.exp w - Real.exp (Max.max y0 (Real.log ((1 / 2) ^ 1074))))) ∧
        (Real.log ((1 / 2) ^ 1074) ≤ w →
          0 ≤ Real.exp w - Real.exp (Max.max y0 (Real.log ((1 / 2) ^ 1074)))) := by
  obtain ⟨m, s, y0, -, -, hs, hlen, hxc, -, ht⟩ := tail_element M hM xs Reff c hc (by omega)
  refine ⟨s, y0, hs, by omega, exceedances_length M s, hxc, ?_⟩
  intro j hj
  obtain ⟨w, i, hq, -, hle, he⟩ := ht j hj
  refine ⟨w, i, hq, hle, he, ?_⟩
  intro hw
  rw [sub_nonneg, Real.exp_le_exp]
  exact max_le hle hw

theorem exceedances_nonneg_above_floor_witness :
    cutoffInd (CMath.mk Real.exp Real.log (fun x => Real.log (1 + x))
      (fun x => Real.exp x - 1) Real.sqrt)
      (List.replicate 21 (-13) ++ [-12, -3, -2, -1, 0] : List ℝ).length (fin 1) = some 5 ∧
    ∃ s : Split ℝ, psislwSplit (CMath.mk Real.exp Real.log (fun x => Real.log (1 + x))
        (fun x => Real.exp x - 1) Real.sqrt)
        ((List.replicate 21 (-13) ++ [-12, -3, -2, -1, 0] : List ℝ).map fin) (fin 1) = some s ∧
      s.tail.length = 5 ∧
      (exceedances (CMath.mk Real.exp Real.log (fun x => Real.log (1 + x))
        (fun x => Real.exp x - 1) Real.sqrt) s).length = 5 ∧
      ∀ j, j < 5 → ∃ e : ℝ, (exceedances (CMath.mk Real.exp Real.log
          (fun x => Real.log (1 + x)) (fun x => Real.exp x - 1) Real.sqrt) s)[j]?
          = some (fin e) ∧ 0 ≤ e := by
  have hM : (CMath.mk Real.exp Real.log (fun x => Real.log (1 + x))
        (fun x => Real.exp x - 1) Real.sqrt).Exact :=
    ⟨fun _ => rfl, fun _ => rfl, fun _ => rfl, fun _ => rfl, fun _ => rfl⟩
  generalize hMd : (CMath.mk Real.exp Real.log (fun x => Real.log (1 + x))
        (fun x => Real.exp x - 1) Real.sqrt) = M at hM
  have hc : cutoffInd M (List.replicate 21 (-13) ++ [-12, -3, -2, -1, 0] : List ℝ).length
      (fin 1) = some 5 := cutoffInd_twenty_six M hM
  refine ⟨hc, ?_⟩
  obtain ⟨s, y0, hs, -, hel, -, ht⟩ := exceedances_nonneg_above_floor M hM
    (List.replicate 21 (-13) ++ [-12, -3, -2, -1, 0]) (fin 1) 5 hc (by norm_num)
  obtain ⟨s2, hs2, htail, -⟩ := smoothing_sample_split M hM
  have hss : s2 = s := by
    rw [hs] at hs2
    exact (Option.some.inj hs2).symm
  subst hss
  have hl5 : s2.tail.length = 5 := by rw [htail]; rfl
  refine ⟨s2, hs, hl5, by rw [hel, hl5], ?_⟩
  intro j hj
  obtain ⟨w, i, hq, -, he, himp⟩ := ht j (by omega)
  refine ⟨_, he, himp ?_⟩
  have hfl := log_minPositive_lt
  have hw : (fin w : Dbl ℝ) ∈ [fin (-12), fin (-3), fin (-2), fin (-1), (fin 0 : Dbl ℝ)] := by
    have := List.getElem?_mem hq
    rw [htail] at this
    simp only [List.mem_cons, List.mem_singleton, List.not_mem_nil, or_false,
      Prod.mk.injEq] at this ⊢
    rcases this with h | h | h | h | h
    · exact Or.inl h.1
    · exact Or.inr (Or.inl h.1)
    · exact Or.inr (Or.inr (Or.inl h.1))
    · exact Or.inr (Or.inr (Or.inr (Or.inl h.1)))
    · exact Or.inr (Or.inr (Or.inr (Or.inr h.1)))
  simp only [List.mem_cons, List.mem_singleton, List.not_mem_nil, or_false,
    Dbl.fin.injEq] at hw
  rcases hw with h | h | h | h | h <;> rw [h] <;> linarith

end TailFloor

/-! ## The score of one candidate -/

section ScoreOfCandidate

/-- Claim C16 (amended).  On an ascending sample of more than four positive finite values
the grid is defined, has `m = 30 + floor(sqrt n)` candidates, and every candidate is below
`1 / x[n-1]`.  For a candidate at position `i` of a list `bs` scored by lines 74-86 that is a
finite number `b_i < 1 / x[n-1]`: the shape `k_i = mean_j log1p(-b_i * x_j)` is finite; when
`b_i` is not zero, `k_i` is not zero, `-b_i / k_i > 0` and the score `L_i` is the finite
number `n * (log(-b_i / k_i) - k_i - 1)`; when `b_i` is zero, `k_i = 0` and the score `L_i`
is NaN. -/
theorem gridScores_finite_of_nonzero (M : CMath ℝ) (hM : M.Exact) (xs : List ℝ)
    (hn : 4 < xs.length) (hs : xs.Sorted (· ≤ ·)) (hpos : ∀ x ∈ xs, 0 < x) :
    ∃ (xmax : ℝ) (grid : List (Dbl ℝ)), xs[xs.length - 1]? = some xmax ∧
      gpdGrid M (xs.map fin) = some grid ∧
      grid.length = (30 + ⌊Real.sqrt xs.length⌋).toNat ∧
      (∀ b ∈ grid, lt b (fin (1 / xmax)) = true) ∧
      ∀ (bs : List (Dbl ℝ)) (i : ℕ) (β : ℝ), bs[i]? = some (fin β) → β < 1 / xmax →
        ∃ κ : ℝ, meanLog1p M (xs.map fin) (-(fin β)) = fin κ ∧
          (β ≠ 0 → κ ≠ 0 ∧ 0 < -β / κ ∧
            (gridScores M (xs.map fin) bs)[i]?
              = some (fin ((Real.log (-β / κ) - κ - 1) * xs.length))) ∧
          (β = 0 → κ = 0 ∧ (gridScores M (xs.map fin) bs)[i]? = some nan) := by
  obtain ⟨xq, xmax, hq, hmax, hg⟩ := gpdGrid_fin M hM xs (by omega)
  have hxq : 0 < xq := hpos xq (List.getElem?_mem hq)
  have hxmax : 0 < xmax := hpos xmax (List.getElem?_mem hmax)
  have hle := sorted_le_last xs hs xmax hmax
  have hne : xs ≠ [] := by
    intro h
    rw [h] at hn
    exact absurd hn (by simp)
  refine ⟨xmax, _, hmax, hg, gridCandidates_length M _ _ _, ?_, ?_⟩
  · intro b hb
    rw [gridCandidates_fin M hM _ (3 * xq) xmax (by positivity) (ne_of_gt hxmax),
      List.map_map] at hb
    obtain ⟨j, hj, rfl⟩ := List.mem_map.1 hb
    rw [Function.comp_apply, Dbl.lt_fin_fin, decide_eq_true_eq]
    exact candidate_lt _ j (List.mem_range.1 hj) xq xmax hxq
  · intro bs i β hi hβ
    obtain ⟨κ, hκ, h1, h2⟩ := score_of_candidate M hM xs hne hpos β
      (fun x hx => mul_lt_one_of_lt_inv β xmax x (hpos x hx) (hle x hx) hβ)
    have hscore : (gridScores M (xs.map fin) bs)[i]?
        = some ((log M (-(fin β) / meanLog1p M (xs.map fin) (-(fin β)))
              - meanLog1p M (xs.map fin) (-(fin β)) - fin 1) * ofNat (xs.map fin).length) := by
      rw [gridScores_eq_map, List.getElem?_map, hi]
      rfl
    refine ⟨κ, hκ, ?_, ?_⟩
    · intro hβ0
      obtain ⟨a, b, c⟩ := h1 hβ0
      exact ⟨a, b, by rw [hscore, c]⟩
    · intro hβ0
      obtain ⟨a, b⟩ := h2 hβ0
      exact ⟨a, by rw [hscore, b]⟩

theorem gridScores_finite_of_nonzero_witness :
    ∃ bs : List (Dbl ℝ),
      gpdGrid (CMath.mk Real.exp Real.log (fun x => Real.log (1 + x))
        (fun x => Real.exp x - 1) Real.sqrt) (([1, 2, 3, 4, 1000] : List ℝ).map fin)
        = some bs ∧ bs.length = 32 ∧
      ∀ i, i < 32 → ∃ β κ : ℝ, bs[i]? = some (fin β) ∧ β < 0 ∧
        meanLog1p (CMath.mk Real.exp Real.log (fun x => Real.log (1 + x))
          (fun x => Real.exp x - 1) Real.sqrt) (([1, 2, 3, 4, 1000] : List ℝ).map fin)
          (-(fin β)) = fin κ ∧ κ ≠ 0 ∧ 0 < -β / κ ∧
        (gridScores (CMath.mk Real.exp Real.log (fun x => Real.log (1 + x))
          (fun x => Real.exp x - 1) Real.sqrt) (([1, 2, 3, 4, 1000] : List ℝ).map fin) bs)[i]?
          = some (fin ((Real.log (-β / κ) - κ - 1)
              * (([1, 2, 3, 4, 1000] : List ℝ).length : ℝ))) := by
  have hM : (CMath.mk Real.exp Real.log (fun x => Real.log (1 + x))
        (fun x => Real.exp x - 1) Real.sqrt).Exact :=
    ⟨fun _ => rfl, fun _ => rfl, fun _ => rfl, fun _ => rfl, fun _ => rfl⟩
  generalize hMd : (CMath.mk Real.exp Real.log (fun x => Real.log (1 + x))
        (fun x => Real.exp x - 1) Real.sqrt) = M at hM
  obtain ⟨xmax, grid, hmax, hg, -, -, hall⟩ := gridScores_finite_of_nonzero M hM
    [1, 2, 3, 4, 1000] (by decide) (by simp [List.Sorted]; norm_num)
    (by
      intro x hx
      simp only [List.mem_cons, List.mem_singleton, List.not_mem_nil, or_false] at hx
      rcases hx with h | h | h | h | h <;> rw [h] <;> norm_num)
  have hx5 : xmax = 1000 := (Option.some.inj hmax).symm
  subst hx5
  obtain ⟨βs, hg2, -, hβlen, hneg⟩ := grid_five M hM [1, 2, 3, 4, 1000] rfl 1 1000 rfl rfl
    one_pos (by norm_num)
  have hgrid : grid = βs.map fin := by
    rw [hg] at hg2
    exact Option.some.inj hg2
  subst hgrid
  refine ⟨βs.map fin, hg, by rw [List.length_map, hβlen], ?_⟩
  intro i hi
  have hib : i < βs.length := by omega
  have hβ0 : βs[i] < 0 := hneg _ (List.getElem_mem hib)
  have hget : (βs.map fin : List (Dbl ℝ))[i]? = some (fin βs[i]) := by
    rw [List.getElem?_map, List.getElem?_eq_getElem hib]
    rfl
  obtain ⟨κ, hκ, h1, -⟩ := hall (βs.map fin) i βs[i] hget
    (by
      have h2 : (0 : ℝ) < 1 / 1000 := by norm_num
      linarith)
  obtain ⟨a, b, c⟩ := h1 (ne_of_lt hβ0)
  exact ⟨βs[i], κ, hget, hβ0, hκ, a, b, c⟩

end ScoreOfCandidate

/-! ## Candidates and the posterior mean in the log domain -/

section CandidateDomain

/-- Claim C22 (amended).  Grid candidates stay in the log domain.  On an ascending sample of
more than four positive finite values the grid is defined; every candidate
`b_i = (1 - sqrt(m / (i - 0.5))) / (3 x[floor(n/4 + 0.5) - 1]) + 1 / x[n-1]`, `i = 1..m`, is
strictly below `1 / x[n-1]`, so `1 - b_i x_j > 0`, and for every candidate `b` of the computed
grid the argument `-b x_j` of `log1p` is greater than `-1`; the same bound holds for every
combination of numbers below `1 / x[n-1]` with non-negative weights that sum to one.  For the
posterior mean over finite candidate values below `1 / x[n-1]`: when none of them is zero
the posterior mean `b` is finite and below `1 / x[n-1]` and the arguments `-b x_j` of the
last `log1p` are greater than `-1`; when one of them is zero the posterior mean is NaN, the
arguments `-b x_j` of the last `log1p` are NaN and the fit is `(NaN, NaN)`. -/
theorem gpdfitnew_log_domain (M : CMath ℝ) (hM : M.Exact) (xs : List ℝ)
    (hn : 4 < xs.length) (hs : xs.Sorted (· ≤ ·)) (hpos : ∀ x ∈ xs, 0 < x) :
    ∃ (xq xmax : ℝ) (bs : List (Dbl ℝ)),
      xs[(⌊(xs.length : ℝ) / 4 + 1 / 2⌋ - 1).toNat]? = some xq ∧
      xs[xs.length - 1]? = some xmax ∧
      gpdGrid M (xs.map fin) = some bs ∧
      bs = gridCandidates M (30 + ⌊Real.sqrt xs.length⌋).toNat (fin (3 * xq)) (fin xmax) ∧
      (∀ j : ℕ, j < (30 + ⌊Real.sqrt xs.length⌋).toNat →
        (1 - Real.sqrt ((30 + ⌊Real.sqrt xs.length⌋).toNat / (((j + 1 : ℕ) : ℝ) - 1 / 2)))
            / (3 * xq) + 1 / xmax < 1 / xmax ∧
        ∀ x ∈ xs, 0 < 1 -
          ((1 - Real.sqrt ((30 + ⌊Real.sqrt xs.length⌋).toNat / (((j + 1 : ℕ) : ℝ) - 1 / 2)))
            / (3 * xq) + 1 / xmax) * x) ∧
      (∀ b ∈ bs, lt b (fin (1 / xmax)) = true ∧
        ∀ x ∈ xs, lt (fin (-1)) (-b * fin x) = true) ∧
      (∀ cs vs : List ℝ, vs.length = cs.length → (∀ β ∈ cs, β < 1 / xmax) →
        (∀ v ∈ vs, 0 ≤ v) → vs.sum = 1 →
        (List.zipWith (· * ·) cs vs).sum < 1 / xmax ∧
        ∀ x ∈ xs, 0 < 1 - (List.zipWith (· * ·) cs vs).sum * x ∧
          lt (fin (-1)) (-(fin ((List.zipWith (· * ·) cs vs).sum)) * fin x) = true) ∧
      (∀ cs : List ℝ, cs ≠ [] → (∀ β ∈ cs, β < 1 / xmax) →
        ((∀ β ∈ cs, β ≠ 0) → ∃ b : ℝ,
          posteriorMean (gridWeights M (gridScores M (xs.map fin) (cs.map fin))) (cs.map fin)
            = fin b ∧
          b < 1 / xmax ∧ ∀ x ∈ xs, lt (fin (-1)) (-(fin b) * fin x) = true) ∧
        ((0 : ℝ) ∈ cs →
          posteriorMean (gridWeights M (gridScores M (xs.map fin) (cs.map fin))) (cs.map fin)
            = nan ∧
          (∀ x ∈ xs, -(posteriorMean (gridWeights M (gridScores M (xs.map fin)
              (cs.map fin))) (cs.map fin)) * fin x = nan ∧
            lt (fin (-1)) (-(posteriorMean (gridWeights M (gridScores M (xs.map fin)
              (cs.map fin))) (cs.map fin)) * fin x) = false) ∧
          fitFromMean M (xs.map fin) (posteriorMean (gridWeights M
            (gridScores M (xs.map fin) (cs.map fin))) (cs.map fin)) = (nan, nan))) := by
  obtain ⟨xq, xmax, hq, hmax, hg⟩ := gpdGrid_fin M hM xs (by omega)
  have hxq : 0 < xq := hpos xq (List.getElem?_mem hq)
  have hxmax : 0 < xmax := hpos xmax (List.getElem?_mem hmax)
  have hle := sorted_le_last xs hs xmax hmax
  have hne : xs ≠ [] := by
    intro h
    rw [h] at hn
    exact absurd hn (by simp)
  have harg : ∀ b : ℝ, b < 1 / xmax →
      ∀ x ∈ xs, 0 < 1 - b * x ∧ lt (fin (-1)) (-(fin b) * fin x) = true := by
    intro b hb x hx
    have h1 := mul_lt_one_of_lt_inv b xmax x (hpos x hx) (hle x hx) hb
    refine ⟨by linarith, ?_⟩
    rw [Dbl.neg_fin, Dbl.fin_mul_fin, Dbl.lt_fin_fin, decide_eq_true_eq]
    linarith
  refine ⟨xq, xmax, _, hq, hmax, hg, rfl, ?_, ?_, ?_, ?_⟩
  · intro j hj
    have h1 := candidate_lt _ j hj xq xmax hxq
    exact ⟨h1, fun x hx => (harg _ h1 x hx).1⟩
  · intro b hb
    rw [gridCandidates_fin M hM _ (3 * xq) xmax (by positivity) (ne_of_gt hxmax),
      List.map_map] at hb
    obtain ⟨j, hj, rfl⟩ := List.mem_map.1 hb
    have h1 := candidate_lt _ j (List.mem_range.1 hj) xq xmax hxq
    refine ⟨?_, fun x hx => (harg _ h1 x hx).2⟩
    rw [Function.comp_apply, Dbl.lt_fin_fin, decide_eq_true_eq]
    exact h1
  · intro cs vs hvl hβlt hv0 hv1
    have h1 := convex_sum_lt (1 / xmax) cs vs hvl hβlt hv0 (by rw [hv1]; exact one_pos)
    rw [hv1, mul_one] at h1
    exact ⟨h1, fun x hx => harg _ h1 x hx⟩
  · intro cs hcne hβlt
    constructor
    · intro hnz
      have hfin : ∀ L ∈ gridScores M (xs.map fin) (cs.map fin), ∃ r : ℝ, L = fin r := by
        intro L hL
        rw [gridScores_eq_map, List.map_map] at hL
        obtain ⟨β, hβ, rfl⟩ := List.mem_map.1 hL
        obtain ⟨κ, -, h1, -⟩ := score_of_candidate M hM xs hne hpos β
          (fun x hx => by
            have := (harg β (hβlt β hβ) x hx).1
            linarith)
        exact ⟨_, (h1 (hnz β hβ)).2.2⟩
      obtain ⟨Ls, hLs⟩ := list_fin_of_forall _ hfin
      have hLlen : Ls.length = cs.length := by
        have := congrArg List.length hLs
        rw [gridScores_eq_map, List.length_map, List.length_map, List.length_map] at this
        exact this.symm
      have hLne : Ls ≠ [] := by
        intro h
        rw [h, List.length_nil] at hLlen
        exact hcne (List.length_eq_zero.1 hLlen.symm)
      have hT := sum_exp_pos Ls hLne
      rw [hLs, gridWeights_fin M hM Ls hLne]
      obtain ⟨β2, v2, hsub, hvlen, hv0, hv1, hmean⟩ :=
        posteriorMean_fin (Ls.map (fun c => Real.exp c / (Ls.map Real.exp).sum)) cs
          (by rw [List.length_map]; exact hLlen.symm)
          (fun w hw => by
            obtain ⟨c, -, rfl⟩ := List.mem_map.1 hw
            exact div_pos (Real.exp_pos c) hT)
      have hb : (List.zipWith (· * ·) β2 v2).sum < 1 / xmax := by
        rcases hv1 with h | h
        · rw [h, List.zipWith_nil_right, List.sum_nil]
          positivity
        · have h1 := convex_sum_lt (1 / xmax) β2 v2 hvlen (fun β hβ => hβlt β (hsub β hβ))
            hv0 (by rw [h]; exact one_pos)
          rw [h, mul_one] at h1
          exact h1
      exact ⟨_, hmean, hb, fun x hx => (harg _ hb x hx).2⟩
    · intro h0
      have hpm := posteriorMean_of_zero_candidate M hM xs hne hpos (cs.map fin)
        (List.mem_map.2 ⟨0, h0, rfl⟩)
      rw [hpm]
      exact ⟨rfl, fun x _ => ⟨rfl, rfl⟩, fitFromMean_nan M _ (by simpa using hne)⟩

theorem gpdfitnew_log_domain_witness :
    ∃ (bs : List (Dbl ℝ)) (b : ℝ),
      gpdGrid (CMath.mk Real.exp Real.log (fun x => Real.log (1 + x))
        (fun x => Real.exp x - 1) Real.sqrt) (([1, 2, 3, 4, 1000] : List ℝ).map fin)
        = some bs ∧
      (∀ c ∈ bs, lt c (fin (1 / 1000)) = true ∧
        ∀ x ∈ ([1, 2, 3, 4, 1000] : List ℝ), lt (fin (-1)) (-c * fin x) = true) ∧
      posteriorMean (gridWeights (CMath.mk Real.exp Real.log (fun x => Real.log (1 + x))
        (fun x => Real.exp x - 1) Real.sqrt) (gridScores (CMath.mk Real.exp Real.log
        (fun x => Real.log (1 + x)) (fun x => Real.exp x - 1) Real.sqrt)
        (([1, 2, 3, 4, 1000] : List ℝ).map fin) bs)) bs = fin b ∧
      b < 1 / 1000 ∧
      ∀ x ∈ ([1, 2, 3, 4, 1000] : List ℝ), lt (fin (-1)) (-(fin b) * fin x) = true := by
  have hM : (CMath.mk Real.exp Real.log (fun x => Real.log (1 + x))
        (fun x => Real.exp x - 1) Real.sqrt).Exact :=
    ⟨fun _ => rfl, fun _ => rfl, fun _ => rfl, fun _ => rfl, fun _ => rfl⟩
  generalize hMd : (CMath.mk Real.exp Real.log (fun x => Real.log (1 + x))
        (fun x => Real.exp x - 1) Real.sqrt) = M at hM
  obtain ⟨xq, xmax, bs, -, hmax, hg, -, -, hbs, -, hpm⟩ := gpdfitnew_log_domain M hM
    [1, 2, 3, 4, 1000] (by decide) (by simp [List.Sorted]; norm_num)
    (by
      intro x hx
      simp only [List.mem_cons, List.mem_singleton, List.not_mem_nil, or_false] at hx
      rcases hx with h | h | h | h | h <;> rw [h] <;> norm_num)
  have hx5 : xmax = 1000 := (Option.some.inj hmax).symm
  subst hx5
  obtain ⟨βs, hg2, -, hβlen, hneg⟩ := grid_five M hM [1, 2, 3, 4, 1000] rfl 1 1000 rfl rfl
    one_pos (by norm_num)
  have hbs2 : bs = βs.map fin := by
    rw [hg] at hg2
    exact Option.some.inj hg2
  obtain ⟨b, hb, hlt, harg⟩ := (hpm βs
    (by
      intro h
      rw [h] at hβlen
      simp at hβlen)
    (fun β hβ => by
      have := hneg β hβ
      have h2 : (0 : ℝ) < 1 / 1000 := by norm_num
      linarith)).1 (fun β hβ => ne_of_lt (hneg β hβ))
  rw [← hbs2] at hb
  exact ⟨bs, b, hg, hbs, hb, hlt, harg⟩

end CandidateDomain

/-! ## The two paths of `psislw` -/

section Polarity

theorem ge_one_third (kr : ℝ) (h : 1 / 3 ≤ kr) : ge (fin kr) (fin 1 / fin 3 : Dbl ℝ) = true := by
  rw [Dbl.fin_div_fin _ _ (by norm_num : (3 : ℝ) ≠ 0), Dbl.ge_fin_fin, decide_eq_true_eq]
  exact h

/-- Claim C4.  Smoothing polarity: past the early exit (tail size above 4) the fit
`(k, sigma)` of the exceedances is defined and decides the path.  When `k >= 1/3` the result
holds, at the recorded index of the tail element of rank `j`, the substituted and clamped
value `min(log(q_j + exp(xcutoff)), 0) - sumlogs`, with `q_j` element `j` of `gpinv` at the
probabilities `(t + 1/2) / n2`, and at every other index the clamped input
`min(lw[i] - max(lw), 0) - sumlogs`, where `sumlogs` is the log-normaliser accumulated over
the smoothed vector.  When `k >= 1/3` is false (in particular when `k < 1/3`) no element is
smoothed and the output is the input with one constant subtracted from every element. -/
theorem psislw_smoothing_polarity (M : CMath ℝ) (hM : M.Exact) (xs : List ℝ) (Reff : Dbl ℝ)
    (c : ℤ) (hc : cutoffInd M xs.length Reff = some c) (h4 : 4 < c) :
    ∃ (m : ℝ) (s : Split ℝ) (k sigma : Dbl ℝ), m ∈ xs ∧ (∀ x ∈ xs, x ≤ m) ∧
      psislwSplit M (xs.map fin) Reff = some s ∧ 4 < s.tail.length ∧
      gpdfitnew M (exceedances M s) = some (k, sigma) ∧
      (ge k (fin 1 / fin 3) = true →
        ∃ (sumlogs : Dbl ℝ) (out : List (Dbl ℝ)),
          (∃ a l, smoothTail M s k sigma = a :: l ∧
            sumlogs = l.foldl (fun acc w => logSum M acc w) a) ∧
          psislw M (xs.map fin) Reff = some (k, out) ∧ out.length = xs.length ∧
          (∀ (j : ℕ) (q : Dbl ℝ × ℕ), s.tail[j]? = some q →
            ∃ qj, (gpinv M ((List.range s.tail.length).map
                (fun t : ℕ => fin (((t : ℝ) + 1 / 2) / s.tail.length))) k sigma)[j]? = some qj ∧
              out[q.2]? = some (Dbl.min (log M (qj + exp M s.xcutoff)) (fin 0) - sumlogs)) ∧
          (∀ (i : ℕ) (x : ℝ), xs[i]? = some x → i ∉ s.tail.map Prod.snd →
            out[i]? = some (Dbl.min (fin (x - m)) (fin 0) - sumlogs))) ∧
      (ge k (fin 1 / fin 3) = false →
        ∃ d : ℝ, psislw M (xs.map fin) Reff = some (k, xs.map (fun x => fin (x - d)))) ∧
      (lt k (fin 1 / fin 3) = true → ge k (fin 1 / fin 3) = false) := by
  obtain ⟨m, s, vc, hmem, hmax, hs, hlw, htail, hlen, hcn, -, -⟩ :=
    psislwSplit_cutoff M xs Reff c hc (by omega)
  have hne : xs ≠ [] := List.ne_nil_of_mem hmem
  have hlen4 : 4 < s.tail.length := by
    rw [hlen]
    omega
  have hlenlw : s.lw.length = xs.length := by rw [hlw, List.length_map]
  have hnd : (s.tail.map Prod.snd).Nodup := by
    rw [htail, ← hlenlw]
    exact tail_indices_nodup s.lw _
  have hidx : ∀ q ∈ s.tail, q.2 < xs.length := by
    intro q hq
    rw [htail] at hq
    have h1 : q ∈ List.zip s.lw (List.range xs.length) :=
      (sortPairs_perm _).mem_iff.1 (List.mem_of_mem_drop hq)
    obtain ⟨a, i⟩ := q
    exact List.mem_range.1 (List.of_mem_zip h1).2
  obtain ⟨k, sigma, hfit⟩ := gpdfitnew_some M (exceedances M s)
    (by rw [exceedances_length]; omega)
  refine ⟨m, s, k, sigma, hmem, hmax, hs, hlen4, hfit, ?_, ?_, Dbl.ge_eq_false_of_lt⟩
  · intro hk
    obtain ⟨htl, hbody⟩ := smoothTail_entries M xs m s k sigma hlw (by omega) hnd hidx
    have hne2 : smoothTail M s k sigma ≠ [] := by
      intro h
      have hl := smoothTail_length M s k sigma
      rw [h, hlenlw] at hl
      cases xs with
      | nil => exact hne rfl
      | cons a l => simp at hl
    obtain ⟨a, l, hal⟩ := List.exists_cons_of_ne_nil hne2
    have hren : renormalize M (smoothTail M s k sigma)
        = some ((smoothTail M s k sigma).map
            (fun xx => xx - l.foldl (fun acc w => logSum M acc w) a)) := by
      rw [hal]
      rfl
    refine ⟨l.foldl (fun acc w => logSum M acc w) a,
      (smoothTail M s k sigma).map (fun xx => xx - l.foldl (fun acc w => logSum M acc w) a),
      ⟨a, l, hal, rfl⟩, ?_, ?_, ?_, ?_⟩
    · rw [psislw_of_fit M _ _ s k sigma hs hlen4 hfit]
      simp only [hk, if_true, hren]
      rfl
    · rw [List.length_map, smoothTail_length, hlenlw]
    · intro j q hq
      obtain ⟨qj, hqj, hent⟩ := htl j q hq
      exact ⟨qj, hqj, by rw [List.getElem?_map, hent]; rfl⟩
    · intro i x hx hi
      rw [List.getElem?_map, hbody i x hx hi]
      rfl
  · intro hk
    obtain ⟨z, hz⟩ := renormalize_fin M hM (xs.map (fun x => x - m))
      (by simpa using hne)
    refine ⟨m + z, ?_⟩
    rw [psislw_of_fit M _ _ s k sigma hs hlen4 hfit]
    simp only [hk, Bool.false_eq_true, if_false, hlw]
    rw [List.map_map] at hz
    rw [show (fun x : ℝ => fin (x - m)) = (fin ∘ fun x => x - m) from rfl, hz]
    simp only [Option.map_some', List.map_map, Option.some.injEq, Prod.mk.injEq, true_and]
    apply List.map_congr_left
    intro a _
    simp only [Function.comp]
    congr 1
    ring

theorem psislw_smoothing_polarity_witness :
    cutoffInd (CMath.mk Real.exp Real.log (fun x => Real.log (1 + x))
      (fun x => Real.exp x - 1) Real.sqrt)
      (List.replicate 21 (-13) ++ [-12, -3, -2, -1, 0] : List ℝ).length (fin 1) = some 5 ∧
    ∃ (s : Split ℝ) (kr sr : ℝ) (sumlogs : Dbl ℝ) (out : List (Dbl ℝ)),
      psislwSplit (CMath.mk Real.exp Real.log (fun x => Real.log (1 + x))
        (fun x => Real.exp x - 1) Real.sqrt)
        ((List.replicate 21 (-13) ++ [-12, -3, -2, -1, 0] : List ℝ).map fin) (fin 1) = some s ∧
      s.tail
        = [(fin (-12), 21), (fin (-3), 22), (fin (-2), 23), (fin (-1), 24), (fin 0, 25)] ∧
      s.xcutoff = fin (-13) ∧
      gpdfitnew (CMath.mk Real.exp Real.log (fun x => Real.log (1 + x))
        (fun x => Real.exp x - 1) Real.sqrt) (exceedances (CMath.mk Real.exp Real.log
        (fun x => Real.log (1 + x)) (fun x => Real.exp x - 1) Real.sqrt) s)
        = some (fin kr, fin sr) ∧
      1 / 3 < kr ∧ 0 < sr ∧
      psislw (CMath.mk Real.exp Real.log (fun x => Real.log (1 + x))
        (fun x => Real.exp x - 1) Real.sqrt)
        ((List.replicate 21 (-13) ++ [-12, -3, -2, -1, 0] : List ℝ).map fin) (fin 1)
        = some (fin kr, out) ∧
      out.length = 26 ∧
      (∀ (j : ℕ) (q : Dbl ℝ × ℕ), s.tail[j]? = some q →
        ∃ qj, (gpinv (CMath.mk Real.exp Real.log (fun x => Real.log (1 + x))
            (fun x => Real.exp x - 1) Real.sqrt) ((List.range s.tail.length).map
            (fun t : ℕ => fin (((t : ℝ) + 1 / 2) / s.tail.length))) (fin kr) (fin sr))[j]?
            = some qj ∧
          out[q.2]? = some (Dbl.min (log (CMath.mk Real.exp Real.log
            (fun x => Real.log (1 + x)) (fun x => Real.exp x - 1) Real.sqrt)
            (qj + exp (CMath.mk Real.exp Real.log (fun x => Real.log (1 + x))
            (fun x => Real.exp x - 1) Real.sqrt) s.xcutoff)) (fin 0) - sumlogs)) ∧
      (∀ (i : ℕ) (x : ℝ),
        (List.replicate 21 (-13) ++ [-12, -3, -2, -1, 0] : List ℝ)[i]? = some x → i < 21 →
        out[i]? = some (Dbl.min (fin (x - 0)) (fin 0) - sumlogs)) := by
  have hM : (CMath.mk Real.exp Real.log (fun x => Real.log (1 + x))
        (fun x => Real.exp x - 1) Real.sqrt).Exact :=
    ⟨fun _ => rfl, fun _ => rfl, fun _ => rfl, fun _ => rfl, fun _ => rfl⟩
  generalize hMd : (CMath.mk Real.exp Real.log (fun x => Real.log (1 + x))
        (fun x => Real.exp x - 1) Real.sqrt) = M at hM
  have hc : cutoffInd M (List.replicate 21 (-13) ++ [-12, -3, -2, -1, 0] : List ℝ).length
      (fin 1) = some 5 := cutoffInd_twenty_six M hM
  refine ⟨hc, ?_⟩
  obtain ⟨m, s, k, sigma, hmem, hmax, hs, -, hfit, hyes, -, -⟩ := psislw_smoothing_polarity M hM
    (List.replicate 21 (-13) ++ [-12, -3, -2, -1, 0]) (fin 1) 5 hc (by norm_num)
  obtain ⟨s2, hs2, htail, hxc⟩ := smoothing_sample_split M hM
  have hss : s2 = s := by
    rw [hs] at hs2
    exact (Option.some.inj hs2).symm
  subst hss
  obtain ⟨-, kr, sr, hfit2, hkr, hsr⟩ := smoothing_sample_fit M hM s2 htail hxc
  have hks : k = fin kr ∧ sigma = fin sr := by
    rw [hfit] at hfit2
    exact Prod.mk.inj (Option.some.inj hfit2)
  obtain ⟨hk, hsg⟩ := hks
  subst hk hsg
  have hm : m = 0 := by
    apply le_antisymm
    · simp only [List.mem_append, List.mem_replicate, List.mem_cons, List.mem_singleton,
        List.not_mem_nil, or_false] at hmem
      rcases hmem with h | h | h | h | h | h
      · rw [h.2]
        norm_num
      all_goals (subst h; norm_num)
    · apply hmax
      simp
  subst hm
  obtain ⟨sumlogs, out, -, hres, hol, htl, hbody⟩ := hyes (ge_one_third kr (le_of_lt hkr))
  refine ⟨s2, kr, sr, sumlogs, out, hs, htail, hxc, hfit, hkr, hsr, hres, hol, htl, ?_⟩
  intro i x hx hi
  apply hbody i x hx
  rw [htail]
  simp only [List.map_cons, List.map_nil, List.mem_cons, List.mem_singleton,
    List.not_mem_nil, or_false]
  omega

end Polarity

section WriteBackSample

theorem psislw_tail_write_back_witness :
    cutoffInd (CMath.mk Real.exp Real.log (fun x => Real.log (1 + x))
      (fun x => Real.exp x - 1) Real.sqrt)
      (List.replicate 21 (-13) ++ [-12, -3, -2, -1, 0] : List ℝ).length (fin 1) = some 5 ∧
    ∃ (s : Split ℝ) (kr sr : ℝ) (sumlogs : Dbl ℝ) (out : List (Dbl ℝ)),
      psislwSplit (CMath.mk Real.exp Real.log (fun x => Real.log (1 + x))
        (fun x => Real.exp x - 1) Real.sqrt)
        ((List.replicate 21 (-13) ++ [-12, -3, -2, -1, 0] : List ℝ).map fin) (fin 1) = some s ∧
      s.tail.map Prod.snd = [21, 22, 23, 24, 25] ∧
      (s.tail.map Prod.snd).Nodup ∧
      gpdfitnew (CMath.mk Real.exp Real.log (fun x => Real.log (1 + x))
        (fun x => Real.exp x - 1) Real.sqrt) (exceedances (CMath.mk Real.exp Real.log
        (fun x => Real.log (1 + x)) (fun x => Real.exp x - 1) Real.sqrt) s)
        = some (fin kr, fin sr) ∧
      ge (fin kr) (fin 1 / fin 3 : Dbl ℝ) = true ∧ 0 < sr ∧
      (∃ a l, smoothTail (CMath.mk Real.exp Real.log (fun x => Real.log (1 + x))
          (fun x => Real.exp x - 1) Real.sqrt) s (fin kr) (fin sr) = a :: l ∧
        sumlogs = l.foldl (fun acc w => logSum (CMath.mk Real.exp Real.log
          (fun x => Real.log (1 + x)) (fun x => Real.exp x - 1) Real.sqrt) acc w) a) ∧
      psislw (CMath.mk Real.exp Real.log (fun x => Real.log (1 + x))
        (fun x => Real.exp x - 1) Real.sqrt)
        ((List.replicate 21 (-13) ++ [-12, -3, -2, -1, 0] : List ℝ).map fin) (fin 1)
        = some (fin kr, out) ∧
      out.length = 26 ∧
      (∀ j : ℕ, j < 5 →
        ∃ qj, (gpinv (CMath.mk Real.exp Real.log (fun x => Real.log (1 + x))
            (fun x => Real.exp x - 1) Real.sqrt) ((List.range 5).map
            (fun t : ℕ => fin (((t : ℝ) + 1 / 2) / (5 : ℕ)))) (fin kr) (fin sr))[j]?
            = some qj ∧
          out[21 + j]? = some (Dbl.min (log (CMath.mk Real.exp Real.log
            (fun x => Real.log (1 + x)) (fun x => Real.exp x - 1) Real.sqrt)
            (qj + exp (CMath.mk Real.exp Real.log (fun x => Real.log (1 + x))
            (fun x => Real.exp x - 1) Real.sqrt) (fin (-13)))) (fin 0) - sumlogs)) ∧
      (∀ i : ℕ, i < 21 → out[i]? = some (fin (-13 - 0) - sumlogs)) := by
  have hM : (CMath.mk Real.exp Real.log (fun x => Real.log (1 + x))
        (fun x => Real.exp x - 1) Real.sqrt).Exact :=
    ⟨fun _ => rfl, fun _ => rfl, fun _ => rfl, fun _ => rfl, fun _ => rfl⟩
  generalize hMd : (CMath.mk Real.exp Real.log (fun x => Real.log (1 + x))
        (fun x => Real.exp x - 1) Real.sqrt) = M at hM
  have hc : cutoffInd M (List.replicate 21 (-13) ++ [-12, -3, -2, -1, 0] : List ℝ).length
      (fin 1) = some 5 := cutoffInd_twenty_six M hM
  refine ⟨hc, ?_⟩
  obtain ⟨m, s, hmem, hmax, hs, -, -, hnd, hall⟩ := psislw_tail_write_back M
    (List.replicate 21 (-13) ++ [-12, -3, -2, -1, 0]) (fin 1) 5 hc (by norm_num)
  obtain ⟨s2, hs2, htail, hxc⟩ := smoothing_sample_split M hM
  have hss : s2 = s := by
    rw [hs] at hs2
    exact (Option.some.inj hs2).symm
  subst hss
  obtain ⟨-, kr, sr, hfit, hkr, hsr⟩ := smoothing_sample_fit M hM s2 htail hxc
  have hm : m = 0 := by
    apply le_antisymm
    · simp only [List.mem_append, List.mem_replicate, List.mem_cons, List.mem_singleton,
        List.not_mem_nil, or_false] at hmem
      rcases hmem with h | h | h | h | h | h
      · rw [h.2]
        norm_num
      all_goals (subst h; norm_num)
    · apply hmax
      simp
  subst hm
  have hge := ge_one_third kr (le_of_lt hkr)
  obtain ⟨sumlogs, out, hsum, -, hres, hol, htl, hbody⟩ := hall (fin kr) (fin sr)
  have hsnd : s2.tail.map Prod.snd = [21, 22, 23, 24, 25] := by rw [htail]; rfl
  have hl5 : s2.tail.length = 5 := by rw [htail]; rfl
  refine ⟨s2, kr, sr, sumlogs, out, hs, hsnd, hnd, hfit, hge, hsr, hsum, hres hfit hge, hol,
    ?_, ?_⟩
  · intro j hj
    have hq : s2.tail[j]? = some (s2.tail[j]) := List.getElem?_eq_getElem (by omega)
    obtain ⟨qj, hqj, hent⟩ := htl j _ hq
    have hidx : (s2.tail[j]).2 = 21 + j := by
      have h1 : (s2.tail.map Prod.snd)[j]? = some (s2.tail[j]).2 := by
        rw [List.getElem?_map, hq]
        rfl
      rw [hsnd] at h1
      have h2 : ([21, 22, 23, 24, 25] : List ℕ)[j]? = some (21 + j) := by
        interval_cases j <;> rfl
      rw [h2] at h1
      exact (Option.some.inj h1).symm
    rw [hl5] at hqj
    rw [hidx, hxc] at hent
    exact ⟨qj, hqj, hent⟩
  · intro i hi
    have hx : (List.replicate 21 (-13) ++ [-12, -3, -2, -1, 0] : List ℝ)[i]? = some (-13) := by
      rw [List.getElem?_append_left (by simpa using hi), List.getElem?_replicate]
      simp [hi]
    apply hbody i (-13) hx
    rw [hsnd]
    simp only [List.mem_cons, List.mem_singleton, List.not_mem_nil, or_false]
    omega

end WriteBackSample
